import Mathlib

/-!
# Verification of the GloVe preprocessing pipeline

Shallow embedding of `src/vocab_count.c` and `src/cooccur.c` (which also
contains the shuffler `shuffle.c`) of the GloVe repository, together with
proofs about the pipeline's claimed properties.

Modelling conventions:
* C `int` / `long long` word identifiers become `ℤ` (all arithmetic on them
  in the source stays far from any overflow boundary for the vocabulary
  sizes the ranks come from, and C integer division on the nonnegative
  operands used here agrees with `Int.div`).
* The C `double` weights become `ℚ`: the specification treats the weight
  field as an exact positive real, and every weight handled by the pipeline
  is a finite sum of reciprocals of small integers.
* A corpus is modelled at the boundary of `get_word`: a list of token /
  newline events (`get_word` itself is modelled separately, at byte level,
  for the tokenization claims).
* Files become lists; a C `fread` into a local that fails at end-of-file
  leaves the local unchanged, which the merge model reproduces faithfully.
-/

set_option linter.unusedVariables false

namespace GloVe

/-! ## Records

`CREC` mirrors `struct cooccur_rec` and `CRECID` mirrors
`struct cooccur_rec_id` from `cooccur.c`. -/

structure CREC where
  word1 : ℤ
  word2 : ℤ
  val : ℚ
deriving DecidableEq

structure CRECID where
  word1 : ℤ
  word2 : ℤ
  val : ℚ
  id : ℕ
deriving DecidableEq

instance : Inhabited CREC := ⟨⟨0, 0, 0⟩⟩

instance : Inhabited CRECID := ⟨⟨0, 0, 0, 0⟩⟩

/-- The sort key `(word1, word2)` of a record, with the lexicographic order. -/
def CREC.key (r : CREC) : ℤ ×ₗ ℤ := toLex (r.word1, r.word2)

/-- The sort key of a heap entry (the `id` and `val` fields do not take part
in comparisons, mirroring `compare_crecid`). -/
def CRECID.key (r : CRECID) : ℤ ×ₗ ℤ := toLex (r.word1, r.word2)

/-- Forget the source-file tag, as `merge_write`/`fwrite` do when they write
a `CRECID` with `sizeof(CREC)` bytes. -/
def CRECID.toCREC (r : CRECID) : CREC := ⟨r.word1, r.word2, r.val⟩

/-- Attach a source-file tag, as `new.id = i` does after an `fread`. -/
def CREC.toID (r : CREC) (i : ℕ) : CRECID := ⟨r.word1, r.word2, r.val, i⟩

/-- `compare_crec` from `cooccur.c`: compare two records by `word1`, then by
`word2`, returning the signed difference that decides. -/
def compare_crec (a b : CREC) : ℤ :=
  if a.word1 - b.word1 ≠ 0 then a.word1 - b.word1 else a.word2 - b.word2

/-- `compare_crecid` from `cooccur.c`. -/
def compare_crecid (a b : CRECID) : ℤ :=
  if a.word1 - b.word1 ≠ 0 then a.word1 - b.word1 else a.word2 - b.word2

theorem key_eq_iff (a b : CREC) :
    a.key = b.key ↔ a.word1 = b.word1 ∧ a.word2 = b.word2 := by
  unfold CREC.key
  constructor
  · intro h
    have := congrArg (fun p => (ofLex p).1) h
    have := congrArg (fun p => (ofLex p).2) h
    simp_all
  · rintro ⟨h1, h2⟩; rw [h1, h2]

theorem keyID_eq_iff (a b : CRECID) :
    a.key = b.key ↔ a.word1 = b.word1 ∧ a.word2 = b.word2 := by
  unfold CRECID.key
  constructor
  · intro h
    have := congrArg (fun p => (ofLex p).1) h
    have := congrArg (fun p => (ofLex p).2) h
    simp_all
  · rintro ⟨h1, h2⟩; rw [h1, h2]

theorem compare_crec_nonpos_iff (a b : CREC) :
    compare_crec a b ≤ 0 ↔ a.key ≤ b.key := by
  unfold compare_crec CREC.key
  rw [Prod.Lex.le_iff]
  by_cases h : a.word1 - b.word1 ≠ 0 <;> simp [h] <;> omega

theorem compare_crec_pos_iff (a b : CREC) :
    0 < compare_crec a b ↔ b.key < a.key := by
  unfold compare_crec CREC.key
  rw [Prod.Lex.lt_iff]
  by_cases h : a.word1 - b.word1 ≠ 0 <;> simp [h] <;> omega

theorem compare_crecid_pos_iff (a b : CRECID) :
    0 < compare_crecid a b ↔ b.key < a.key := by
  unfold compare_crecid CRECID.key
  rw [Prod.Lex.lt_iff]
  by_cases h : a.word1 - b.word1 ≠ 0 <;> simp [h] <;> omega

theorem compare_crecid_nonpos_iff (a b : CRECID) :
    compare_crecid a b ≤ 0 ↔ a.key ≤ b.key := by
  unfold compare_crecid CRECID.key
  rw [Prod.Lex.le_iff]
  by_cases h : a.word1 - b.word1 ≠ 0 <;> simp [h] <;> omega

/-- Sum of the `val` fields of a list of records. -/
def sumVals (l : List CREC) : ℚ := (l.map CREC.val).sum

@[simp] theorem sumVals_nil : sumVals [] = 0 := rfl

@[simp] theorem sumVals_cons (r : CREC) (l : List CREC) :
    sumVals (r :: l) = r.val + sumVals l := rfl

@[simp] theorem sumVals_append (l₁ l₂ : List CREC) :
    sumVals (l₁ ++ l₂) = sumVals l₁ + sumVals l₂ := by
  simp [sumVals]

theorem sumVals_perm {l₁ l₂ : List CREC} (h : l₁.Perm l₂) :
    sumVals l₁ = sumVals l₂ :=
  (h.map CREC.val).sum_eq

/-! ## `write_chunk` (cooccur.c)

Writes a sorted buffer of records, accumulating runs of records that agree
in `(word1, word2)` into a single record. -/

/-- The loop of `write_chunk`: `old` is the record being accumulated,
the list is `cr[a..]`. -/
def wcAux (old : CREC) : List CREC → List CREC
  | [] => [old]
  | r :: rest =>
    if r.word1 = old.word1 ∧ r.word2 = old.word2 then
      wcAux { old with val := old.val + r.val } rest
    else
      old :: wcAux r rest

/-- `write_chunk` from `cooccur.c` (the record-merging writer used for the
overflow run files; the byte-level `fwrite` becomes list emission). -/
def write_chunk : List CREC → List CREC
  | [] => []
  | a :: rest => wcAux a rest

theorem wcAux_sumVals (old : CREC) (l : List CREC) :
    sumVals (wcAux old l) = old.val + sumVals l := by
  induction l generalizing old with
  | nil => simp [wcAux]
  | cons r rest ih =>
    by_cases h : r.word1 = old.word1 ∧ r.word2 = old.word2
    · simp only [wcAux, if_pos h, ih]; simp; ring
    · simp only [wcAux, if_neg h, ih, sumVals_cons]

theorem write_chunk_sumVals (l : List CREC) :
    sumVals (write_chunk l) = sumVals l := by
  cases l with
  | nil => rfl
  | cons a rest => simp [write_chunk, wcAux_sumVals]

theorem wcAux_keys_lb : ∀ (l : List CREC) (old : CREC),
    l.Pairwise (fun a b => a.key ≤ b.key) →
    (∀ r ∈ l, old.key ≤ r.key) →
    ∀ x ∈ wcAux old l, old.key ≤ x.key := by
  intro l
  induction l with
  | nil => intro old _ _ x hx; simp [wcAux] at hx; subst hx; exact le_refl _
  | cons r rest ih =>
    intro old hsort hlb x hx
    have hsort' : rest.Pairwise (fun a b => a.key ≤ b.key) :=
      (List.pairwise_cons.1 hsort).2
    have hrrest : ∀ s ∈ rest, r.key ≤ s.key := (List.pairwise_cons.1 hsort).1
    by_cases h : r.word1 = old.word1 ∧ r.word2 = old.word2
    · have hkey : r.key = old.key := (key_eq_iff r old).2 h
      simp only [wcAux, if_pos h] at hx
      exact ih { old with val := old.val + r.val } hsort'
        (fun s hs => by
          have hoe : ({ old with val := old.val + r.val } : CREC).key = old.key := rfl
          rw [hoe, ← hkey]; exact hrrest s hs) x hx
    · simp only [wcAux, if_neg h] at hx
      rcases List.mem_cons.1 hx with hx | hx
      · subst hx; exact le_refl _
      · exact le_trans (hlb r (by simp)) (ih r hsort' hrrest x hx)

theorem wcAux_pairwise : ∀ (l : List CREC) (old : CREC),
    l.Pairwise (fun a b => a.key ≤ b.key) →
    (∀ r ∈ l, old.key ≤ r.key) →
    (wcAux old l).Pairwise (fun a b => a.key < b.key) := by
  intro l
  induction l with
  | nil => intro old _ _; simp [wcAux]
  | cons r rest ih =>
    intro old hsort hlb
    have hsort' : rest.Pairwise (fun a b => a.key ≤ b.key) :=
      (List.pairwise_cons.1 hsort).2
    have hrrest : ∀ s ∈ rest, r.key ≤ s.key := (List.pairwise_cons.1 hsort).1
    by_cases h : r.word1 = old.word1 ∧ r.word2 = old.word2
    · have hkey : r.key = old.key := (key_eq_iff r old).2 h
      simp only [wcAux, if_pos h]
      exact ih { old with val := old.val + r.val } hsort'
        (fun s hs => by
          have hoe : ({ old with val := old.val + r.val } : CREC).key = old.key := rfl
          rw [hoe, ← hkey]; exact hrrest s hs)
    · have hne : r.key ≠ old.key := fun hc => h ((key_eq_iff r old).1 hc)
      have hlt : old.key < r.key :=
        lt_of_le_of_ne (hlb r (by simp)) (Ne.symm hne)
      simp only [wcAux, if_neg h]
      refine List.pairwise_cons.2 ⟨?_, ?_⟩
      · intro x hx
        exact lt_of_lt_of_le hlt (wcAux_keys_lb rest r hsort' hrrest x hx)
      · exact ih r hsort' hrrest

/-- A sorted buffer comes out of `write_chunk` strictly increasing in the
key: adjacent equal keys have been merged. -/
theorem write_chunk_pairwise (l : List CREC)
    (hsort : l.Pairwise (fun a b => a.key ≤ b.key)) :
    (write_chunk l).Pairwise (fun a b => a.key < b.key) := by
  cases l with
  | nil => simp [write_chunk]
  | cons a rest =>
    exact wcAux_pairwise rest a
      (List.pairwise_cons.1 hsort).2
      (List.pairwise_cons.1 hsort).1

/-- The comparator relation `compare_crec(a, b) <= 0` that `qsort` receives. -/
def crLe (a b : CREC) : Prop := compare_crec a b ≤ 0

instance : DecidableRel crLe := fun a b =>
  inferInstanceAs (Decidable (compare_crec a b ≤ 0))

instance : IsTotal CREC crLe :=
  ⟨fun a b => by
    unfold crLe
    rw [compare_crec_nonpos_iff, compare_crec_nonpos_iff]
    exact le_total a.key b.key⟩

instance : IsTrans CREC crLe :=
  ⟨fun a b c hab hbc => by
    unfold crLe at *
    rw [compare_crec_nonpos_iff] at *
    exact le_trans hab hbc⟩

/-- `qsort(cr, ind, sizeof(CREC), compare_crec)`: C's `qsort` sorts by the
comparator with an unspecified order among tied records, and every property
proved below is insensitive to the tie order, so any sort by the comparator
is a faithful model. -/
def qsortCrec (l : List CREC) : List CREC :=
  l.insertionSort crLe

theorem qsortCrec_perm (l : List CREC) : (qsortCrec l).Perm l :=
  List.perm_insertionSort crLe l

theorem qsortCrec_pairwise (l : List CREC) :
    (qsortCrec l).Pairwise (fun a b => a.key ≤ b.key) := by
  have h := List.sorted_insertionSort crLe l
  refine (List.Pairwise.imp ?_ h)
  intro a b hab
  rw [crLe, compare_crec_nonpos_iff] at hab
  exact hab

/-! ## The priority queue of `merge_files` (cooccur.c)

The C code keeps a binary min-heap of `CRECID` in the array `pq`, ordered by
`compare_crecid`.  We model the array as a `List CRECID` whose length never
changes; `size` is the number of active entries. -/

/-- `swap_entry` from `cooccur.c`. -/
def swap_entry (pq : List CRECID) (i j : ℕ) : List CRECID :=
  let temp := pq.getD i default
  (pq.set i (pq.getD j default)).set j temp

/-- The sift-up loop inside `insert`: `j` is the index of the entry that may
violate the heap order with its parent.  (At `j = 0` the C loop compares
`pq[0]` with itself and stops, hence the base case.) -/
def siftUp (pq : List CRECID) (j : ℕ) : List CRECID :=
  if h : j = 0 then pq
  else
    if 0 < compare_crecid (pq.getD ((j - 1) / 2) default) (pq.getD j default) then
      siftUp (swap_entry pq ((j - 1) / 2) j) ((j - 1) / 2)
    else pq
termination_by j
decreasing_by
  exact Nat.lt_of_le_of_lt (Nat.div_le_self _ 2) (Nat.pred_lt h)

/-- `insert` from `cooccur.c`: store the new entry at `pq[size-1]` and sift
it up. -/
def insert (pq : List CRECID) (new : CRECID) (size : ℕ) : List CRECID :=
  siftUp (pq.set (size - 1) new) (size - 1)

/-- The sift-down loop inside `delete`; the active part of the heap after the
deletion is `size - 1` entries. -/
def siftDown (pq : List CRECID) (size p : ℕ) : List CRECID :=
  if hj : 2 * p + 1 < size - 1 then
    if 2 * p + 1 = size - 2 then
      if 0 < compare_crecid (pq.getD p default) (pq.getD (2 * p + 1) default) then
        swap_entry pq p (2 * p + 1)
      else pq
    else
      if compare_crecid (pq.getD (2 * p + 1) default) (pq.getD (2 * p + 2) default) < 0 then
        if 0 < compare_crecid (pq.getD p default) (pq.getD (2 * p + 1) default) then
          siftDown (swap_entry pq p (2 * p + 1)) size (2 * p + 1)
        else pq
      else
        if 0 < compare_crecid (pq.getD p default) (pq.getD (2 * p + 2) default) then
          siftDown (swap_entry pq p (2 * p + 2)) size (2 * p + 2)
        else pq
  else pq
termination_by size - p
decreasing_by
  · omega
  · omega

/-- `delete` from `cooccur.c`: move the last active entry to the root and
sift it down within the remaining `size - 1` entries. -/
def delete (pq : List CRECID) (size : ℕ) : List CRECID :=
  siftDown (pq.set 0 (pq.getD (size - 1) default)) size 0

@[simp] theorem swap_entry_length (pq : List CRECID) (i j : ℕ) :
    (swap_entry pq i j).length = pq.length := by
  simp [swap_entry]

@[simp] theorem siftUp_length (j : ℕ) : ∀ (pq : List CRECID),
    (siftUp pq j).length = pq.length := by
  induction j using Nat.strong_induction_on with
  | _ j ih =>
    intro pq
    rw [siftUp]
    split
    · rfl
    · split
      · rw [ih ((j - 1) / 2) (by omega)]; simp
      · rfl

@[simp] theorem insert_length (pq : List CRECID) (new : CRECID) (size : ℕ) :
    (insert pq new size).length = pq.length := by
  simp [insert]

@[simp] theorem siftDown_length : ∀ (n : ℕ) (pq : List CRECID) (size p : ℕ),
    size - p ≤ n → (siftDown pq size p).length = pq.length := by
  intro n
  induction n with
  | zero =>
    intro pq size p h
    rw [siftDown]
    split
    · omega
    · rfl
  | succ n ih =>
    intro pq size p h
    rw [siftDown]
    split
    · split
      · split <;> simp
      · split
        · split
          · rw [ih _ size (2 * p + 1) (by omega)]; simp
          · rfl
        · split
          · rw [ih _ size (2 * p + 2) (by omega)]; simp
          · rfl
    · rfl

@[simp] theorem delete_length (pq : List CRECID) (size : ℕ) :
    (delete pq size).length = pq.length := by
  unfold delete
  rw [siftDown_length size _ size 0 (by omega)]
  simp

theorem swap_entry_getD (pq : List CRECID) (i j k : ℕ)
    (hi : i < pq.length) (hj : j < pq.length) :
    (swap_entry pq i j).getD k default =
      if k = j then pq.getD i default
      else if k = i then pq.getD j default
      else pq.getD k default := by
  unfold swap_entry
  by_cases hkj : k = j
  · subst hkj
    simp [List.getD_eq_getElem?_getD, List.getElem?_set_self, hj,
      List.getElem?_set]
  · by_cases hki : k = i
    · subst hki
      simp [List.getD_eq_getElem?_getD, List.getElem?_set, hkj, hi,
        Ne.symm hkj]
    · simp [List.getD_eq_getElem?_getD, List.getElem?_set, hkj, hki,
        Ne.symm hkj, Ne.symm hki]

theorem set_getD (pq : List CRECID) (i k : ℕ) (v : CRECID) (hi : i < pq.length) :
    (pq.set i v).getD k default = if k = i then v else pq.getD k default := by
  by_cases hki : k = i
  · subst hki
    simp [List.getD_eq_getElem?_getD, List.getElem?_set_self, hi]
  · simp [List.getD_eq_getElem?_getD, List.getElem?_set, hki, Ne.symm hki]

theorem getD_mem_take (pq : List CRECID) (k size : ℕ)
    (hk : k < size) (hsz : size ≤ pq.length) :
    pq.getD k default ∈ pq.take size := by
  have hklen : k < pq.length := lt_of_lt_of_le hk hsz
  have : pq.getD k default = (pq.take size).getD k default := by
    simp [List.getD_eq_getElem?_getD, List.getElem?_take, hk]
  rw [this]
  have hlt : k < (pq.take size).length := by
    simp [List.length_take]; omega
  rw [List.getD_eq_getElem?_getD, List.getElem?_eq_getElem hlt]
  exact List.getElem_mem hlt

/-- The binary min-heap property on the first `size` entries of `pq`,
with respect to the `compare_crecid` key order. -/
def IsHeap (pq : List CRECID) (size : ℕ) : Prop :=
  ∀ c, 0 < c → c < size →
    (pq.getD ((c - 1) / 2) default).key ≤ (pq.getD c default).key

theorem IsHeap.root_min {pq : List CRECID} {size : ℕ} (h : IsHeap pq size) :
    ∀ c, c < size → (pq.getD 0 default).key ≤ (pq.getD c default).key := by
  intro c
  induction c using Nat.strong_induction_on with
  | _ c ih =>
    intro hc
    rcases Nat.eq_zero_or_pos c with rfl | hpos
    · exact le_refl _
    · exact le_trans (ih ((c - 1) / 2) (by omega) (by omega)) (h c hpos hc)

theorem siftUp_isHeap : ∀ (j : ℕ) (pq : List CRECID) (size : ℕ),
    j < size → size ≤ pq.length →
    (∀ c, 0 < c → c < size → c ≠ j →
      (pq.getD ((c - 1) / 2) default).key ≤ (pq.getD c default).key) →
    (0 < j → ∀ c, c < size → (c - 1) / 2 = j →
      (pq.getD ((j - 1) / 2) default).key ≤ (pq.getD c default).key) →
    IsHeap (siftUp pq j) size := by
  intro j
  induction j using Nat.strong_induction_on with
  | _ j ihj =>
    intro pq size hjsz hsz hA hB
    rcases Nat.eq_zero_or_pos j with rfl | hjpos
    · rw [siftUp]
      simp only [if_pos rfl, dif_pos rfl]
      intro c hc hcsz
      exact hA c hc hcsz (by omega)
    · have hjne : j ≠ 0 := by omega
      have hp : (j - 1) / 2 < j := by omega
      have hplen : (j - 1) / 2 < pq.length := by omega
      have hjlen : j < pq.length := by omega
      rw [siftUp]
      rw [dif_neg hjne]
      by_cases hcmp :
          0 < compare_crecid (pq.getD ((j - 1) / 2) default) (pq.getD j default)
      · rw [if_pos hcmp]
        have hlt : (pq.getD j default).key < (pq.getD ((j - 1) / 2) default).key :=
          (compare_crecid_pos_iff _ _).1 hcmp
        set p := (j - 1) / 2 with hpdef
        have hget : ∀ k, (swap_entry pq p j).getD k default =
            if k = j then pq.getD p default
            else if k = p then pq.getD j default
            else pq.getD k default :=
          fun k => swap_entry_getD pq p j k hplen hjlen
        apply ihj p hp _ size (by omega) (by simp [hsz])
        · -- the heap property holds away from the new hole p
          intro c hc hcsz hcp
          rw [hget, hget]
          by_cases hcj : c = j
          · subst hcj
            have hparc : (c - 1) / 2 = p := rfl
            rw [if_pos rfl, hparc, if_neg (by omega), if_pos rfl]
            exact le_of_lt hlt
          · rw [if_neg hcj, if_neg hcp]
            by_cases hparj : (c - 1) / 2 = j
            · rw [if_pos hparj]
              exact hB hjpos c hcsz hparj
            · rw [if_neg hparj]
              by_cases hparp : (c - 1) / 2 = p
              · rw [if_pos hparp]
                have := hA c hc hcsz hcj
                rw [hparp] at this
                exact le_trans (le_of_lt hlt) this
              · rw [if_neg hparp]
                exact hA c hc hcsz hcj
        · -- grandparent of the hole is below both of its children
          intro hppos c hcsz hparc
          have hcp : c ≠ p := by omega
          have hcj : c ≠ j ∨ c = j := by tauto
          have hgp : (p - 1) / 2 ≠ j := by omega
          have hgp2 : (p - 1) / 2 ≠ p := by omega
          rw [hget, hget, if_neg hgp, if_neg hgp2]
          have hgple : (pq.getD ((p - 1) / 2) default).key ≤ (pq.getD p default).key := by
            have := hA p hppos (by omega) (by omega)
            exact this
          by_cases hcj : c = j
          · subst hcj
            rw [if_pos rfl]
            exact hgple
          · rw [if_neg hcj, if_neg hcp]
            have hedge : (pq.getD p default).key ≤ (pq.getD c default).key := by
              have := hA c (by omega) hcsz hcj
              rw [hparc] at this
              exact this
            exact le_trans hgple hedge
      · rw [if_neg hcmp]
        have hle : (pq.getD ((j - 1) / 2) default).key ≤ (pq.getD j default).key := by
          have := (compare_crecid_nonpos_iff (pq.getD ((j - 1) / 2) default)
            (pq.getD j default)).1 (by omega)
          exact this
        intro c hc hcsz
        by_cases hcj : c = j
        · subst hcj; exact hle
        · exact hA c hc hcsz hcj

theorem compare_crecid_neg_iff (a b : CRECID) :
    compare_crecid a b < 0 ↔ a.key < b.key := by
  unfold compare_crecid CRECID.key
  rw [Prod.Lex.lt_iff]
  by_cases h : a.word1 - b.word1 ≠ 0 <;> simp [h] <;> omega

theorem parent_characterization (c p : ℕ) (hc : 0 < c) :
    (c - 1) / 2 = p ↔ c = 2 * p + 1 ∨ c = 2 * p + 2 := by
  omega

theorem siftDown_isHeap : ∀ (n : ℕ) (pq : List CRECID) (size p : ℕ),
    size - p ≤ n → size - 1 ≤ pq.length →
    (∀ c, 0 < c → c < size - 1 → (c - 1) / 2 ≠ p →
      (pq.getD ((c - 1) / 2) default).key ≤ (pq.getD c default).key) →
    (0 < p → ∀ c, c < size - 1 → (c - 1) / 2 = p →
      (pq.getD ((p - 1) / 2) default).key ≤ (pq.getD c default).key) →
    IsHeap (siftDown pq size p) (size - 1) := by
  intro n
  induction n with
  | zero =>
    intro pq size p hn hsz hA hB
    rw [siftDown]
    rw [dif_neg (by omega)]
    intro c hc hcsz
    refine hA c hc hcsz ?_
    intro hpar
    omega
  | succ n ih =>
    intro pq size p hn hsz hA hB
    rw [siftDown]
    by_cases hj : 2 * p + 1 < size - 1
    · rw [dif_pos hj]
      have hplen : p < pq.length := by omega
      have hjlen : 2 * p + 1 < pq.length := by omega
      by_cases hone : 2 * p + 1 = size - 2
      · rw [if_pos hone]
        by_cases hcmp :
            0 < compare_crecid (pq.getD p default) (pq.getD (2 * p + 1) default)
        · rw [if_pos hcmp]
          have hlt : (pq.getD (2 * p + 1) default).key < (pq.getD p default).key :=
            (compare_crecid_pos_iff _ _).1 hcmp
          have hget : ∀ k, (swap_entry pq p (2 * p + 1)).getD k default =
              if k = 2 * p + 1 then pq.getD p default
              else if k = p then pq.getD (2 * p + 1) default
              else pq.getD k default :=
            fun k => swap_entry_getD pq p (2 * p + 1) k hplen hjlen
          intro c hc hcsz
          rw [hget, hget]
          by_cases hcj : c = 2 * p + 1
          · subst hcj
            rw [if_pos rfl]
            have hpar : (2 * p + 1 - 1) / 2 = p := by omega
            rw [hpar, if_neg (by omega), if_pos rfl]
            exact le_of_lt hlt
          · rw [if_neg hcj]
            by_cases hcp : c = p
            · subst hcp
              have hppos : 0 < c := hc
              rw [if_pos rfl]
              have hgj : (c - 1) / 2 ≠ 2 * c + 1 := by omega
              have hgp : (c - 1) / 2 ≠ c := by omega
              rw [if_neg hgj, if_neg hgp]
              exact hB hppos (2 * c + 1) (by omega) (by omega)
            · rw [if_neg hcp]
              have hparj : (c - 1) / 2 ≠ 2 * p + 1 := by
                intro hpar
                have := (parent_characterization c (2 * p + 1) hc).1 hpar
                omega
              have hparp : (c - 1) / 2 ≠ p := by
                intro hpar
                have := (parent_characterization c p hc).1 hpar
                omega
              rw [if_neg hparj, if_neg hparp]
              exact hA c hc hcsz hparp
        · rw [if_neg hcmp]
          have hle : (pq.getD p default).key ≤ (pq.getD (2 * p + 1) default).key :=
            (compare_crecid_nonpos_iff _ _).1 (by omega)
          intro c hc hcsz
          by_cases hparp : (c - 1) / 2 = p
          · have := (parent_characterization c p hc).1 hparp
            have hcj : c = 2 * p + 1 := by omega
            subst hcj
            rw [hparp]
            exact hle
          · exact hA c hc hcsz hparp
      · rw [if_neg hone]
        have hj1len : 2 * p + 2 < pq.length := by omega
        by_cases hwhich :
            compare_crecid (pq.getD (2 * p + 1) default) (pq.getD (2 * p + 2) default) < 0
        · -- left child is strictly smaller
          rw [if_pos hwhich]
          have hmle : (pq.getD (2 * p + 1) default).key ≤ (pq.getD (2 * p + 2) default).key :=
            le_of_lt ((compare_crecid_neg_iff _ _).1 hwhich)
          by_cases hcmp :
              0 < compare_crecid (pq.getD p default) (pq.getD (2 * p + 1) default)
          · rw [if_pos hcmp]
            have hlt : (pq.getD (2 * p + 1) default).key < (pq.getD p default).key :=
              (compare_crecid_pos_iff _ _).1 hcmp
            have hget : ∀ k, (swap_entry pq p (2 * p + 1)).getD k default =
                if k = 2 * p + 1 then pq.getD p default
                else if k = p then pq.getD (2 * p + 1) default
                else pq.getD k default :=
              fun k => swap_entry_getD pq p (2 * p + 1) k hplen hjlen
            apply ih _ size (2 * p + 1) (by omega) (by simp [hsz])
            · intro c hc hcsz hparm
              rw [hget, hget]
              by_cases hcm : c = 2 * p + 1
              · subst hcm
                rw [if_pos rfl]
                have hpar : (2 * p + 1 - 1) / 2 = p := by omega
                rw [hpar, if_neg (by omega), if_pos rfl]
                exact le_of_lt hlt
              · rw [if_neg hcm]
                by_cases hcp : c = p
                · subst hcp
                  rw [if_pos rfl]
                  have hgj : (c - 1) / 2 ≠ 2 * c + 1 := by omega
                  have hgp : (c - 1) / 2 ≠ c := by omega
                  rw [if_neg hgj, if_neg hgp]
                  exact hB hc (2 * c + 1) (by omega) (by omega)
                · rw [if_neg hcp]
                  by_cases hparp : (c - 1) / 2 = p
                  · have := (parent_characterization c p hc).1 hparp
                    have hco : c = 2 * p + 2 := by omega
                    subst hco
                    rw [hparp, if_neg (by omega), if_pos rfl]
                    exact hmle
                  · rw [if_neg (by
                      intro hpar
                      have := (parent_characterization c (2 * p + 1) hc).1 hpar
                      omega), if_neg hparp]
                    exact hA c hc hcsz hparp
            · intro _ c hcsz hparc
              have hcc := (parent_characterization c (2 * p + 1) (by omega)).1 hparc
              have hgpar : (2 * p + 1 - 1) / 2 = p := by omega
              rw [hgpar]
              rw [hget, hget]
              have hcne1 : c ≠ 2 * p + 1 := by omega
              have hcnep : c ≠ p := by omega
              rw [if_neg (by omega), if_pos rfl, if_neg hcne1, if_neg hcnep]
              have := hA c (by omega) hcsz (by
                intro hpar
                have := (parent_characterization c p (by omega)).1 hpar
                omega)
              rw [hparc] at this
              exact this
          · rw [if_neg hcmp]
            have hle : (pq.getD p default).key ≤ (pq.getD (2 * p + 1) default).key :=
              (compare_crecid_nonpos_iff _ _).1 (by omega)
            intro c hc hcsz
            by_cases hparp : (c - 1) / 2 = p
            · have := (parent_characterization c p hc).1 hparp
              rw [hparp]
              rcases this with hco | hco <;> subst hco
              · exact hle
              · exact le_trans hle hmle
            · exact hA c hc hcsz hparp
        · -- right child is picked
          rw [if_neg hwhich]
          have hmle : (pq.getD (2 * p + 2) default).key ≤ (pq.getD (2 * p + 1) default).key := by
            have : compare_crecid (pq.getD (2 * p + 2) default)
                (pq.getD (2 * p + 1) default) ≤ 0 := by
              have h1 : ¬ (pq.getD (2 * p + 1) default).key < (pq.getD (2 * p + 2) default).key := by
                intro hlt
                exact hwhich ((compare_crecid_neg_iff _ _).2 hlt)
              rcases le_or_lt (compare_crecid (pq.getD (2 * p + 2) default)
                (pq.getD (2 * p + 1) default)) 0 with h | h
              · exact h
              · exact absurd ((compare_crecid_pos_iff _ _).1 h) h1
            exact (compare_crecid_nonpos_iff _ _).1 this
          by_cases hcmp :
              0 < compare_crecid (pq.getD p default) (pq.getD (2 * p + 2) default)
          · rw [if_pos hcmp]
            have hlt : (pq.getD (2 * p + 2) default).key < (pq.getD p default).key :=
              (compare_crecid_pos_iff _ _).1 hcmp
            have hget : ∀ k, (swap_entry pq p (2 * p + 2)).getD k default =
                if k = 2 * p + 2 then pq.getD p default
                else if k = p then pq.getD (2 * p + 2) default
                else pq.getD k default :=
              fun k => swap_entry_getD pq p (2 * p + 2) k hplen hj1len
            apply ih _ size (2 * p + 2) (by omega) (by simp [hsz])
            · intro c hc hcsz hparm
              rw [hget, hget]
              by_cases hcm : c = 2 * p + 2
              · subst hcm
                rw [if_pos rfl]
                have hpar : (2 * p + 2 - 1) / 2 = p := by omega
                rw [hpar, if_neg (by omega), if_pos rfl]
                exact le_of_lt hlt
              · rw [if_neg hcm]
                by_cases hcp : c = p
                · subst hcp
                  rw [if_pos rfl]
                  have hgj : (c - 1) / 2 ≠ 2 * c + 2 := by omega
                  have hgp : (c - 1) / 2 ≠ c := by omega
                  rw [if_neg hgj, if_neg hgp]
                  exact hB hc (2 * c + 2) (by omega) (by omega)
                · rw [if_neg hcp]
                  by_cases hparp : (c - 1) / 2 = p
                  · have := (parent_characterization c p hc).1 hparp
                    have hco : c = 2 * p + 1 := by omega
                    subst hco
                    rw [hparp, if_neg (by omega), if_pos rfl]
                    exact hmle
                  · rw [if_neg (by
                      intro hpar
                      have := (parent_characterization c (2 * p + 2) hc).1 hpar
                      omega), if_neg hparp]
                    exact hA c hc hcsz hparp
            · intro _ c hcsz hparc
              have hcc := (parent_characterization c (2 * p + 2) (by omega)).1 hparc
              have hgpar : (2 * p + 2 - 1) / 2 = p := by omega
              rw [hgpar]
              rw [hget, hget]
              have hcne1 : c ≠ 2 * p + 2 := by omega
              have hcnep : c ≠ p := by omega
              rw [if_neg (by omega), if_pos rfl, if_neg hcne1, if_neg hcnep]
              have := hA c (by omega) hcsz (by
                intro hpar
                have := (parent_characterization c p (by omega)).1 hpar
                omega)
              rw [hparc] at this
              exact this
          · rw [if_neg hcmp]
            have hle : (pq.getD p default).key ≤ (pq.getD (2 * p + 2) default).key :=
              (compare_crecid_nonpos_iff _ _).1 (by omega)
            intro c hc hcsz
            by_cases hparp : (c - 1) / 2 = p
            · have := (parent_characterization c p hc).1 hparp
              rw [hparp]
              rcases this with hco | hco <;> subst hco
              · exact le_trans hle hmle
              · exact hle
            · exact hA c hc hcsz hparp
    · rw [dif_neg hj]
      intro c hc hcsz
      refine hA c hc hcsz ?_
      intro hpar
      have := (parent_characterization c p hc).1 hpar
      omega

theorem insert_isHeap (pq : List CRECID) (new : CRECID) (size : ℕ)
    (h0 : 0 < size) (hlen : size ≤ pq.length) (h : IsHeap pq (size - 1)) :
    IsHeap (insert pq new size) size := by
  unfold insert
  apply siftUp_isHeap (size - 1) _ size (by omega) (by simp [hlen])
  · intro c hc hcsz hcne
    have hc' : c < size - 1 := by omega
    have hpar : (c - 1) / 2 < size - 1 := by omega
    rw [set_getD _ _ _ _ (by omega), set_getD _ _ _ _ (by omega),
      if_neg (by omega), if_neg (by omega)]
    exact h c hc hc'
  · intro hpos c hcsz hpar
    have := (parent_characterization c (size - 1) (by omega)).1 hpar
    omega

theorem delete_isHeap (pq : List CRECID) (size : ℕ)
    (hlen : size ≤ pq.length) (h : IsHeap pq size) :
    IsHeap (delete pq size) (size - 1) := by
  unfold delete
  rcases Nat.eq_zero_or_pos size with rfl | hpos
  · apply siftDown_isHeap 0 _ 0 0 (by omega) (by simp)
    · intro c hc hcsz hpar; omega
    · intro hp; omega
  · apply siftDown_isHeap size _ size 0 (by omega) (by simp; omega)
    · intro c hc hcsz hpar
      have hc3 : 3 ≤ c := by
        rcases (Nat.lt_or_ge c 3) with hlt | hge
        · interval_cases c <;> omega
        · exact hge
      rw [set_getD _ _ _ _ (by omega), set_getD _ _ _ _ (by omega),
        if_neg (by omega), if_neg (by omega)]
      exact h c hc (by omega)
    · intro hp; omega

theorem set_set_swap_perm (l : List CRECID) (i j : ℕ)
    (hi : i < l.length) (hj : j < l.length) :
    ((l.set i (l.getD j default)).set j (l.getD i default)).Perm l := by
  rw [List.perm_iff_count]
  intro a
  have hA : l.getD i default = l[i] := List.getD_eq_getElem l default hi
  have hB : l.getD j default = l[j] := List.getD_eq_getElem l default hj
  have hj' : j < (l.set i (l.getD j default)).length := by
    rw [List.length_set]; exact hj
  rw [List.count_set (h := hj'), List.count_set (h := hi)]
  have hmid : (l.set i (l.getD j default))[j] = l[j] := by
    rw [List.getElem_set]
    split
    · rename_i hij; subst hij; rw [hB]
    · rfl
  rw [hmid, hA, hB]
  have hcl : l[i] = a → 1 ≤ l.count a := by
    intro h
    have : a ∈ l := h ▸ List.getElem_mem hi
    exact List.count_pos_iff.2 this
  by_cases h1 : l[i] = a
  · have hc := hcl h1
    by_cases h2 : l[j] = a <;> simp [h1, h2] <;> omega
  · by_cases h2 : l[j] = a <;> simp [h1, h2]

theorem swap_entry_take_perm (pq : List CRECID) (i j size : ℕ)
    (hi : i < size) (hj : j < size) (hsz : size ≤ pq.length) :
    ((swap_entry pq i j).take size).Perm (pq.take size) := by
  unfold swap_entry
  rw [List.set_take, List.set_take]
  have hi' : i < (pq.take size).length := by simp; omega
  have hj' : j < (pq.take size).length := by simp; omega
  have hgi : pq.getD i default = (pq.take size).getD i default := by
    simp [List.getD_eq_getElem?_getD, List.getElem?_take, hi]
  have hgj : pq.getD j default = (pq.take size).getD j default := by
    simp [List.getD_eq_getElem?_getD, List.getElem?_take, hj]
  rw [hgi, hgj]
  exact set_set_swap_perm (pq.take size) i j hi' hj'

theorem siftUp_take_perm : ∀ (j : ℕ) (pq : List CRECID) (size : ℕ),
    j < size → size ≤ pq.length →
    ((siftUp pq j).take size).Perm (pq.take size) := by
  intro j
  induction j using Nat.strong_induction_on with
  | _ j ihj =>
    intro pq size hj hsz
    rw [siftUp]
    split
    · exact List.Perm.refl _
    · split
      · rename_i hjne hcmp
        refine List.Perm.trans
          (ihj ((j - 1) / 2) (by omega) _ size (by omega) (by simp [hsz])) ?_
        exact swap_entry_take_perm pq ((j - 1) / 2) j size (by omega) hj hsz
      · exact List.Perm.refl _

theorem siftDown_take_perm : ∀ (n : ℕ) (pq : List CRECID) (size p : ℕ),
    size - p ≤ n → size - 1 ≤ pq.length →
    ((siftDown pq size p).take (size - 1)).Perm (pq.take (size - 1)) := by
  intro n
  induction n with
  | zero =>
    intro pq size p hn hsz
    rw [siftDown]
    rw [dif_neg (by omega)]
  | succ n ih =>
    intro pq size p hn hsz
    rw [siftDown]
    split
    · rename_i hj
      split
      · split
        · exact swap_entry_take_perm pq p (2 * p + 1) (size - 1) (by omega) (by omega) hsz
        · exact List.Perm.refl _
      · split
        · split
          · refine List.Perm.trans (ih _ size (2 * p + 1) (by omega) (by simp [hsz])) ?_
            exact swap_entry_take_perm pq p (2 * p + 1) (size - 1) (by omega) (by omega) hsz
          · exact List.Perm.refl _
        · split
          · refine List.Perm.trans (ih _ size (2 * p + 2) (by omega) (by simp [hsz])) ?_
            exact swap_entry_take_perm pq p (2 * p + 2) (size - 1) (by omega) (by omega) hsz
          · exact List.Perm.refl _
    · exact List.Perm.refl _

theorem take_eq_take_append (pq : List CRECID) (size : ℕ)
    (h0 : 0 < size) (hsz : size ≤ pq.length) :
    pq.take size = pq.take (size - 1) ++ [pq.getD (size - 1) default] := by
  have hlt : size - 1 < pq.length := by omega
  have : size = (size - 1) + 1 := by omega
  rw [this, List.take_succ]
  congr 1
  rw [List.getElem?_eq_getElem hlt]
  simp [List.getD_eq_getElem?_getD, List.getElem?_eq_getElem hlt]

theorem insert_take_perm (pq : List CRECID) (new : CRECID) (size : ℕ)
    (h0 : 0 < size) (hsz : size ≤ pq.length) :
    ((insert pq new size).take size).Perm (new :: pq.take (size - 1)) := by
  unfold insert
  refine List.Perm.trans (siftUp_take_perm (size - 1) _ size (by omega) (by simp [hsz])) ?_
  rw [take_eq_take_append _ size h0 (by simp [hsz])]
  have hlt : size - 1 < pq.length := by omega
  rw [set_getD _ _ _ _ hlt, if_pos rfl]
  rw [List.set_take]
  have : (pq.take (size - 1)).set (size - 1) new = pq.take (size - 1) := by
    apply List.set_eq_of_length_le
    simp
  rw [this]
  exact List.perm_append_singleton new (pq.take (size - 1))

theorem delete_take_perm (pq : List CRECID) (size : ℕ)
    (h0 : 0 < size) (hsz : size ≤ pq.length) :
    (pq.getD 0 default :: (delete pq size).take (size - 1)).Perm (pq.take size) := by
  unfold delete
  have hperm := siftDown_take_perm size (pq.set 0 (pq.getD (size - 1) default))
    size 0 (by omega) (by simp; omega)
  refine List.Perm.trans (List.Perm.cons _ hperm) ?_
  rw [List.set_take]
  rcases Nat.eq_or_lt_of_le h0 with h1 | h2
  · -- size = 1
    have : size - 1 = 0 := by omega
    rw [this]
    simp only [List.take_zero, List.set_nil]
    rw [take_eq_take_append pq size h0 hsz, this]
    simp
  · -- size ≥ 2
    have h1len : 0 < (pq.take (size - 1)).length := by simp; omega
    obtain ⟨b, t, hbt⟩ := List.exists_cons_of_ne_nil (List.ne_nil_of_length_pos h1len)
    have hb : b = pq.getD 0 default := by
      have hx1 : (pq.take (size - 1)).getD 0 default = b := by rw [hbt]; rfl
      have hx2 : (pq.take (size - 1)).getD 0 default = pq.getD 0 default := by
        simp [List.getD_eq_getElem?_getD, List.getElem?_take,
          (show 0 < size - 1 by omega)]
      rw [← hx1, hx2]
    rw [hb] at hbt
    rw [hbt, List.set_cons_zero]
    rw [take_eq_take_append pq size h0 hsz, hbt]
    exact List.Perm.cons _ ((List.perm_append_singleton _ t).symm)

/-! ## `merge_files` (cooccur.c)

The external k-way merge.  A run file is a `List CREC`; `fread` takes the
head of the remaining list, and a failing `fread` (empty remainder) leaves
the C local `new` unchanged — including in the priming loop, which does
*not* check for end-of-file. -/

/-- `merge_write` from `cooccur.c`: returns the records actually written
(empty for a duplicate key) together with the updated `old` buffer. -/
def merge_write (new : CRECID) (old : CRECID) : List CREC × CRECID :=
  if new.word1 = old.word1 ∧ new.word2 = old.word2 then
    ([], { old with val := old.val + new.val })
  else
    ([old.toCREC], new)

/-- Total number of records still unread across the run files. -/
def sumLen (files : List (List CREC)) : ℕ := (files.map List.length).sum

theorem sumLen_set_lt : ∀ (files : List (List CREC)) (i : ℕ) (r : CREC)
    (rest : List CREC), files.getD i [] = r :: rest →
    sumLen (files.set i rest) < sumLen files := by
  intro files
  induction files with
  | nil => intro i r rest h; simp [List.getD] at h
  | cons f fs ih =>
    intro i r rest h
    cases i with
    | zero =>
      simp only [List.getD_cons_zero] at h
      subst h
      simp [sumLen]
    | succ i =>
      simp only [List.getD_cons_succ] at h
      have := ih i r rest h
      have hset : (f :: fs).set (i + 1) rest = f :: fs.set i rest := rfl
      rw [hset]
      simp only [sumLen, List.map_cons, List.sum_cons]
      simp only [sumLen] at this
      omega

theorem getD_set_list (files : List (List CREC)) (i k : ℕ) (v : List CREC)
    (hi : i < files.length) :
    (files.set i v).getD k [] = if k = i then v else files.getD k [] := by
  by_cases hki : k = i
  · subst hki
    simp [List.getD_eq_getElem?_getD, List.getElem?_set_self, hi]
  · simp [List.getD_eq_getElem?_getD, List.getElem?_set, hki, Ne.symm hki]

/-- The main loop of `merge_files`: pop the top of the priority queue, give
it to `merge_write`, then read the next record from the popped record's
file (shrinking the heap at end-of-file).  When the heap is empty the
buffered `old` record is flushed. -/
def mergeLoop (pq : List CRECID) (size : ℕ) (old : CRECID)
    (files : List (List CREC)) : List CREC :=
  if hsz : size = 0 then [old.toCREC]
  else
    match hf : files.getD (pq.getD 0 default).id [] with
    | [] =>
        (merge_write (pq.getD 0 default) old).1 ++
          mergeLoop (delete pq size) (size - 1)
            (merge_write (pq.getD 0 default) old).2 files
    | r :: rest =>
        (merge_write (pq.getD 0 default) old).1 ++
          mergeLoop (insert (delete pq size) (r.toID (pq.getD 0 default).id) size)
            size (merge_write (pq.getD 0 default) old).2
            (files.set (pq.getD 0 default).id rest)
termination_by sumLen files + size
decreasing_by
  · omega
  · have := sumLen_set_lt files (pq.getD 0 default).id r rest hf
    omega

/-- The priming loop of `merge_files`: read the first record of each file
and insert it into the priority queue.  A failing `fread` on an empty run
leaves `new` holding the previously read record (or the initial indeterminate
value `new`), which is inserted regardless — the C code checks no
end-of-file here. -/
def primeLoop (runs : List (List CREC)) (num : ℕ) :
    ℕ → List CRECID → CRECID → List CRECID × CRECID
  | i, pq, new =>
    if h : i < num then
      match (runs.getD i []).head? with
      | some r => primeLoop runs num (i + 1) (insert pq (r.toID i) (i + 1)) (r.toID i)
      | none =>
          primeLoop runs num (i + 1)
            (insert pq { new with id := i } (i + 1)) { new with id := i }
    else (pq, new)
termination_by i => num - i

/-- The step between the priming loop and the main loop of `merge_files`:
`old` is initialised from the top of the queue, the top is deleted, and the
next record of the top's file is read (shrinking the heap at end-of-file)
before the main loop starts. -/
def preMerge (pq : List CRECID) (num : ℕ) (files : List (List CREC)) : List CREC :=
  match files.getD (pq.getD 0 default).id [] with
  | [] => mergeLoop (delete pq num) (num - 1) (pq.getD 0 default) files
  | r :: rest =>
      mergeLoop (insert (delete pq num) (r.toID (pq.getD 0 default).id) num) num
        (pq.getD 0 default) (files.set (pq.getD 0 default).id rest)

/-- `merge_files` from `cooccur.c`, parameterised by the contents of the
`num = runs.length` run files and by the indeterminate initial value `new0`
of the stack variable `new`.  Returns the records written to standard
output. -/
def merge_files (runs : List (List CREC)) (new0 : CRECID) : List CREC :=
  preMerge (primeLoop runs runs.length 0 (List.replicate runs.length default) new0).1
    runs.length (runs.map List.tail)

@[simp] theorem toCREC_key (r : CRECID) : r.toCREC.key = r.key := rfl

@[simp] theorem toID_key (r : CREC) (i : ℕ) : (r.toID i).key = r.key := rfl

@[simp] theorem toID_id (r : CREC) (i : ℕ) : (r.toID i).id = i := rfl

theorem merge_write_fst_cases (new old : CRECID) :
    (merge_write new old).1 = [] ∨ (merge_write new old).1 = [old.toCREC] := by
  unfold merge_write
  split
  · exact Or.inl rfl
  · exact Or.inr rfl

theorem merge_write_snd_key (new old : CRECID) :
    (merge_write new old).2.key = new.key := by
  unfold merge_write
  split
  · rename_i h
    show old.key = new.key
    exact ((keyID_eq_iff new old).2 h).symm
  · rfl

theorem mem_take_getD (pq : List CRECID) (size : ℕ) (e : CRECID)
    (he : e ∈ pq.take size) (hsz : size ≤ pq.length) :
    ∃ c, c < size ∧ pq.getD c default = e := by
  obtain ⟨c, hc, hgc⟩ := List.mem_iff_getElem.1 he
  have hlen : (pq.take size).length = size := by simp; omega
  refine ⟨c, by omega, ?_⟩
  have hc' : c < pq.length := by omega
  rw [List.getD_eq_getElem pq default hc']
  rw [← hgc, List.getElem_take]

theorem mergeLoop_sorted :
    ∀ (fuel : ℕ) (pq : List CRECID) (size : ℕ) (old : CRECID)
      (files : List (List CREC)),
    sumLen files + size ≤ fuel →
    size ≤ pq.length →
    IsHeap pq size →
    (∀ e ∈ pq.take size, old.key ≤ e.key) →
    (∀ i, (files.getD i []).Pairwise (fun a b => a.key ≤ b.key)) →
    (∀ e ∈ pq.take size, ∀ r ∈ files.getD e.id [], e.key ≤ r.key) →
    (mergeLoop pq size old files).Pairwise (fun a b => a.key < b.key) ∧
      (∀ x ∈ mergeLoop pq size old files, old.key ≤ x.key) := by
  intro fuel
  induction fuel with
  | zero =>
    intro pq size old files hfuel hsz hheap h3 h5 h4
    have hsz0 : size = 0 := by omega
    subst hsz0
    rw [mergeLoop]
    simp only [dif_pos rfl]
    exact ⟨List.pairwise_singleton _ _, by
      intro x hx
      rcases List.mem_singleton.1 hx with rfl
      exact le_refl _⟩
  | succ fuel ih =>
    intro pq size old files hfuel hsz hheap h3 h5 h4
    rw [mergeLoop]
    rcases Nat.eq_zero_or_pos size with hsz0 | hpos
    · subst hsz0
      simp only [dif_pos rfl]
      exact ⟨List.pairwise_singleton _ _, by
        intro x hx
        rcases List.mem_singleton.1 hx with rfl
        exact le_refl _⟩
    · rw [dif_neg (by omega)]
      have htopmem : pq.getD 0 default ∈ pq.take size :=
        getD_mem_take pq 0 size hpos hsz
      have holdtop : old.key ≤ (pq.getD 0 default).key := h3 _ htopmem
      have hmin : ∀ e ∈ pq.take size, (pq.getD 0 default).key ≤ e.key := by
        intro e he
        obtain ⟨c, hc, hgc⟩ := mem_take_getD pq size e he hsz
        rw [← hgc]
        exact hheap.root_min c hc
      have hw2key : (merge_write (pq.getD 0 default) old).2.key =
          (pq.getD 0 default).key := merge_write_snd_key _ _
      have hdelperm := delete_take_perm pq size hpos hsz
      have hdel_sub : ∀ e ∈ (delete pq size).take (size - 1), e ∈ pq.take size := by
        intro e he
        exact hdelperm.mem_iff.1 (List.mem_cons_of_mem _ he)
      have hheap' : IsHeap (delete pq size) (size - 1) := delete_isHeap pq size hsz hheap
      have hlen' : size - 1 ≤ (delete pq size).length := by simp; omega
      -- facts about the written part
      have hwrite : ∀ x ∈ (merge_write (pq.getD 0 default) old).1,
          x.key = old.key ∧ old.key < (pq.getD 0 default).key := by
        intro x hx
        unfold merge_write at hx
        split at hx
        · simp at hx
        · rename_i hne
          rcases List.mem_singleton.1 hx with rfl
          have : old.key ≠ (pq.getD 0 default).key := by
            intro hk
            exact hne ((keyID_eq_iff _ _).1 hk.symm)
          exact ⟨rfl, lt_of_le_of_ne holdtop this⟩
      split
      · -- EOF on the popped record's file: shrink the heap
        rename_i hf
        have hrec := ih (delete pq size) (size - 1)
          (merge_write (pq.getD 0 default) old).2 files
          (by omega) hlen' hheap'
          (by
            intro e he
            rw [hw2key]
            exact hmin e (hdel_sub e he))
          h5
          (by
            intro e he
            exact h4 e (hdel_sub e he))
        constructor
        · refine List.pairwise_append.2 ⟨?_, hrec.1, ?_⟩
          · rcases merge_write_fst_cases (pq.getD 0 default) old with hc | hc <;>
              rw [hc] <;> simp
          · intro x hx y hy
            have hxk := hwrite x hx
            have := hrec.2 y hy
            rw [hw2key] at this
            rw [hxk.1]
            exact lt_of_lt_of_le hxk.2 this
        · intro x hx
          rcases List.mem_append.1 hx with hx | hx
          · rw [(hwrite x hx).1]
          · have := hrec.2 x hx
            rw [hw2key] at this
            exact le_trans holdtop this
      · -- a new record is read from the popped record's file
        rename_i r rest hf
        have hidlt : (pq.getD 0 default).id < files.length := by
          by_contra hge
          rw [List.getD_eq_default _ _ (by omega)] at hf
          exact List.noConfusion hf
        have hrkey : (pq.getD 0 default).key ≤ r.key := by
          have := h4 _ htopmem
          rw [hf] at this
          exact this r (by simp)
        have hinsperm := insert_take_perm (delete pq size)
          (r.toID (pq.getD 0 default).id) size hpos (by simp; omega)
        have hins_heap : IsHeap (insert (delete pq size)
            (r.toID (pq.getD 0 default).id) size) size :=
          insert_isHeap _ _ size hpos (by simp; omega) hheap'
        have hsumset := sumLen_set_lt files (pq.getD 0 default).id r rest hf
        have hrec := ih (insert (delete pq size) (r.toID (pq.getD 0 default).id) size)
          size (merge_write (pq.getD 0 default) old).2
          (files.set (pq.getD 0 default).id rest)
          (by omega) (by simp; omega) hins_heap
          (by
            intro e he
            rw [hw2key]
            rcases List.mem_cons.1 (hinsperm.mem_iff.1 he) with he' | he'
            · rw [he']
              exact hrkey
            · exact hmin e (hdel_sub e he'))
          (by
            intro i
            rw [getD_set_list _ _ _ _ hidlt]
            split
            · have := h5 (pq.getD 0 default).id
              rw [hf] at this
              exact (List.pairwise_cons.1 this).2
            · exact h5 i)
          (by
            intro e he s hs
            rcases List.mem_cons.1 (hinsperm.mem_iff.1 he) with he' | he'
            · subst he'
              rw [getD_set_list _ _ _ _ hidlt] at hs
              simp at hs
              have := h5 (pq.getD 0 default).id
              rw [hf] at this
              have hrs := (List.pairwise_cons.1 this).1 s hs
              rw [toID_key]
              exact hrs
            · rw [getD_set_list _ _ _ _ hidlt] at hs
              split at hs
              · rename_i hid
                have := h4 e (hdel_sub e he')
                rw [hid, hf] at this
                exact this s (by simp [hs])
              · exact h4 e (hdel_sub e he') s hs)
        constructor
        · refine List.pairwise_append.2 ⟨?_, hrec.1, ?_⟩
          · rcases merge_write_fst_cases (pq.getD 0 default) old with hc | hc <;>
              rw [hc] <;> simp
          · intro x hx y hy
            have hxk := hwrite x hx
            have := hrec.2 y hy
            rw [hw2key] at this
            rw [hxk.1]
            exact lt_of_lt_of_le hxk.2 this
        · intro x hx
          rcases List.mem_append.1 hx with hx | hx
          · rw [(hwrite x hx).1]
          · have := hrec.2 x hx
            rw [hw2key] at this
            exact le_trans holdtop this

/-! ### Value accounting for the merge -/

/-- Contribution of one record to the total weight at key `(w1, w2)`. -/
def keyVal (w1 w2 : ℤ) (r : CREC) : ℚ :=
  if r.word1 = w1 ∧ r.word2 = w2 then r.val else 0

/-- Total weight at key `(w1, w2)` in a list of records. -/
def valAt (w1 w2 : ℤ) (l : List CREC) : ℚ := (l.map (keyVal w1 w2)).sum

def keyValID (w1 w2 : ℤ) (e : CRECID) : ℚ :=
  if e.word1 = w1 ∧ e.word2 = w2 then e.val else 0

def valAtID (w1 w2 : ℤ) (l : List CRECID) : ℚ := (l.map (keyValID w1 w2)).sum

/-- The key `(w1, w2)` occurs in a list of records. -/
def hasKey (w1 w2 : ℤ) (l : List CREC) : Prop :=
  ∃ r ∈ l, r.word1 = w1 ∧ r.word2 = w2

def hasKeyID (w1 w2 : ℤ) (l : List CRECID) : Prop :=
  ∃ e ∈ l, e.word1 = w1 ∧ e.word2 = w2

@[simp] theorem valAt_nil (w1 w2 : ℤ) : valAt w1 w2 [] = 0 := rfl

@[simp] theorem valAt_cons (w1 w2 : ℤ) (r : CREC) (l : List CREC) :
    valAt w1 w2 (r :: l) = keyVal w1 w2 r + valAt w1 w2 l := rfl

@[simp] theorem valAt_append (w1 w2 : ℤ) (l₁ l₂ : List CREC) :
    valAt w1 w2 (l₁ ++ l₂) = valAt w1 w2 l₁ + valAt w1 w2 l₂ := by
  simp [valAt]

@[simp] theorem valAtID_nil (w1 w2 : ℤ) : valAtID w1 w2 [] = 0 := rfl

@[simp] theorem valAtID_cons (w1 w2 : ℤ) (e : CRECID) (l : List CRECID) :
    valAtID w1 w2 (e :: l) = keyValID w1 w2 e + valAtID w1 w2 l := rfl

theorem valAtID_perm (w1 w2 : ℤ) {l₁ l₂ : List CRECID} (h : l₁.Perm l₂) :
    valAtID w1 w2 l₁ = valAtID w1 w2 l₂ :=
  (h.map (keyValID w1 w2)).sum_eq

theorem hasKeyID_perm (w1 w2 : ℤ) {l₁ l₂ : List CRECID} (h : l₁.Perm l₂) :
    hasKeyID w1 w2 l₁ ↔ hasKeyID w1 w2 l₂ := by
  unfold hasKeyID
  constructor
  · rintro ⟨e, he, hk⟩; exact ⟨e, h.mem_iff.1 he, hk⟩
  · rintro ⟨e, he, hk⟩; exact ⟨e, h.mem_iff.2 he, hk⟩

theorem files_sum_set (g : List CREC → ℚ) :
    ∀ (files : List (List CREC)) (i : ℕ) (v : List CREC), i < files.length →
    ((files.set i v).map g).sum = (files.map g).sum - g (files.getD i []) + g v := by
  intro files
  induction files with
  | nil => intro i v h; simp at h
  | cons f fs ih =>
    intro i v h
    cases i with
    | zero => simp; ring
    | succ i =>
      have hset : (f :: fs).set (i + 1) v = f :: fs.set i v := rfl
      rw [hset]
      simp only [List.map_cons, List.sum_cons, List.getD_cons_succ]
      rw [ih i v (by simpa using h)]
      ring

theorem perm_cons_mem_iff {a e : CRECID} {l1 : List CRECID} {l2 : List CRECID}
    (h : (a :: l1).Perm l2) (hne : e ≠ a) : e ∈ l2 ↔ e ∈ l1 := by
  rw [← h.mem_iff, List.mem_cons]
  simp [hne]

@[simp] theorem keyValID_toID (w1 w2 : ℤ) (r : CREC) (i : ℕ) :
    keyValID w1 w2 (r.toID i) = keyVal w1 w2 r := rfl

@[simp] theorem keyVal_toCREC (w1 w2 : ℤ) (e : CRECID) :
    keyVal w1 w2 e.toCREC = keyValID w1 w2 e := rfl

theorem hasKey_append (w1 w2 : ℤ) (l₁ l₂ : List CREC) :
    hasKey w1 w2 (l₁ ++ l₂) ↔ hasKey w1 w2 l₁ ∨ hasKey w1 w2 l₂ := by
  unfold hasKey
  constructor
  · rintro ⟨r, hr, hk⟩
    rcases List.mem_append.1 hr with h | h
    · exact Or.inl ⟨r, h, hk⟩
    · exact Or.inr ⟨r, h, hk⟩
  · rintro (⟨r, hr, hk⟩ | ⟨r, hr, hk⟩)
    · exact ⟨r, List.mem_append.2 (Or.inl hr), hk⟩
    · exact ⟨r, List.mem_append.2 (Or.inr hr), hk⟩

/-- Bookkeeping of one `merge_write` step: the weight written plus the
weight buffered in the new `old` equals the weight of the previous `old`
plus the weight of the incoming record, at every key. -/
theorem merge_write_content (new old : CRECID) (w1 w2 : ℤ) :
    valAt w1 w2 (merge_write new old).1 + keyValID w1 w2 (merge_write new old).2 =
      keyValID w1 w2 old + keyValID w1 w2 new := by
  unfold merge_write
  split
  · rename_i heq
    rcases heq with ⟨he1, he2⟩
    simp only [valAt_nil]
    unfold keyValID
    simp only []
    by_cases hk : old.word1 = w1 ∧ old.word2 = w2
    · rw [if_pos hk, if_pos hk, if_pos (by rw [he1, he2]; exact hk)]
      ring
    · rw [if_neg hk, if_neg hk, if_neg (by rw [he1, he2]; exact hk)]
  · rename_i hne
    simp only [valAt_cons, valAt_nil]
    rw [keyVal_toCREC]
    ring

theorem merge_keys_assemble {A B Old Top Hd Rk Rst Ej : Prop}
    (h : (A ∨ B) ↔ (Old ∨ Top)) :
    (A ∨ (B ∨ (Rk ∨ Hd) ∨ (Rst ∨ Ej))) ↔ (Old ∨ (Top ∨ Hd) ∨ (Rk ∨ Rst ∨ Ej)) := by
  tauto

theorem merge_write_keys (new old : CRECID) (w1 w2 : ℤ) :
    (hasKey w1 w2 (merge_write new old).1 ∨
      ((merge_write new old).2.word1 = w1 ∧ (merge_write new old).2.word2 = w2)) ↔
    ((old.word1 = w1 ∧ old.word2 = w2) ∨ (new.word1 = w1 ∧ new.word2 = w2)) := by
  unfold merge_write
  split
  · rename_i heq
    rcases heq with ⟨he1, he2⟩
    simp only []
    unfold hasKey
    constructor
    · rintro (⟨r, hr, _⟩ | hk)
      · simp at hr
      · exact Or.inl hk
    · rintro (hk | hk)
      · exact Or.inr hk
      · exact Or.inr (by rw [he1, he2] at hk; exact hk)
  · rename_i hne
    simp only []
    unfold hasKey
    constructor
    · rintro (⟨r, hr, hk⟩ | hk)
      · rcases List.mem_singleton.1 hr with rfl
        exact Or.inl hk
      · exact Or.inr hk
    · rintro (hk | hk)
      · exact Or.inl ⟨old.toCREC, by simp, hk⟩
      · exact Or.inr hk

/-- The terminal state of the merge loop: with an empty heap (the side
condition forces every file to be exhausted) only the buffered record is
flushed. -/
theorem mergeLoop_content_base (pq : List CRECID) (old : CRECID)
    (files : List (List CREC))
    (h6 : ∀ i, files.getD i [] ≠ [] → ∃ e ∈ pq.take 0, e.id = i) :
    ∀ w1 w2,
    (valAt w1 w2 (mergeLoop pq 0 old files) =
      keyValID w1 w2 old + valAtID w1 w2 (pq.take 0) +
        (files.map (valAt w1 w2)).sum) ∧
    (hasKey w1 w2 (mergeLoop pq 0 old files) ↔
      ((old.word1 = w1 ∧ old.word2 = w2) ∨ hasKeyID w1 w2 (pq.take 0) ∨
        ∃ i, hasKey w1 w2 (files.getD i []))) := by
  intro w1 w2
  have hempty : ∀ i, files.getD i [] = [] := by
    intro i
    by_contra hne
    obtain ⟨e, he, _⟩ := h6 i hne
    simp at he
  have hflen : ∀ f ∈ files, f = [] := by
    intro f hf
    obtain ⟨i, hi, hgi⟩ := List.mem_iff_getElem.1 hf
    have := hempty i
    rw [List.getD_eq_getElem files [] hi] at this
    rw [← hgi, this]
  rw [mergeLoop]
  simp only [dif_pos rfl]
  constructor
  · have hfs : (files.map (valAt w1 w2)).sum = 0 := by
      rw [List.sum_eq_zero]
      intro x hx
      obtain ⟨f, hf, rfl⟩ := List.mem_map.1 hx
      rw [hflen f hf]
      rfl
    simp [hfs, valAt, keyVal, keyValID, CRECID.toCREC]
  · constructor
    · rintro ⟨r, hr, hk⟩
      rcases List.mem_singleton.1 hr with rfl
      exact Or.inl hk
    · rintro (hk | hid | ⟨i, r, hr, hk⟩)
      · exact ⟨old.toCREC, by simp, hk⟩
      · rcases hid with ⟨e, he, _⟩
        simp at he
      · rw [hempty i] at hr
        simp at hr

/-- Conservation through the merge loop: for each key the emitted weight is
the buffered `old` weight plus the weight still in the heap plus the weight
still unread in the files, and a key is emitted iff it occurs in one of
those three places.  The side conditions say that every nonempty file has a
representative in the heap tagged with its index and that the heap tags are
distinct; the loop maintains both. -/
theorem mergeLoop_content :
    ∀ (fuel : ℕ) (pq : List CRECID) (size : ℕ) (old : CRECID)
      (files : List (List CREC)),
    sumLen files + size ≤ fuel →
    size ≤ pq.length →
    (∀ i, files.getD i [] ≠ [] → ∃ e ∈ pq.take size, e.id = i) →
    ((pq.take size).map (fun e => e.id)).Nodup →
    ∀ w1 w2,
    (valAt w1 w2 (mergeLoop pq size old files) =
      keyValID w1 w2 old + valAtID w1 w2 (pq.take size) +
        (files.map (valAt w1 w2)).sum) ∧
    (hasKey w1 w2 (mergeLoop pq size old files) ↔
      ((old.word1 = w1 ∧ old.word2 = w2) ∨ hasKeyID w1 w2 (pq.take size) ∨
        ∃ i, hasKey w1 w2 (files.getD i []))) := by
  intro fuel
  induction fuel with
  | zero =>
    intro pq size old files hfuel hsz h6 h7 w1 w2
    have hsz0 : size = 0 := by omega
    subst hsz0
    exact mergeLoop_content_base pq old files h6 w1 w2
  | succ fuel ih =>
    intro pq size old files hfuel hsz h6 h7 w1 w2
    rcases Nat.eq_zero_or_pos size with hsz0 | hpos
    · subst hsz0
      exact mergeLoop_content_base pq old files h6 w1 w2
    · rw [mergeLoop]
      rw [dif_neg (by omega)]
      have htopmem : pq.getD 0 default ∈ pq.take size :=
        getD_mem_take pq 0 size hpos hsz
      have hdelperm := delete_take_perm pq size hpos hsz
      have hlen' : size - 1 ≤ (delete pq size).length := by simp; omega
      have hheap_mem : ∀ e : CRECID, e ∈ pq.take size ↔
          (e = pq.getD 0 default ∨ e ∈ (delete pq size).take (size - 1)) := by
        intro e
        rw [← hdelperm.mem_iff]
        exact List.mem_cons
      have hids : ((pq.getD 0 default).id ::
          ((delete pq size).take (size - 1)).map (fun e => e.id)).Perm
          ((pq.take size).map (fun e => e.id)) := by
        have := hdelperm.map (fun e => e.id)
        simpa using this
      have h7' : (((delete pq size).take (size - 1)).map (fun e => e.id)).Nodup := by
        have := (hids.nodup_iff).2 h7
        exact (List.nodup_cons.1 this).2
      have hvdel : valAtID w1 w2 (pq.take size) =
          keyValID w1 w2 (pq.getD 0 default) +
            valAtID w1 w2 ((delete pq size).take (size - 1)) := by
        have := valAtID_perm w1 w2 hdelperm
        simpa using this.symm
      have hkdel : hasKeyID w1 w2 (pq.take size) ↔
          (((pq.getD 0 default).word1 = w1 ∧ (pq.getD 0 default).word2 = w2) ∨
            hasKeyID w1 w2 ((delete pq size).take (size - 1))) := by
        rw [← hasKeyID_perm w1 w2 hdelperm]
        unfold hasKeyID
        constructor
        · rintro ⟨e, he, hk⟩
          rcases List.mem_cons.1 he with rfl | he
          · exact Or.inl hk
          · exact Or.inr ⟨e, he, hk⟩
        · rintro (hk | ⟨e, he, hk⟩)
          · exact ⟨pq.getD 0 default, by simp, hk⟩
          · exact ⟨e, List.mem_cons_of_mem _ he, hk⟩
      have hmw := merge_write_content (pq.getD 0 default) old w1 w2
      have hmwk := merge_write_keys (pq.getD 0 default) old w1 w2
      split
      · -- EOF on the popped record's file: the heap shrinks
        rename_i hf
        have h6' : ∀ j, files.getD j [] ≠ [] →
            ∃ e ∈ (delete pq size).take (size - 1), e.id = j := by
          intro j hj
          obtain ⟨e, he, hej⟩ := h6 j hj
          have hne : e ≠ pq.getD 0 default := by
            intro hc
            subst hc
            rw [hej] at hf
            exact hj hf
          rcases (hheap_mem e).1 he with hc | hc
          · exact absurd hc hne
          · exact ⟨e, hc, hej⟩
        have hrec := ih (delete pq size) (size - 1)
          (merge_write (pq.getD 0 default) old).2 files
          (by omega) hlen' h6' h7' w1 w2
        constructor
        · rw [valAt_append, hrec.1, hvdel]
          linarith [hmw]
        · rw [hasKey_append, hrec.2, hkdel]
          constructor
          · rintro (h | h | h | h)
            · rcases hmwk.1 (Or.inl h) with h' | h'
              · exact Or.inl h'
              · exact Or.inr (Or.inl (Or.inl h'))
            · rcases hmwk.1 (Or.inr h) with h' | h'
              · exact Or.inl h'
              · exact Or.inr (Or.inl (Or.inl h'))
            · exact Or.inr (Or.inl (Or.inr h))
            · exact Or.inr (Or.inr h)
          · rintro (h | h | h)
            · rcases hmwk.2 (Or.inl h) with h' | h'
              · exact Or.inl h'
              · exact Or.inr (Or.inl h')
            · rcases h with h | h
              · rcases hmwk.2 (Or.inr h) with h' | h'
                · exact Or.inl h'
                · exact Or.inr (Or.inl h')
              · exact Or.inr (Or.inr (Or.inl h))
            · exact Or.inr (Or.inr (Or.inr h))
      · -- a new record is read from the popped record's file
        rename_i r rest hf
        have hidlt : (pq.getD 0 default).id < files.length := by
          by_contra hge
          rw [List.getD_eq_default _ _ (by omega)] at hf
          exact List.noConfusion hf
        have hinsperm := insert_take_perm (delete pq size)
          (r.toID (pq.getD 0 default).id) size hpos (by simp; omega)
        have hins_mem : ∀ e : CRECID,
            e ∈ (insert (delete pq size) (r.toID (pq.getD 0 default).id) size).take size ↔
            (e = r.toID (pq.getD 0 default).id ∨
              e ∈ (delete pq size).take (size - 1)) := by
          intro e
          rw [hinsperm.mem_iff]
          exact List.mem_cons
        have hsumset := sumLen_set_lt files (pq.getD 0 default).id r rest hf
        have h6'' : ∀ j, (files.set (pq.getD 0 default).id rest).getD j [] ≠ [] →
            ∃ e ∈ (insert (delete pq size)
              (r.toID (pq.getD 0 default).id) size).take size, e.id = j := by
          intro j hj
          rw [getD_set_list _ _ _ _ hidlt] at hj
          by_cases hji : j = (pq.getD 0 default).id
          · exact ⟨r.toID (pq.getD 0 default).id, (hins_mem _).2 (Or.inl rfl), by
              simp [hji]⟩
          · rw [if_neg hji] at hj
            obtain ⟨e, he, hej⟩ := h6 j hj
            have hne : e ≠ pq.getD 0 default := by
              intro hc
              subst hc
              exact hji hej.symm |>.elim
            rcases (hheap_mem e).1 he with hc | hc
            · exact absurd hc hne
            · exact ⟨e, (hins_mem e).2 (Or.inr hc), hej⟩
        have h7'' : (((insert (delete pq size) (r.toID (pq.getD 0 default).id)
            size).take size).map (fun e => e.id)).Nodup := by
          have hidsins := hinsperm.map (fun e => e.id)
          rw [List.Perm.nodup_iff hidsins]
          simp only [List.map_cons, toID_id]
          rw [List.nodup_cons]
          exact ⟨(List.nodup_cons.1 ((hids.nodup_iff).2 h7)).1, h7'⟩
        have hrec := ih (insert (delete pq size) (r.toID (pq.getD 0 default).id) size)
          size (merge_write (pq.getD 0 default) old).2
          (files.set (pq.getD 0 default).id rest)
          (by omega) (by simp; omega) h6'' h7'' w1 w2
        have hvins : valAtID w1 w2
            ((insert (delete pq size) (r.toID (pq.getD 0 default).id) size).take size) =
            keyVal w1 w2 r + valAtID w1 w2 ((delete pq size).take (size - 1)) := by
          have := valAtID_perm w1 w2 hinsperm
          simpa using this
        have hfset : ((files.set (pq.getD 0 default).id rest).map (valAt w1 w2)).sum =
            (files.map (valAt w1 w2)).sum - keyVal w1 w2 r := by
          rw [files_sum_set (valAt w1 w2) files _ rest hidlt, hf]
          simp only [valAt_cons]
          ring
        constructor
        · rw [valAt_append, hrec.1, hvins, hfset, hvdel]
          linarith [hmw]
        · have hkins : hasKeyID w1 w2
              ((insert (delete pq size) (r.toID (pq.getD 0 default).id) size).take size) ↔
              ((r.word1 = w1 ∧ r.word2 = w2) ∨
                hasKeyID w1 w2 ((delete pq size).take (size - 1))) := by
            unfold hasKeyID
            constructor
            · rintro ⟨e, he, hk⟩
              rcases (hins_mem e).1 he with rfl | he'
              · exact Or.inl hk
              · exact Or.inr ⟨e, he', hk⟩
            · rintro (hk | ⟨e, he, hk⟩)
              · exact ⟨r.toID (pq.getD 0 default).id, (hins_mem _).2 (Or.inl rfl), hk⟩
              · exact ⟨e, (hins_mem e).2 (Or.inr he), hk⟩
          have hfile_split : (∃ j, hasKey w1 w2 (files.getD j [])) ↔
              ((r.word1 = w1 ∧ r.word2 = w2) ∨ hasKey w1 w2 rest ∨
                ∃ j, j ≠ (pq.getD 0 default).id ∧ hasKey w1 w2 (files.getD j [])) := by
            constructor
            · rintro ⟨j, hkj⟩
              by_cases hji : j = (pq.getD 0 default).id
              · subst hji
                rw [hf] at hkj
                rcases hkj with ⟨s, hs, hks⟩
                rcases List.mem_cons.1 hs with rfl | hs
                · exact Or.inl hks
                · exact Or.inr (Or.inl ⟨s, hs, hks⟩)
              · exact Or.inr (Or.inr ⟨j, hji, hkj⟩)
            · rintro (hk | hk | ⟨j, hji, hkj⟩)
              · exact ⟨(pq.getD 0 default).id, by
                  rw [hf]; exact ⟨r, by simp, hk⟩⟩
              · rcases hk with ⟨s, hs, hks⟩
                exact ⟨(pq.getD 0 default).id, by
                  rw [hf]; exact ⟨s, List.mem_cons_of_mem _ hs, hks⟩⟩
              · exact ⟨j, hkj⟩
          have hfile'_split : (∃ j, hasKey w1 w2
              ((files.set (pq.getD 0 default).id rest).getD j [])) ↔
              (hasKey w1 w2 rest ∨
                ∃ j, j ≠ (pq.getD 0 default).id ∧ hasKey w1 w2 (files.getD j [])) := by
            constructor
            · rintro ⟨j, hkj⟩
              rw [getD_set_list _ _ _ _ hidlt] at hkj
              by_cases hji : j = (pq.getD 0 default).id
              · rw [if_pos hji] at hkj
                exact Or.inl hkj
              · rw [if_neg hji] at hkj
                exact Or.inr ⟨j, hji, hkj⟩
            · rintro (hk | ⟨j, hji, hkj⟩)
              · exact ⟨(pq.getD 0 default).id, by
                  rw [getD_set_list _ _ _ _ hidlt, if_pos rfl]
                  exact hk⟩
              · exact ⟨j, by
                  rw [getD_set_list _ _ _ _ hidlt, if_neg hji]
                  exact hkj⟩
          rw [hasKey_append, hrec.2, hkdel, hkins, hfile'_split, hfile_split]
          exact merge_keys_assemble hmwk

/-! ### The priming loop -/

/-- The sequence of entries the priming loop inserts for files `i..num-1`:
the first record of each file, or — for an empty file, whose `fread` fails
unchecked — a stale copy of the last value of `new`, retagged with the file
index. -/
def primedTail (runs : List (List CREC)) (num : ℕ) : ℕ → CRECID → List CRECID
  | i, new =>
    if i < num then
      match (runs.getD i []).head? with
      | some r => r.toID i :: primedTail runs num (i + 1) (r.toID i)
      | none => { new with id := i } :: primedTail runs num (i + 1) { new with id := i }
    else []
termination_by i => num - i

@[simp] theorem primeLoop_length : ∀ (k : ℕ) (runs : List (List CREC)) (num i : ℕ)
    (pq : List CRECID) (new : CRECID), num - i ≤ k →
    (primeLoop runs num i pq new).1.length = pq.length := by
  intro k
  induction k with
  | zero =>
    intro runs num i pq new h
    rw [primeLoop]
    rw [dif_neg (by omega)]
  | succ k ih =>
    intro runs num i pq new h
    rw [primeLoop]
    by_cases hi : i < num
    · rw [dif_pos hi]
      split <;> rw [ih _ _ _ _ _ (by omega)] <;> simp
    · rw [dif_neg hi]

theorem primeLoop_isHeap : ∀ (k : ℕ) (runs : List (List CREC)) (num i : ℕ)
    (pq : List CRECID) (new : CRECID), num - i ≤ k → i ≤ num → num ≤ pq.length →
    IsHeap pq i → IsHeap (primeLoop runs num i pq new).1 num := by
  intro k
  induction k with
  | zero =>
    intro runs num i pq new hk hi hlen hheap
    have : i = num := by omega
    subst this
    rw [primeLoop]
    rw [dif_neg (by omega)]
    exact hheap
  | succ k ih =>
    intro runs num i pq new hk hi hlen hheap
    rw [primeLoop]
    by_cases hlt : i < num
    · rw [dif_pos hlt]
      have hins : ∀ e : CRECID, IsHeap (insert pq e (i + 1)) (i + 1) :=
        fun e => insert_isHeap pq e (i + 1) (by omega) (by omega) (by simpa using hheap)
      split
      · exact ih runs num (i + 1) _ _ (by omega) (by omega) (by simp; omega) (hins _)
      · exact ih runs num (i + 1) _ _ (by omega) (by omega) (by simp; omega) (hins _)
    · rw [dif_neg hlt]
      have : i = num := by omega
      subst this
      exact hheap

theorem primeLoop_take_perm : ∀ (k : ℕ) (runs : List (List CREC)) (num i : ℕ)
    (pq : List CRECID) (new : CRECID), num - i ≤ k → i ≤ num → num ≤ pq.length →
    ((primeLoop runs num i pq new).1.take num).Perm
      (pq.take i ++ primedTail runs num i new) := by
  intro k
  induction k with
  | zero =>
    intro runs num i pq new hk hi hlen
    have : i = num := by omega
    subst this
    rw [primeLoop, primedTail]
    rw [dif_neg (by omega), if_neg (by omega)]
    simp
  | succ k ih =>
    intro runs num i pq new hk hi hlen
    rw [primeLoop, primedTail]
    by_cases hlt : i < num
    · rw [dif_pos hlt, if_pos hlt]
      have hstep : ∀ e : CRECID,
          ((primeLoop runs num (i + 1) (insert pq e (i + 1)) e).1.take num).Perm
            (pq.take i ++ (e :: primedTail runs num (i + 1) e)) := by
        intro e
        refine List.Perm.trans
          (ih runs num (i + 1) (insert pq e (i + 1)) e (by omega) (by omega)
            (by simp; omega)) ?_
        have h1 : ((insert pq e (i + 1)).take (i + 1)).Perm (e :: pq.take i) :=
          insert_take_perm pq e (i + 1) (by omega) (by omega)
        refine List.Perm.trans (h1.append_right _) ?_
        refine List.Perm.trans ?_ List.perm_middle.symm
        exact List.Perm.refl _
      split
      · exact hstep _
      · exact hstep _
    · rw [dif_neg hlt, if_neg hlt]
      have : i = num := by omega
      subst this
      simp

theorem primedTail_ids : ∀ (k : ℕ) (runs : List (List CREC)) (num i : ℕ)
    (new : CRECID), num - i ≤ k →
    (primedTail runs num i new).map (fun e => e.id) = List.range' i (num - i) := by
  intro k
  induction k with
  | zero =>
    intro runs num i new hk
    rw [primedTail]
    rw [if_neg (by omega)]
    have : num - i = 0 := by omega
    rw [this]
    rfl
  | succ k ih =>
    intro runs num i new hk
    rw [primedTail]
    by_cases hlt : i < num
    · rw [if_pos hlt]
      have hrange : num - i = (num - (i + 1)) + 1 := by omega
      split
      · simp only [List.map_cons, toID_id]
        rw [ih runs num (i + 1) _ (by omega), hrange]
        rfl
      · simp only [List.map_cons]
        rw [ih runs num (i + 1) _ (by omega), hrange]
        rfl
    · rw [if_neg hlt]
      have : num - i = 0 := by omega
      rw [this]
      rfl

theorem getD_map_tail (runs : List (List CREC)) (j : ℕ) :
    (runs.map List.tail).getD j [] = (runs.getD j []).tail := by
  by_cases hj : j < runs.length
  · rw [List.getD_eq_getElem _ _ (by simpa using hj), List.getD_eq_getElem _ _ hj]
    simp
  · rw [List.getD_eq_default _ _ (by simpa using hj), List.getD_eq_default _ _ (by omega)]
    rfl

/-- Every primed heap entry is below all remaining records of its file: a
genuine head is below its tail because the run is sorted, and a stale entry's
file is empty. -/
theorem primedTail_lb : ∀ (k : ℕ) (runs : List (List CREC)) (num i : ℕ)
    (new : CRECID), num - i ≤ k →
    (∀ f ∈ runs, f.Pairwise (fun a b => a.key ≤ b.key)) →
    ∀ e ∈ primedTail runs num i new,
      ∀ r ∈ (runs.map List.tail).getD e.id [], e.key ≤ r.key := by
  intro k
  induction k with
  | zero =>
    intro runs num i new hk hsort e he
    rw [primedTail] at he
    rw [if_neg (by omega)] at he
    simp at he
  | succ k ih =>
    intro runs num i new hk hsort e he
    rw [primedTail] at he
    by_cases hlt : i < num
    · rw [if_pos hlt] at he
      have hstep : ∀ (e' : CRECID),
          (∀ r ∈ (runs.map List.tail).getD e'.id [], e'.key ≤ r.key) →
          e ∈ e' :: primedTail runs num (i + 1) e' →
          ∀ r ∈ (runs.map List.tail).getD e.id [], e.key ≤ r.key := by
        intro e' he' hmem
        rcases List.mem_cons.1 hmem with rfl | hmem
        · exact he'
        · exact ih runs num (i + 1) e' (by omega) hsort e hmem
      rcases hh : (runs.getD i []).head? with _ | r
      · rw [hh] at he
        refine hstep _ ?_ he
        intro s hs
        rw [getD_map_tail] at hs
        have hid : ({ new with id := i } : CRECID).id = i := rfl
        rw [hid] at hs
        have hnil : runs.getD i [] = [] := List.head?_eq_none_iff.1 hh
        rw [hnil] at hs
        simp at hs
      · rw [hh] at he
        refine hstep _ ?_ he
        intro s hs
        rw [getD_map_tail] at hs
        simp only [toID_id] at hs
        rcases hrun : runs.getD i [] with _ | ⟨r', t⟩
        · rw [hrun] at hh
          simp at hh
        · rw [hrun] at hh hs
          have hr' : r' = r := by
            simp at hh
            exact hh
          subst hr'
          have hiruns : i < runs.length := by
            by_contra hge
            rw [List.getD_eq_default _ _ (by omega)] at hrun
            exact List.noConfusion hrun
          have hmem : (r' :: t) ∈ runs := by
            rw [← hrun, List.getD_eq_getElem _ _ hiruns]
            exact List.getElem_mem hiruns
          have hsorted := hsort _ hmem
          rw [toID_key]
          simp only [List.tail_cons] at hs
          exact (List.pairwise_cons.1 hsorted).1 s hs
    · rw [if_neg hlt] at he
      simp at he

/-- Sum of the `val` fields of heap entries. -/
def sumValsID (l : List CRECID) : ℚ := (l.map CRECID.val).sum

@[simp] theorem sumValsID_nil : sumValsID [] = 0 := rfl

@[simp] theorem sumValsID_cons (e : CRECID) (l : List CRECID) :
    sumValsID (e :: l) = e.val + sumValsID l := rfl

theorem sumValsID_perm {l₁ l₂ : List CRECID} (h : l₁.Perm l₂) :
    sumValsID l₁ = sumValsID l₂ :=
  (h.map CRECID.val).sum_eq

theorem merge_write_sum (new old : CRECID) :
    sumVals (merge_write new old).1 + (merge_write new old).2.val =
      old.val + new.val := by
  unfold merge_write
  split
  · simp
  · simp [CRECID.toCREC, sumVals]

theorem mergeLoop_sum_base (pq : List CRECID) (old : CRECID)
    (files : List (List CREC))
    (h6 : ∀ i, files.getD i [] ≠ [] → ∃ e ∈ pq.take 0, e.id = i) :
    sumVals (mergeLoop pq 0 old files) =
      old.val + sumValsID (pq.take 0) + (files.map sumVals).sum := by
  have hempty : ∀ i, files.getD i [] = [] := by
    intro i
    by_contra hne
    obtain ⟨e, he, _⟩ := h6 i hne
    simp at he
  have hflen : ∀ f ∈ files, f = [] := by
    intro f hf
    obtain ⟨i, hi, hgi⟩ := List.mem_iff_getElem.1 hf
    have := hempty i
    rw [List.getD_eq_getElem files [] hi] at this
    rw [← hgi, this]
  rw [mergeLoop]
  simp only [dif_pos rfl]
  have hfs : (files.map sumVals).sum = 0 := by
    rw [List.sum_eq_zero]
    intro x hx
    obtain ⟨f, hf, rfl⟩ := List.mem_map.1 hx
    rw [hflen f hf]
    rfl
  simp [hfs, sumVals, CRECID.toCREC]

/-- Total-weight conservation through the merge loop. -/
theorem mergeLoop_sum :
    ∀ (fuel : ℕ) (pq : List CRECID) (size : ℕ) (old : CRECID)
      (files : List (List CREC)),
    sumLen files + size ≤ fuel →
    size ≤ pq.length →
    (∀ i, files.getD i [] ≠ [] → ∃ e ∈ pq.take size, e.id = i) →
    sumVals (mergeLoop pq size old files) =
      old.val + sumValsID (pq.take size) + (files.map sumVals).sum := by
  intro fuel
  induction fuel with
  | zero =>
    intro pq size old files hfuel hsz h6
    have hsz0 : size = 0 := by omega
    subst hsz0
    exact mergeLoop_sum_base pq old files h6
  | succ fuel ih =>
    intro pq size old files hfuel hsz h6
    rcases Nat.eq_zero_or_pos size with hsz0 | hpos
    · subst hsz0
      exact mergeLoop_sum_base pq old files h6
    · rw [mergeLoop]
      rw [dif_neg (by omega)]
      have hdelperm := delete_take_perm pq size hpos hsz
      have hlen' : size - 1 ≤ (delete pq size).length := by simp; omega
      have hheap_mem : ∀ e : CRECID, e ∈ pq.take size ↔
          (e = pq.getD 0 default ∨ e ∈ (delete pq size).take (size - 1)) := by
        intro e
        rw [← hdelperm.mem_iff]
        exact List.mem_cons
      have hvdel : sumValsID (pq.take size) =
          (pq.getD 0 default).val + sumValsID ((delete pq size).take (size - 1)) := by
        have := sumValsID_perm hdelperm
        simpa using this.symm
      have hmw := merge_write_sum (pq.getD 0 default) old
      split
      · rename_i hf
        have h6' : ∀ j, files.getD j [] ≠ [] →
            ∃ e ∈ (delete pq size).take (size - 1), e.id = j := by
          intro j hj
          obtain ⟨e, he, hej⟩ := h6 j hj
          have hne : e ≠ pq.getD 0 default := by
            intro hc
            subst hc
            rw [hej] at hf
            exact hj hf
          rcases (hheap_mem e).1 he with hc | hc
          · exact absurd hc hne
          · exact ⟨e, hc, hej⟩
        rw [sumVals_append, ih (delete pq size) (size - 1)
          (merge_write (pq.getD 0 default) old).2 files (by omega) hlen' h6', hvdel]
        linarith [hmw]
      · rename_i r rest hf
        have hidlt : (pq.getD 0 default).id < files.length := by
          by_contra hge
          rw [List.getD_eq_default _ _ (by omega)] at hf
          exact List.noConfusion hf
        have hinsperm := insert_take_perm (delete pq size)
          (r.toID (pq.getD 0 default).id) size hpos (by simp; omega)
        have hins_mem : ∀ e : CRECID,
            e ∈ (insert (delete pq size) (r.toID (pq.getD 0 default).id) size).take size ↔
            (e = r.toID (pq.getD 0 default).id ∨
              e ∈ (delete pq size).take (size - 1)) := by
          intro e
          rw [hinsperm.mem_iff]
          exact List.mem_cons
        have hsumset := sumLen_set_lt files (pq.getD 0 default).id r rest hf
        have h6'' : ∀ j, (files.set (pq.getD 0 default).id rest).getD j [] ≠ [] →
            ∃ e ∈ (insert (delete pq size)
              (r.toID (pq.getD 0 default).id) size).take size, e.id = j := by
          intro j hj
          rw [getD_set_list _ _ _ _ hidlt] at hj
          by_cases hji : j = (pq.getD 0 default).id
          · exact ⟨r.toID (pq.getD 0 default).id, (hins_mem _).2 (Or.inl rfl), by
              simp [hji]⟩
          · rw [if_neg hji] at hj
            obtain ⟨e, he, hej⟩ := h6 j hj
            have hne : e ≠ pq.getD 0 default := by
              intro hc
              subst hc
              exact hji hej.symm |>.elim
            rcases (hheap_mem e).1 he with hc | hc
            · exact absurd hc hne
            · exact ⟨e, (hins_mem e).2 (Or.inr hc), hej⟩
        have hvins : sumValsID
            ((insert (delete pq size) (r.toID (pq.getD 0 default).id) size).take size) =
            r.val + sumValsID ((delete pq size).take (size - 1)) := by
          have := sumValsID_perm hinsperm
          simpa [CREC.toID] using this
        have hfset : ((files.set (pq.getD 0 default).id rest).map sumVals).sum =
            (files.map sumVals).sum - r.val := by
          rw [files_sum_set sumVals files _ rest hidlt, hf]
          simp only [sumVals_cons]
          ring
        rw [sumVals_append, ih _ size (merge_write (pq.getD 0 default) old).2
          (files.set (pq.getD 0 default).id rest) (by omega) (by simp; omega) h6'',
          hvins, hfset, hvdel]
        linarith [hmw]

theorem hasKey_cons (w1 w2 : ℤ) (r : CREC) (l : List CREC) :
    hasKey w1 w2 (r :: l) ↔ ((r.word1 = w1 ∧ r.word2 = w2) ∨ hasKey w1 w2 l) := by
  unfold hasKey
  constructor
  · rintro ⟨s, hs, hk⟩
    rcases List.mem_cons.1 hs with rfl | hs
    · exact Or.inl hk
    · exact Or.inr ⟨s, hs, hk⟩
  · rintro (hk | ⟨s, hs, hk⟩)
    · exact ⟨r, by simp, hk⟩
    · exact ⟨s, List.mem_cons_of_mem _ hs, hk⟩

theorem hasKeyID_cons (w1 w2 : ℤ) (e : CRECID) (l : List CRECID) :
    hasKeyID w1 w2 (e :: l) ↔ ((e.word1 = w1 ∧ e.word2 = w2) ∨ hasKeyID w1 w2 l) := by
  unfold hasKeyID
  constructor
  · rintro ⟨s, hs, hk⟩
    rcases List.mem_cons.1 hs with rfl | hs
    · exact Or.inl hk
    · exact Or.inr ⟨s, hs, hk⟩
  · rintro (hk | ⟨s, hs, hk⟩)
    · exact ⟨e, by simp, hk⟩
    · exact ⟨s, List.mem_cons_of_mem _ hs, hk⟩

theorem exists_getD_hasKey_iff (files : List (List CREC)) (w1 w2 : ℤ) :
    (∃ i, hasKey w1 w2 (files.getD i [])) ↔ ∃ f ∈ files, hasKey w1 w2 f := by
  constructor
  · rintro ⟨i, hk⟩
    by_cases hi : i < files.length
    · refine ⟨files.getD i [], ?_, hk⟩
      rw [List.getD_eq_getElem files [] hi]
      exact List.getElem_mem hi
    · rw [List.getD_eq_default _ _ (by omega)] at hk
      rcases hk with ⟨r, hr, _⟩
      simp at hr
  · rintro ⟨f, hf, hk⟩
    obtain ⟨i, hi, hgi⟩ := List.mem_iff_getElem.1 hf
    exact ⟨i, by rw [List.getD_eq_getElem files [] hi, hgi]; exact hk⟩

/-- With every run nonempty, the priming loop reads genuine first records:
the entries it inserts carry exactly the weight by which the runs exceed
their tails, for any record weighting that ignores the file tag. -/
theorem primedTail_gsum (g : CREC → ℚ) (gID : CRECID → ℚ)
    (hg : ∀ (r : CREC) (i : ℕ), gID (r.toID i) = g r) :
    ∀ (k : ℕ) (runs : List (List CREC)) (num i : ℕ) (new : CRECID),
    num - i ≤ k → num = runs.length →
    (∀ j, j < num → runs.getD j [] ≠ []) →
    ((primedTail runs num i new).map gID).sum +
      (((runs.drop i).map List.tail).map (fun f => (f.map g).sum)).sum =
      ((runs.drop i).map (fun f => (f.map g).sum)).sum := by
  intro k
  induction k with
  | zero =>
    intro runs num i new hk hnum hne
    rw [primedTail]
    rw [if_neg (by omega)]
    rw [List.drop_eq_nil_of_le (by omega)]
    simp
  | succ k ih =>
    intro runs num i new hk hnum hne
    rw [primedTail]
    by_cases hlt : i < num
    · rw [if_pos hlt]
      have hidx : i < runs.length := by omega
      have hdropc : runs.drop i = runs.getD i [] :: runs.drop (i + 1) := by
        rw [List.getD_eq_getElem runs [] hidx]
        exact List.drop_eq_getElem_cons hidx
      split
      · rename_i r heq
        obtain ⟨t, hrun⟩ : ∃ t, runs.getD i [] = r :: t := by
          rcases hl : runs.getD i [] with _ | ⟨r', t⟩
          · rw [hl] at heq; simp at heq
          · rw [hl] at heq
            simp at heq
            exact ⟨t, by rw [heq]⟩
        have := ih runs num (i + 1) (r.toID i) (by omega) hnum hne
        rw [hdropc, hrun]
        simp only [List.map_cons, List.sum_cons, List.tail_cons, hg]
        rw [← this]
        ring
      · rename_i heq
        exact absurd (List.head?_eq_none_iff.1 heq) (hne i hlt)
    · rw [if_neg hlt]
      rw [List.drop_eq_nil_of_le (by omega)]
      simp

theorem primed_keys_assemble {Rk Rk' K T E' E2 : Prop}
    (hr : Rk ↔ Rk') (h : (K ∨ E') ↔ E2) :
    ((Rk ∨ K) ∨ (T ∨ E')) ↔ ((Rk' ∨ T) ∨ E2) := by
  tauto

theorem primedTail_keys (w1 w2 : ℤ) :
    ∀ (k : ℕ) (runs : List (List CREC)) (num i : ℕ) (new : CRECID),
    num - i ≤ k → num = runs.length →
    (∀ j, j < num → runs.getD j [] ≠ []) →
    ((hasKeyID w1 w2 (primedTail runs num i new) ∨
        ∃ f ∈ (runs.drop i).map List.tail, hasKey w1 w2 f) ↔
      ∃ f ∈ runs.drop i, hasKey w1 w2 f) := by
  intro k
  induction k with
  | zero =>
    intro runs num i new hk hnum hne
    rw [primedTail]
    rw [if_neg (by omega)]
    rw [List.drop_eq_nil_of_le (by omega)]
    unfold hasKeyID
    simp
  | succ k ih =>
    intro runs num i new hk hnum hne
    rw [primedTail]
    by_cases hlt : i < num
    · rw [if_pos hlt]
      have hidx : i < runs.length := by omega
      have hdropc : runs.drop i = runs.getD i [] :: runs.drop (i + 1) := by
        rw [List.getD_eq_getElem runs [] hidx]
        exact List.drop_eq_getElem_cons hidx
      split
      · rename_i r heq
        obtain ⟨t, hrun⟩ : ∃ t, runs.getD i [] = r :: t := by
          rcases hl : runs.getD i [] with _ | ⟨r', t⟩
          · rw [hl] at heq; simp at heq
          · rw [hl] at heq
            simp at heq
            exact ⟨t, by rw [heq]⟩
        have hihk := ih runs num (i + 1) (r.toID i) (by omega) hnum hne
        rw [hdropc, hrun]
        rw [hasKeyID_cons]
        have hmc1 : (∃ f ∈ ((r :: t) :: runs.drop (i + 1)).map List.tail,
            hasKey w1 w2 f) ↔
            (hasKey w1 w2 t ∨ ∃ f ∈ (runs.drop (i + 1)).map List.tail,
              hasKey w1 w2 f) := by
          simp only [List.map_cons, List.tail_cons]
          constructor
          · rintro ⟨f, hf, hk⟩
            rcases List.mem_cons.1 hf with rfl | hf
            · exact Or.inl hk
            · exact Or.inr ⟨f, hf, hk⟩
          · rintro (hk | ⟨f, hf, hk⟩)
            · exact ⟨t, by simp, hk⟩
            · exact ⟨f, List.mem_cons_of_mem _ hf, hk⟩
        have hmc2 : (∃ f ∈ (r :: t) :: runs.drop (i + 1), hasKey w1 w2 f) ↔
            (hasKey w1 w2 (r :: t) ∨ ∃ f ∈ runs.drop (i + 1), hasKey w1 w2 f) := by
          constructor
          · rintro ⟨f, hf, hk⟩
            rcases List.mem_cons.1 hf with rfl | hf
            · exact Or.inl hk
            · exact Or.inr ⟨f, hf, hk⟩
          · rintro (hk | ⟨f, hf, hk⟩)
            · exact ⟨r :: t, by simp, hk⟩
            · exact ⟨f, List.mem_cons_of_mem _ hf, hk⟩
        rw [hmc1, hmc2, hasKey_cons]
        exact primed_keys_assemble Iff.rfl hihk
      · rename_i heq
        exact absurd (List.head?_eq_none_iff.1 heq) (hne i hlt)
    · rw [if_neg hlt]
      rw [List.drop_eq_nil_of_le (by omega)]
      unfold hasKeyID
      simp

theorem preMerge_sorted (pq : List CRECID) (num : ℕ) (files : List (List CREC))
    (hpos : 0 < num) (hlen : num ≤ pq.length)
    (hheap : IsHeap pq num)
    (h5 : ∀ i, (files.getD i []).Pairwise (fun a b => a.key ≤ b.key))
    (h4 : ∀ e ∈ pq.take num, ∀ r ∈ files.getD e.id [], e.key ≤ r.key) :
    (preMerge pq num files).Pairwise (fun a b => a.key < b.key) := by
  unfold preMerge
  have htopmem := getD_mem_take pq 0 num hpos hlen
  have hdelperm := delete_take_perm pq num hpos hlen
  have hheap' := delete_isHeap pq num hlen hheap
  have hlen' : num - 1 ≤ (delete pq num).length := by simp; omega
  have hmin : ∀ e ∈ pq.take num, (pq.getD 0 default).key ≤ e.key := by
    intro e he
    obtain ⟨c, hc, hgc⟩ := mem_take_getD pq num e he hlen
    rw [← hgc]
    exact hheap.root_min c hc
  have hdel_sub : ∀ e ∈ (delete pq num).take (num - 1), e ∈ pq.take num := by
    intro e he
    exact hdelperm.mem_iff.1 (List.mem_cons_of_mem _ he)
  split
  · rename_i hf
    exact (mergeLoop_sorted (sumLen files + (num - 1)) _ _ _ _ le_rfl hlen' hheap'
      (fun e he => hmin e (hdel_sub e he)) h5
      (fun e he => h4 e (hdel_sub e he))).1
  · rename_i r rest hf
    have hidlt : (pq.getD 0 default).id < files.length := by
      by_contra hge
      rw [List.getD_eq_default _ _ (by omega)] at hf
      exact List.noConfusion hf
    have hrkey : (pq.getD 0 default).key ≤ r.key := by
      have := h4 _ htopmem
      rw [hf] at this
      exact this r (by simp)
    have hinsperm := insert_take_perm (delete pq num)
      (r.toID (pq.getD 0 default).id) num hpos (by simp; omega)
    have hins_heap : IsHeap (insert (delete pq num)
        (r.toID (pq.getD 0 default).id) num) num :=
      insert_isHeap _ _ num hpos (by simp; omega) hheap'
    refine (mergeLoop_sorted (sumLen (files.set (pq.getD 0 default).id rest) + num)
      _ _ _ _ le_rfl (by simp; omega) hins_heap ?_ ?_ ?_).1
    · intro e he
      rcases List.mem_cons.1 (hinsperm.mem_iff.1 he) with he' | he'
      · rw [he']
        exact hrkey
      · exact hmin e (hdel_sub e he')
    · intro i
      rw [getD_set_list _ _ _ _ hidlt]
      split
      · have := h5 (pq.getD 0 default).id
        rw [hf] at this
        exact (List.pairwise_cons.1 this).2
      · exact h5 i
    · intro e he s hs
      rcases List.mem_cons.1 (hinsperm.mem_iff.1 he) with he' | he'
      · subst he'
        rw [getD_set_list _ _ _ _ hidlt] at hs
        simp at hs
        have := h5 (pq.getD 0 default).id
        rw [hf] at this
        have hrs := (List.pairwise_cons.1 this).1 s hs
        rw [toID_key]
        exact hrs
      · rw [getD_set_list _ _ _ _ hidlt] at hs
        split at hs
        · rename_i hid
          have := h4 e (hdel_sub e he')
          rw [hid, hf] at this
          exact this s (by simp [hs])
        · exact h4 e (hdel_sub e he') s hs

theorem pre_keys_assemble {T R D Re E : Prop} :
    (T ∨ (R ∨ D) ∨ (Re ∨ E)) ↔ ((T ∨ D) ∨ (R ∨ Re ∨ E)) := by
  tauto

theorem preMerge_content (pq : List CRECID) (num : ℕ) (files : List (List CREC))
    (hpos : 0 < num) (hlen : num ≤ pq.length)
    (h6 : ∀ i, files.getD i [] ≠ [] → ∃ e ∈ pq.take num, e.id = i)
    (h7 : ((pq.take num).map (fun e => e.id)).Nodup) :
    ∀ w1 w2,
    (valAt w1 w2 (preMerge pq num files) =
      valAtID w1 w2 (pq.take num) + (files.map (valAt w1 w2)).sum) ∧
    (hasKey w1 w2 (preMerge pq num files) ↔
      (hasKeyID w1 w2 (pq.take num) ∨ ∃ i, hasKey w1 w2 (files.getD i []))) := by
  intro w1 w2
  unfold preMerge
  have hdelperm := delete_take_perm pq num hpos hlen
  have hlen' : num - 1 ≤ (delete pq num).length := by simp; omega
  have hheap_mem : ∀ e : CRECID, e ∈ pq.take num ↔
      (e = pq.getD 0 default ∨ e ∈ (delete pq num).take (num - 1)) := by
    intro e
    rw [← hdelperm.mem_iff]
    exact List.mem_cons
  have hids : ((pq.getD 0 default).id ::
      ((delete pq num).take (num - 1)).map (fun e => e.id)).Perm
      ((pq.take num).map (fun e => e.id)) := by
    have := hdelperm.map (fun e => e.id)
    simpa using this
  have h7' : (((delete pq num).take (num - 1)).map (fun e => e.id)).Nodup := by
    have := (hids.nodup_iff).2 h7
    exact (List.nodup_cons.1 this).2
  have hvdel : valAtID w1 w2 (pq.take num) =
      keyValID w1 w2 (pq.getD 0 default) +
        valAtID w1 w2 ((delete pq num).take (num - 1)) := by
    have := valAtID_perm w1 w2 hdelperm
    simpa using this.symm
  have hkdel : hasKeyID w1 w2 (pq.take num) ↔
      (((pq.getD 0 default).word1 = w1 ∧ (pq.getD 0 default).word2 = w2) ∨
        hasKeyID w1 w2 ((delete pq num).take (num - 1))) := by
    rw [← hasKeyID_perm w1 w2 hdelperm]
    exact hasKeyID_cons w1 w2 _ _
  split
  · rename_i hf
    have h6' : ∀ j, files.getD j [] ≠ [] →
        ∃ e ∈ (delete pq num).take (num - 1), e.id = j := by
      intro j hj
      obtain ⟨e, he, hej⟩ := h6 j hj
      have hne : e ≠ pq.getD 0 default := by
        intro hc
        subst hc
        rw [hej] at hf
        exact hj hf
      rcases (hheap_mem e).1 he with hc | hc
      · exact absurd hc hne
      · exact ⟨e, hc, hej⟩
    have hrec := mergeLoop_content (sumLen files + (num - 1)) (delete pq num)
      (num - 1) (pq.getD 0 default) files le_rfl hlen' h6' h7' w1 w2
    constructor
    · rw [hrec.1, hvdel]
    · rw [hrec.2, hkdel]
      exact or_assoc.symm
  · rename_i r rest hf
    have hidlt : (pq.getD 0 default).id < files.length := by
      by_contra hge
      rw [List.getD_eq_default _ _ (by omega)] at hf
      exact List.noConfusion hf
    have hinsperm := insert_take_perm (delete pq num)
      (r.toID (pq.getD 0 default).id) num hpos (by simp; omega)
    have hins_mem : ∀ e : CRECID,
        e ∈ (insert (delete pq num) (r.toID (pq.getD 0 default).id) num).take num ↔
        (e = r.toID (pq.getD 0 default).id ∨
          e ∈ (delete pq num).take (num - 1)) := by
      intro e
      rw [hinsperm.mem_iff]
      exact List.mem_cons
    have h6'' : ∀ j, (files.set (pq.getD 0 default).id rest).getD j [] ≠ [] →
        ∃ e ∈ (insert (delete pq num)
          (r.toID (pq.getD 0 default).id) num).take num, e.id = j := by
      intro j hj
      rw [getD_set_list _ _ _ _ hidlt] at hj
      by_cases hji : j = (pq.getD 0 default).id
      · exact ⟨r.toID (pq.getD 0 default).id, (hins_mem _).2 (Or.inl rfl), by
          simp [hji]⟩
      · rw [if_neg hji] at hj
        obtain ⟨e, he, hej⟩ := h6 j hj
        have hne : e ≠ pq.getD 0 default := by
          intro hc
          subst hc
          exact hji hej.symm |>.elim
        rcases (hheap_mem e).1 he with hc | hc
        · exact absurd hc hne
        · exact ⟨e, (hins_mem e).2 (Or.inr hc), hej⟩
    have h7'' : (((insert (delete pq num) (r.toID (pq.getD 0 default).id)
        num).take num).map (fun e => e.id)).Nodup := by
      have hidsins := hinsperm.map (fun e => e.id)
      rw [List.Perm.nodup_iff hidsins]
      simp only [List.map_cons, toID_id]
      rw [List.nodup_cons]
      exact ⟨(List.nodup_cons.1 ((hids.nodup_iff).2 h7)).1, h7'⟩
    have hrec := mergeLoop_content
      (sumLen (files.set (pq.getD 0 default).id rest) + num)
      (insert (delete pq num) (r.toID (pq.getD 0 default).id) num) num
      (pq.getD 0 default) (files.set (pq.getD 0 default).id rest)
      le_rfl (by simp; omega) h6'' h7'' w1 w2
    have hvins : valAtID w1 w2
        ((insert (delete pq num) (r.toID (pq.getD 0 default).id) num).take num) =
        keyVal w1 w2 r + valAtID w1 w2 ((delete pq num).take (num - 1)) := by
      have := valAtID_perm w1 w2 hinsperm
      simpa using this
    have hfset : ((files.set (pq.getD 0 default).id rest).map (valAt w1 w2)).sum =
        (files.map (valAt w1 w2)).sum - keyVal w1 w2 r := by
      rw [files_sum_set (valAt w1 w2) files _ rest hidlt, hf]
      simp only [valAt_cons]
      ring
    have hkins : hasKeyID w1 w2
        ((insert (delete pq num) (r.toID (pq.getD 0 default).id) num).take num) ↔
        ((r.word1 = w1 ∧ r.word2 = w2) ∨
          hasKeyID w1 w2 ((delete pq num).take (num - 1))) := by
      rw [← hasKeyID_perm w1 w2 hinsperm.symm]
      exact hasKeyID_cons w1 w2 _ _
    have hfile_split : (∃ j, hasKey w1 w2 (files.getD j [])) ↔
        ((r.word1 = w1 ∧ r.word2 = w2) ∨ hasKey w1 w2 rest ∨
          ∃ j, j ≠ (pq.getD 0 default).id ∧ hasKey w1 w2 (files.getD j [])) := by
      constructor
      · rintro ⟨j, hkj⟩
        by_cases hji : j = (pq.getD 0 default).id
        · subst hji
          rw [hf] at hkj
          rcases (hasKey_cons w1 w2 r rest).1 hkj with hk | hk
          · exact Or.inl hk
          · exact Or.inr (Or.inl hk)
        · exact Or.inr (Or.inr ⟨j, hji, hkj⟩)
      · rintro (hk | hk | ⟨j, hji, hkj⟩)
        · exact ⟨(pq.getD 0 default).id, by
            rw [hf]; exact (hasKey_cons w1 w2 r rest).2 (Or.inl hk)⟩
        · exact ⟨(pq.getD 0 default).id, by
            rw [hf]; exact (hasKey_cons w1 w2 r rest).2 (Or.inr hk)⟩
        · exact ⟨j, hkj⟩
    have hfile'_split : (∃ j, hasKey w1 w2
        ((files.set (pq.getD 0 default).id rest).getD j [])) ↔
        (hasKey w1 w2 rest ∨
          ∃ j, j ≠ (pq.getD 0 default).id ∧ hasKey w1 w2 (files.getD j [])) := by
      constructor
      · rintro ⟨j, hkj⟩
        rw [getD_set_list _ _ _ _ hidlt] at hkj
        by_cases hji : j = (pq.getD 0 default).id
        · rw [if_pos hji] at hkj
          exact Or.inl hkj
        · rw [if_neg hji] at hkj
          exact Or.inr ⟨j, hji, hkj⟩
      · rintro (hk | ⟨j, hji, hkj⟩)
        · exact ⟨(pq.getD 0 default).id, by
            rw [getD_set_list _ _ _ _ hidlt, if_pos rfl]
            exact hk⟩
        · exact ⟨j, by
            rw [getD_set_list _ _ _ _ hidlt, if_neg hji]
            exact hkj⟩
    constructor
    · rw [hrec.1, hvins, hfset, hvdel]
      ring
    · rw [hrec.2, hkins, hfile'_split, hkdel, hfile_split]
      exact pre_keys_assemble

theorem preMerge_sum (pq : List CRECID) (num : ℕ) (files : List (List CREC))
    (hpos : 0 < num) (hlen : num ≤ pq.length)
    (h6 : ∀ i, files.getD i [] ≠ [] → ∃ e ∈ pq.take num, e.id = i) :
    sumVals (preMerge pq num files) =
      sumValsID (pq.take num) + (files.map sumVals).sum := by
  unfold preMerge
  have hdelperm := delete_take_perm pq num hpos hlen
  have hlen' : num - 1 ≤ (delete pq num).length := by simp; omega
  have hheap_mem : ∀ e : CRECID, e ∈ pq.take num ↔
      (e = pq.getD 0 default ∨ e ∈ (delete pq num).take (num - 1)) := by
    intro e
    rw [← hdelperm.mem_iff]
    exact List.mem_cons
  have hvdel : sumValsID (pq.take num) =
      (pq.getD 0 default).val + sumValsID ((delete pq num).take (num - 1)) := by
    have := sumValsID_perm hdelperm
    simpa using this.symm
  split
  · rename_i hf
    have h6' : ∀ j, files.getD j [] ≠ [] →
        ∃ e ∈ (delete pq num).take (num - 1), e.id = j := by
      intro j hj
      obtain ⟨e, he, hej⟩ := h6 j hj
      have hne : e ≠ pq.getD 0 default := by
        intro hc
        subst hc
        rw [hej] at hf
        exact hj hf
      rcases (hheap_mem e).1 he with hc | hc
      · exact absurd hc hne
      · exact ⟨e, hc, hej⟩
    rw [mergeLoop_sum (sumLen files + (num - 1)) (delete pq num) (num - 1)
      (pq.getD 0 default) files le_rfl hlen' h6', hvdel]
  · rename_i r rest hf
    have hidlt : (pq.getD 0 default).id < files.length := by
      by_contra hge
      rw [List.getD_eq_default _ _ (by omega)] at hf
      exact List.noConfusion hf
    have hinsperm := insert_take_perm (delete pq num)
      (r.toID (pq.getD 0 default).id) num hpos (by simp; omega)
    have hins_mem : ∀ e : CRECID,
        e ∈ (insert (delete pq num) (r.toID (pq.getD 0 default).id) num).take num ↔
        (e = r.toID (pq.getD 0 default).id ∨
          e ∈ (delete pq num).take (num - 1)) := by
      intro e
      rw [hinsperm.mem_iff]
      exact List.mem_cons
    have h6'' : ∀ j, (files.set (pq.getD 0 default).id rest).getD j [] ≠ [] →
        ∃ e ∈ (insert (delete pq num)
          (r.toID (pq.getD 0 default).id) num).take num, e.id = j := by
      intro j hj
      rw [getD_set_list _ _ _ _ hidlt] at hj
      by_cases hji : j = (pq.getD 0 default).id
      · exact ⟨r.toID (pq.getD 0 default).id, (hins_mem _).2 (Or.inl rfl), by
          simp [hji]⟩
      · rw [if_neg hji] at hj
        obtain ⟨e, he, hej⟩ := h6 j hj
        have hne : e ≠ pq.getD 0 default := by
          intro hc
          subst hc
          exact hji hej.symm |>.elim
        rcases (hheap_mem e).1 he with hc | hc
        · exact absurd hc hne
        · exact ⟨e, (hins_mem e).2 (Or.inr hc), hej⟩
    have hvins : sumValsID
        ((insert (delete pq num) (r.toID (pq.getD 0 default).id) num).take num) =
        r.val + sumValsID ((delete pq num).take (num - 1)) := by
      have := sumValsID_perm hinsperm
      simpa [CREC.toID] using this
    have hfset : ((files.set (pq.getD 0 default).id rest).map sumVals).sum =
        (files.map sumVals).sum - r.val := by
      rw [files_sum_set sumVals files _ rest hidlt, hf]
      simp only [sumVals_cons]
      ring
    rw [mergeLoop_sum (sumLen (files.set (pq.getD 0 default).id rest) + num)
      (insert (delete pq num) (r.toID (pq.getD 0 default).id) num) num
      (pq.getD 0 default) (files.set (pq.getD 0 default).id rest)
      le_rfl (by simp; omega) h6'', hvins, hfset, hvdel]
    ring

theorem merge_files_sorted (runs : List (List CREC)) (new0 : CRECID)
    (hne : runs ≠ [])
    (hsort : ∀ f ∈ runs, f.Pairwise (fun a b => a.key ≤ b.key)) :
    (merge_files runs new0).Pairwise (fun a b => a.key < b.key) := by
  unfold merge_files
  set pqP := (primeLoop runs runs.length 0 (List.replicate runs.length default)
    new0).1 with hpqP
  have hnum : 0 < runs.length := List.length_pos.2 hne
  have hplen : pqP.length = runs.length := by
    rw [hpqP, primeLoop_length runs.length runs runs.length 0 _ new0 (by omega)]
    simp
  have hheapP : IsHeap pqP runs.length := by
    rw [hpqP]
    exact primeLoop_isHeap runs.length runs runs.length 0 _ new0 (by omega)
      (by omega) (by simp) (fun c hc hcsz => absurd hcsz (by omega))
  have hpermP : (pqP.take runs.length).Perm
      (primedTail runs runs.length 0 new0) := by
    have := primeLoop_take_perm runs.length runs runs.length 0
      (List.replicate runs.length default) new0 (by omega) (by omega) (by simp)
    simpa [hpqP] using this
  refine preMerge_sorted pqP runs.length (runs.map List.tail) hnum
    (le_of_eq hplen.symm) hheapP ?_ ?_
  · intro i
    rw [getD_map_tail]
    by_cases hi : i < runs.length
    · have hmem : runs.getD i [] ∈ runs := by
        rw [List.getD_eq_getElem _ _ hi]
        exact List.getElem_mem hi
      have hp := hsort _ hmem
      cases hgd : runs.getD i [] with
      | nil => simp
      | cons a t =>
          rw [hgd] at hp
          exact (List.pairwise_cons.1 hp).2
    · rw [List.getD_eq_default _ _ (by omega)]
      simp
  · intro e he r hr
    exact primedTail_lb runs.length runs runs.length 0 new0 (by omega) hsort e
      (hpermP.mem_iff.1 he) r hr

theorem merge_files_content (runs : List (List CREC)) (new0 : CRECID)
    (hne : runs ≠ []) (hnonempty : ∀ f ∈ runs, f ≠ []) :
    ∀ w1 w2,
    (valAt w1 w2 (merge_files runs new0) = (runs.map (valAt w1 w2)).sum) ∧
    (hasKey w1 w2 (merge_files runs new0) ↔ ∃ f ∈ runs, hasKey w1 w2 f) := by
  intro w1 w2
  unfold merge_files
  set pqP := (primeLoop runs runs.length 0 (List.replicate runs.length default)
    new0).1 with hpqP
  have hnum : 0 < runs.length := List.length_pos.2 hne
  have hplen : pqP.length = runs.length := by
    rw [hpqP, primeLoop_length runs.length runs runs.length 0 _ new0 (by omega)]
    simp
  have hpermP : (pqP.take runs.length).Perm
      (primedTail runs runs.length 0 new0) := by
    have := primeLoop_take_perm runs.length runs runs.length 0
      (List.replicate runs.length default) new0 (by omega) (by omega) (by simp)
    simpa [hpqP] using this
  have hgetDne : ∀ j, j < runs.length → runs.getD j [] ≠ [] := by
    intro j hj
    rw [List.getD_eq_getElem _ _ hj]
    exact hnonempty _ (List.getElem_mem hj)
  have hmapids : (primedTail runs runs.length 0 new0).map (fun e => e.id) =
      List.range' 0 runs.length := by
    have := primedTail_ids runs.length runs runs.length 0 new0 (by omega)
    simpa using this
  have h7 : ((pqP.take runs.length).map (fun e => e.id)).Nodup := by
    rw [List.Perm.nodup_iff (hpermP.map (fun e => e.id)), hmapids]
    exact List.nodup_range' 0 runs.length 1 (by omega)
  have h6 : ∀ i, (runs.map List.tail).getD i [] ≠ [] →
      ∃ e ∈ pqP.take runs.length, e.id = i := by
    intro i hi
    have hilt : i < runs.length := by
      by_contra hge
      rw [List.getD_eq_default _ _ (by simp; omega)] at hi
      exact hi rfl
    have hmem : i ∈ (pqP.take runs.length).map (fun e => e.id) := by
      rw [List.Perm.mem_iff (hpermP.map (fun e => e.id)), hmapids]
      exact List.mem_range'_1.2 (by omega)
    obtain ⟨e, he, hei⟩ := List.mem_map.1 hmem
    exact ⟨e, he, hei⟩
  have hrec := preMerge_content pqP runs.length (runs.map List.tail) hnum
    (le_of_eq hplen.symm) h6 h7 w1 w2
  have hg := primedTail_gsum (keyVal w1 w2) (keyValID w1 w2) (fun r i => rfl)
    runs.length runs runs.length 0 new0 (by omega) rfl hgetDne
  simp only [List.drop_zero] at hg
  have hk := primedTail_keys w1 w2 runs.length runs runs.length 0 new0
    (by omega) rfl hgetDne
  simp only [List.drop_zero] at hk
  constructor
  · rw [hrec.1, valAtID_perm w1 w2 hpermP]
    exact hg
  · rw [hrec.2, hasKeyID_perm w1 w2 hpermP, exists_getD_hasKey_iff]
    exact hk

theorem merge_files_sum (runs : List (List CREC)) (new0 : CRECID)
    (hne : runs ≠ []) (hnonempty : ∀ f ∈ runs, f ≠ []) :
    sumVals (merge_files runs new0) = (runs.map sumVals).sum := by
  unfold merge_files
  set pqP := (primeLoop runs runs.length 0 (List.replicate runs.length default)
    new0).1 with hpqP
  have hnum : 0 < runs.length := List.length_pos.2 hne
  have hplen : pqP.length = runs.length := by
    rw [hpqP, primeLoop_length runs.length runs runs.length 0 _ new0 (by omega)]
    simp
  have hpermP : (pqP.take runs.length).Perm
      (primedTail runs runs.length 0 new0) := by
    have := primeLoop_take_perm runs.length runs runs.length 0
      (List.replicate runs.length default) new0 (by omega) (by omega) (by simp)
    simpa [hpqP] using this
  have hgetDne : ∀ j, j < runs.length → runs.getD j [] ≠ [] := by
    intro j hj
    rw [List.getD_eq_getElem _ _ hj]
    exact hnonempty _ (List.getElem_mem hj)
  have hmapids : (primedTail runs runs.length 0 new0).map (fun e => e.id) =
      List.range' 0 runs.length := by
    have := primedTail_ids runs.length runs runs.length 0 new0 (by omega)
    simpa using this
  have h6 : ∀ i, (runs.map List.tail).getD i [] ≠ [] →
      ∃ e ∈ pqP.take runs.length, e.id = i := by
    intro i hi
    have hilt : i < runs.length := by
      by_contra hge
      rw [List.getD_eq_default _ _ (by simp; omega)] at hi
      exact hi rfl
    have hmem : i ∈ (pqP.take runs.length).map (fun e => e.id) := by
      rw [List.Perm.mem_iff (hpermP.map (fun e => e.id)), hmapids]
      exact List.mem_range'_1.2 (by omega)
    obtain ⟨e, he, hei⟩ := List.mem_map.1 hmem
    exact ⟨e, he, hei⟩
  rw [preMerge_sum pqP runs.length (runs.map List.tail) hnum
    (le_of_eq hplen.symm) h6, sumValsID_perm hpermP]
  have hg := primedTail_gsum CREC.val CRECID.val (fun r i => rfl)
    runs.length runs runs.length 0 new0 (by omega) rfl hgetDne
  simp only [List.drop_zero] at hg
  exact hg

/-- The auxiliary lookup table built by `get_cooccurrence`:
`lookup[0] = 1` and, for `a = 1 .. vocab_size`,
`lookup[a] = lookup[a-1] + max_product/a` when `max_product/a < vocab_size`
and `lookup[a] = lookup[a-1] + vocab_size` otherwise (C integer division). -/
def lookup (V M : ℕ) : ℕ → ℕ
  | 0 => 1
  | a + 1 =>
      if M / (a + 1) < V then M / (a + 1) + lookup V M a
      else lookup V M a + V

theorem lookup_zero (V M : ℕ) : lookup V M 0 = 1 := rfl

theorem lookup_succ (V M a : ℕ) :
    lookup V M (a + 1) = lookup V M a + min (M / (a + 1)) V := by
  rw [lookup]
  split
  · rename_i h
    rw [min_eq_left h.le]
    omega
  · rename_i h
    rw [min_eq_right (by omega)]

theorem lookup_le_succ (V M a : ℕ) : lookup V M a ≤ lookup V M (a + 1) := by
  rw [lookup_succ]
  exact Nat.le_add_right _ _

theorem lookup_mono (V M : ℕ) {a b : ℕ} (hab : a ≤ b) :
    lookup V M a ≤ lookup V M b := by
  induction hab with
  | refl => exact le_rfl
  | step h ih => exact le_trans ih (lookup_le_succ V M _)

theorem lookup_pos (V M a : ℕ) : 1 ≤ lookup V M a := by
  have h := lookup_mono V M (Nat.zero_le a)
  rw [lookup_zero] at h
  exact h

/-- Cells of distinct rows of the dense table are distinct: the rows occupy
disjoint index intervals. -/
theorem lookup_cell_lt (V M c c' w2 w2' : ℕ) (hc : c < c')
    (h3 : 1 ≤ w2) (h4 : w2 ≤ lookup V M (c + 1) - lookup V M c)
    (h3' : 1 ≤ w2') :
    lookup V M c + w2 - 2 < lookup V M c' + w2' - 2 := by
  have hstep := lookup_le_succ V M c
  have hkey : lookup V M c + w2 ≤ lookup V M (c + 1) := by omega
  have hm : lookup V M (c + 1) ≤ lookup V M c' := lookup_mono V M hc
  have hp : 1 ≤ lookup V M c := lookup_pos V M c
  have hp' : 1 ≤ lookup V M c' := lookup_pos V M c'
  omega

/-- C5: with the lookup table of `get_cooccurrence` (`lookup[0] = 1`,
`lookup[a] = lookup[a-1] + min(M/a, V)`), every pair `(w1, w2)` with
`1 ≤ w1, w2 ≤ V` and `w1 * w2 < M` has a reserved dense-table cell: `w2` is
within row `w1`'s width `lookup[w1] - lookup[w1-1]`, and the cell's index
`lookup[w1-1] + w2 - 2` lies inside the allocation of `lookup[V]` cells;
moreover the cell map is injective over all pairs holding a reserved cell,
so no cell is aliased by two distinct pairs. -/
theorem C5_dense_cell_unique (V M : ℕ) :
    (∀ w1 w2 : ℕ, 1 ≤ w1 → w1 ≤ V → 1 ≤ w2 → w2 ≤ V → w1 * w2 < M →
      w2 ≤ lookup V M w1 - lookup V M (w1 - 1) ∧
      lookup V M (w1 - 1) + w2 - 2 < lookup V M V) ∧
    (∀ w1 w2 w1' w2' : ℕ,
      1 ≤ w1 → w1 ≤ V → 1 ≤ w2 → w2 ≤ lookup V M w1 - lookup V M (w1 - 1) →
      1 ≤ w1' → w1' ≤ V → 1 ≤ w2' →
      w2' ≤ lookup V M w1' - lookup V M (w1' - 1) →
      lookup V M (w1 - 1) + w2 - 2 = lookup V M (w1' - 1) + w2' - 2 →
      w1 = w1' ∧ w2 = w2') := by
  constructor
  · intro w1 w2 h1 h2 h3 h4 h5
    obtain ⟨c, rfl⟩ : ∃ c, w1 = c + 1 := ⟨w1 - 1, by omega⟩
    simp only [Nat.add_sub_cancel]
    have hd : w2 ≤ M / (c + 1) := by
      rw [Nat.le_div_iff_mul_le (by omega)]
      calc w2 * (c + 1) = (c + 1) * w2 := by ring
        _ ≤ M := le_of_lt h5
    have hmin : w2 ≤ min (M / (c + 1)) V := le_min hd h4
    have hwidth : w2 ≤ lookup V M (c + 1) - lookup V M c := by
      rw [lookup_succ, Nat.add_sub_cancel_left]
      exact hmin
    refine ⟨hwidth, ?_⟩
    have hkey : lookup V M c + w2 ≤ lookup V M (c + 1) := by
      rw [lookup_succ]
      exact Nat.add_le_add_left hmin _
    have hc2 : lookup V M (c + 1) ≤ lookup V M V := lookup_mono V M h2
    have hp : 1 ≤ lookup V M c := lookup_pos V M c
    have hpV : 1 ≤ lookup V M V := lookup_pos V M V
    omega
  · intro w1 w2 w1' w2' h1 h2 h3 h4 h1' h2' h3' h4' heq
    obtain ⟨c, rfl⟩ : ∃ c, w1 = c + 1 := ⟨w1 - 1, by omega⟩
    obtain ⟨c', rfl⟩ : ∃ c', w1' = c' + 1 := ⟨w1' - 1, by omega⟩
    simp only [Nat.add_sub_cancel] at h4 h4' heq ⊢
    rcases lt_trichotomy c c' with hlt | hceq | hgt
    · exact absurd heq
        (Nat.ne_of_lt (lookup_cell_lt V M c c' w2 w2' hlt h3 h4 h3'))
    · subst hceq
      have hstep := lookup_le_succ V M c
      have hp : 1 ≤ lookup V M c := lookup_pos V M c
      constructor
      · rfl
      · omega
    · exact absurd heq.symm
        (Nat.ne_of_lt (lookup_cell_lt V M c' c w2' w2 hgt h3' h4' h3))

/-- Witness for C5 at `V = 3`, `M = 10`, the pair `(2, 3)` and the
injectivity instance `(1, 2)` against itself. -/
theorem C5_dense_cell_unique_witness :
    ((1 ≤ 2 ∧ 2 ≤ 3 ∧ 1 ≤ 3 ∧ 3 ≤ 3 ∧ 2 * 3 < 10) ∧
      3 ≤ lookup 3 10 2 - lookup 3 10 1 ∧
      lookup 3 10 1 + 3 - 2 < lookup 3 10 3) ∧
    ((1 : ℕ) = 1 ∧ (2 : ℕ) = 2) :=
  ⟨⟨⟨by decide, by decide, by decide, by decide, by decide⟩,
    (C5_dense_cell_unique 3 10).1 2 3 (by decide) (by decide) (by decide)
      (by decide) (by decide)⟩,
    (C5_dense_cell_unique 3 10).2 1 2 1 2 (by decide) (by decide) (by decide)
      (by decide) (by decide) (by decide) (by decide) (by decide) rfl⟩

/-! ## Fuel-indexed executable copies of the merge

The merge functions above recurse along well-founded measures; the copies
below take the measure as an explicit structural fuel argument, and are
proved equal to the originals whenever the fuel covers the measure.  They
let concrete runs of the merge be evaluated by the kernel. -/

def siftUpE : ℕ → List CRECID → ℕ → List CRECID
  | 0, pq, _ => pq
  | fuel + 1, pq, j =>
      if j = 0 then pq
      else
        if 0 < compare_crecid (pq.getD ((j - 1) / 2) default)
            (pq.getD j default) then
          siftUpE fuel (swap_entry pq ((j - 1) / 2) j) ((j - 1) / 2)
        else pq

theorem siftUpE_eq : ∀ (fuel : ℕ) (pq : List CRECID) (j : ℕ), j ≤ fuel →
    siftUpE fuel pq j = siftUp pq j := by
  intro fuel
  induction fuel with
  | zero =>
    intro pq j hj
    have : j = 0 := by omega
    subst this
    rw [siftUpE, siftUp]
    simp
  | succ fuel ih =>
    intro pq j hj
    rw [siftUpE, siftUp]
    by_cases h0 : j = 0
    · simp [h0]
    · rw [if_neg h0, dif_neg h0]
      split
      · exact ih _ _ (by omega)
      · rfl

def insertE (pq : List CRECID) (new : CRECID) (size : ℕ) : List CRECID :=
  siftUpE size (pq.set (size - 1) new) (size - 1)

theorem insertE_eq (pq : List CRECID) (new : CRECID) (size : ℕ) :
    insertE pq new size = insert pq new size :=
  siftUpE_eq size _ _ (by omega)

def siftDownE : ℕ → List CRECID → ℕ → ℕ → List CRECID
  | 0, pq, _, _ => pq
  | fuel + 1, pq, size, p =>
      if 2 * p + 1 < size - 1 then
        if 2 * p + 1 = size - 2 then
          if 0 < compare_crecid (pq.getD p default)
              (pq.getD (2 * p + 1) default) then
            swap_entry pq p (2 * p + 1)
          else pq
        else
          if compare_crecid (pq.getD (2 * p + 1) default)
              (pq.getD (2 * p + 2) default) < 0 then
            if 0 < compare_crecid (pq.getD p default)
                (pq.getD (2 * p + 1) default) then
              siftDownE fuel (swap_entry pq p (2 * p + 1)) size (2 * p + 1)
            else pq
          else
            if 0 < compare_crecid (pq.getD p default)
                (pq.getD (2 * p + 2) default) then
              siftDownE fuel (swap_entry pq p (2 * p + 2)) size (2 * p + 2)
            else pq
      else pq

theorem siftDownE_eq : ∀ (fuel : ℕ) (pq : List CRECID) (size p : ℕ),
    size - p ≤ fuel → siftDownE fuel pq size p = siftDown pq size p := by
  intro fuel
  induction fuel with
  | zero =>
    intro pq size p hf
    rw [siftDownE, siftDown]
    rw [dif_neg (by omega)]
  | succ fuel ih =>
    intro pq size p hf
    rw [siftDownE, siftDown]
    by_cases h1 : 2 * p + 1 < size - 1
    · rw [if_pos h1, dif_pos h1]
      split
      · rfl
      · split
        · split
          · exact ih _ _ _ (by omega)
          · rfl
        · split
          · exact ih _ _ _ (by omega)
          · rfl
    · rw [if_neg h1, dif_neg h1]

def deleteE (pq : List CRECID) (size : ℕ) : List CRECID :=
  siftDownE size (pq.set 0 (pq.getD (size - 1) default)) size 0

theorem deleteE_eq (pq : List CRECID) (size : ℕ) :
    deleteE pq size = delete pq size :=
  siftDownE_eq size _ _ _ (by omega)

def mergeLoopE : ℕ → List CRECID → ℕ → CRECID → List (List CREC) → List CREC
  | 0, _, _, old, _ => [old.toCREC]
  | fuel + 1, pq, size, old, files =>
      if size = 0 then [old.toCREC]
      else
        match files.getD (pq.getD 0 default).id [] with
        | [] =>
            (merge_write (pq.getD 0 default) old).1 ++
              mergeLoopE fuel (deleteE pq size) (size - 1)
                (merge_write (pq.getD 0 default) old).2 files
        | r :: rest =>
            (merge_write (pq.getD 0 default) old).1 ++
              mergeLoopE fuel
                (insertE (deleteE pq size) (r.toID (pq.getD 0 default).id) size)
                size (merge_write (pq.getD 0 default) old).2
                (files.set (pq.getD 0 default).id rest)

theorem mergeLoopE_eq : ∀ (fuel : ℕ) (pq : List CRECID) (size : ℕ)
    (old : CRECID) (files : List (List CREC)), sumLen files + size ≤ fuel →
    mergeLoopE fuel pq size old files = mergeLoop pq size old files := by
  intro fuel
  induction fuel with
  | zero =>
    intro pq size old files hf
    have hsz : size = 0 := by omega
    subst hsz
    rw [mergeLoopE, mergeLoop]
    simp
  | succ fuel ih =>
    intro pq size old files hf
    rw [mergeLoopE, mergeLoop]
    by_cases hsz : size = 0
    · simp [hsz]
    · rw [if_neg hsz, dif_neg hsz]
      split
      · rename_i hfil
        split
        · rw [deleteE_eq, ih _ _ _ _ (by omega)]
        · rename_i r rest hfil2
          rw [hfil] at hfil2
          exact absurd hfil2 (by simp)
      · rename_i r rest hfil
        have hdec := sumLen_set_lt files (pq.getD 0 default).id r rest hfil
        split
        · rename_i hfil2
          rw [hfil] at hfil2
          exact absurd hfil2 (by simp)
        · rename_i r' rest' hfil2
          rw [hfil] at hfil2
          obtain ⟨h1, h2⟩ := List.cons.inj hfil2
          subst h1
          subst h2
          rw [deleteE_eq, insertE_eq, ih _ _ _ _ (by omega)]

def primeLoopE : ℕ → List (List CREC) → ℕ → ℕ → List CRECID → CRECID →
    List CRECID × CRECID
  | 0, _, _, _, pq, new => (pq, new)
  | fuel + 1, runs, num, i, pq, new =>
      if i < num then
        match (runs.getD i []).head? with
        | some r =>
            primeLoopE fuel runs num (i + 1) (insertE pq (r.toID i) (i + 1))
              (r.toID i)
        | none =>
            primeLoopE fuel runs num (i + 1)
              (insertE pq { new with id := i } (i + 1)) { new with id := i }
      else (pq, new)

theorem primeLoopE_eq : ∀ (fuel : ℕ) (runs : List (List CREC)) (num i : ℕ)
    (pq : List CRECID) (new : CRECID), num - i ≤ fuel →
    primeLoopE fuel runs num i pq new = primeLoop runs num i pq new := by
  intro fuel
  induction fuel with
  | zero =>
    intro runs num i pq new hf
    rw [primeLoopE, primeLoop]
    rw [dif_neg (by omega)]
  | succ fuel ih =>
    intro runs num i pq new hf
    rw [primeLoopE, primeLoop]
    by_cases hi : i < num
    · rw [if_pos hi, dif_pos hi]
      split
      · rw [insertE_eq, ih _ _ _ _ _ (by omega)]
      · rw [insertE_eq, ih _ _ _ _ _ (by omega)]
    · rw [if_neg hi, dif_neg hi]

def preMergeE (pq : List CRECID) (num : ℕ) (files : List (List CREC)) :
    List CREC :=
  match files.getD (pq.getD 0 default).id [] with
  | [] =>
      mergeLoopE (sumLen files + num) (deleteE pq num) (num - 1)
        (pq.getD 0 default) files
  | r :: rest =>
      mergeLoopE (sumLen files + num)
        (insertE (deleteE pq num) (r.toID (pq.getD 0 default).id) num) num
        (pq.getD 0 default) (files.set (pq.getD 0 default).id rest)

theorem preMergeE_eq (pq : List CRECID) (num : ℕ) (files : List (List CREC)) :
    preMergeE pq num files = preMerge pq num files := by
  rw [preMergeE, preMerge]
  split
  · rw [deleteE_eq, mergeLoopE_eq _ _ _ _ _ (by omega)]
  · rename_i r rest hfil
    have hdec := sumLen_set_lt files (pq.getD 0 default).id r rest hfil
    rw [deleteE_eq, insertE_eq, mergeLoopE_eq _ _ _ _ _ (by omega)]

def merge_filesE (runs : List (List CREC)) (new0 : CRECID) : List CREC :=
  preMergeE
    (primeLoopE runs.length runs runs.length 0
      (List.replicate runs.length default) new0).1
    runs.length (runs.map List.tail)

theorem merge_filesE_eq (runs : List (List CREC)) (new0 : CRECID) :
    merge_filesE runs new0 = merge_files runs new0 := by
  rw [merge_filesE, merge_files, preMergeE_eq,
    primeLoopE_eq _ _ _ _ _ _ (by omega)]

example : merge_filesE [[⟨1, 1, 1⟩], []] ⟨0, 0, 0, 0⟩ = [⟨1, 1, 2⟩] := by
  with_unfolding_all decide

/-! ## The main loop of `get_cooccurrence`

The corpus is modelled at the `get_word`/`hashsearch` boundary: a list of
events, each a newline or a token that is in the vocabulary (carrying its
frequency rank `1..vocab_size`) or out of vocabulary. -/

/-- One `get_word` event of the main loop. -/
inductive Token where
  | word (w : Option ℕ)
  | newline
deriving DecidableEq

/-- The run-time parameters of `get_cooccurrence`.  `max_product` and
`overflow_length` are positive `long long`s, `window_size` a positive
`int`, and `symmetric` is tested with `> 0`. -/
structure CoConfig where
  vocab_size : ℕ
  max_product : ℕ
  window_size : ℕ
  symmetric : Bool
  overflow_length : ℕ
deriving DecidableEq

/-- The mutable state of the main loop.  `storeLog` is a ghost log of the
index of every store into the overflow buffer `cr` (for the bounds
analysis); the other fields mirror the C locals. -/
structure CoState where
  j : ℕ
  history : List ℕ
  table : List ℚ
  cr : List CREC
  ind : ℕ
  chunks : List (List CREC)
  storeLog : List ℕ
deriving DecidableEq

/-- `cr[ind] = r; ind++`, with the store index logged. -/
def crStore (s : CoState) (r : CREC) : CoState :=
  { s with cr := s.cr.set s.ind r, ind := s.ind + 1,
           storeLog := s.storeLog ++ [s.ind] }

/-- `bigram_table[i] += inc`. -/
def denseAdd (s : CoState) (i : ℕ) (inc : ℚ) : CoState :=
  { s with table := s.table.set i (s.table.getD i 0 + inc) }

/-- The body of the `for (k = j - 1; ...)` loop for the target word `w2` at
line position `j`: look the context word up in the circular history,
weight by the inverse distance, and store densely or into the overflow
buffer depending on the product guard `w1 < max_product / w2`. -/
def pairStep (cfg : CoConfig) (j w2 : ℕ) (s : CoState) (k : ℕ) : CoState :=
  let w1 := s.history.getD (k % cfg.window_size) 0
  let inc : ℚ := 1 / ((j - k : ℕ) : ℚ)
  if w1 < cfg.max_product / w2 then
    let s1 := denseAdd s
      (lookup cfg.vocab_size cfg.max_product (w1 - 1) + w2 - 2) inc
    if cfg.symmetric then
      denseAdd s1 (lookup cfg.vocab_size cfg.max_product (w2 - 1) + w1 - 2) inc
    else s1
  else
    let s1 := crStore s ⟨(w1 : ℤ), (w2 : ℤ), inc⟩
    if cfg.symmetric then crStore s1 ⟨(w2 : ℤ), (w1 : ℤ), inc⟩ else s1

/-- The context positions visited by the `k` loop, in loop order:
`j - 1` down to `max(j - window_size, 0)`. -/
def kList (ws j : ℕ) : List ℕ :=
  (List.range' (if ws < j then j - ws else 0)
    (j - (if ws < j then j - ws else 0))).reverse

/-- Processing of one in-vocabulary token of rank `w2`: the `k` loop, then
the history update `history[j % window_size] = w2; j++`. -/
def wordStep (cfg : CoConfig) (s : CoState) (w2 : ℕ) : CoState :=
  let s1 := (kList cfg.window_size s.j).foldl (pairStep cfg s.j w2) s
  { s1 with history := s1.history.set (s.j % cfg.window_size) w2,
            j := s.j + 1 }

/-- The overflow-buffer flush at the top of the main loop:
`ind >= overflow_length - window_size` in `long long` arithmetic is
`overflow_length <= ind + window_size` over `ℕ`. -/
def flushCheck (cfg : CoConfig) (s : CoState) : CoState :=
  if cfg.overflow_length ≤ s.ind + cfg.window_size then
    { s with chunks := s.chunks ++ [write_chunk (qsortCrec (s.cr.take s.ind))],
             ind := 0 }
  else s

/-- One iteration of the main `while (1)` loop on one `get_word` event. -/
def coStep (cfg : CoConfig) (s : CoState) (t : Token) : CoState :=
  let s0 := flushCheck cfg s
  match t with
  | Token.newline => { s0 with j := 0 }
  | Token.word none => s0
  | Token.word (some w2) => wordStep cfg s0 w2

/-- The initial state: `bigram_table` is `calloc`ed to zeros (one cell per
lookup-table slot), while `history` and `cr` are `malloc`ed, so their
initial contents `hist0` and `cr0` are indeterminate parameters. -/
def coInit (cfg : CoConfig) (hist0 : List ℕ) (cr0 : List CREC) : CoState :=
  ⟨0, hist0,
    List.replicate (lookup cfg.vocab_size cfg.max_product cfg.vocab_size) 0,
    cr0, 0, [], []⟩

/-- After the loop: the flush check of the last iteration (run before
`get_word` reports end-of-file) and the final `write_chunk` of the
partially filled buffer. -/
def coFinal (cfg : CoConfig) (s : CoState) : CoState :=
  let s0 := flushCheck cfg s
  { s0 with
      chunks := s0.chunks ++ [write_chunk (qsortCrec (s0.cr.take s0.ind))] }

def coRun (cfg : CoConfig) (events : List Token) (hist0 : List ℕ)
    (cr0 : List CREC) : CoState :=
  coFinal cfg (events.foldl (coStep cfg) (coInit cfg hist0 cr0))

/-- The dense-table serialization written to run file `0000`: for each row
`x = 1..vocab_size` and column `y = 1..lookup[x]-lookup[x-1]`, emit the
nonzero cells.  (The C index `lookup[x-1] - 2 + y` is computed in
`long long`; since `lookup[x-1] >= 1` and `y >= 1` it equals the `ℕ`
expression `lookup[x-1] + y - 2`.) -/
def denseChunk (V M : ℕ) (table : List ℚ) : List CREC :=
  (List.range' 1 V).flatMap (fun x =>
    (List.range' 1 (lookup V M x - lookup V M (x - 1))).filterMap (fun y =>
      if table.getD (lookup V M (x - 1) + y - 2) 0 ≠ 0 then
        some ⟨(x : ℤ), (y : ℤ), table.getD (lookup V M (x - 1) + y - 2) 0⟩
      else none))

/-- The run files passed on to `merge_files`: file `0000` holds the dense
table, files `0001..fidcounter` the overflow chunks in writing order. -/
def coRuns (cfg : CoConfig) (events : List Token) (hist0 : List ℕ)
    (cr0 : List CREC) : List (List CREC) :=
  denseChunk cfg.vocab_size cfg.max_product (coRun cfg events hist0 cr0).table ::
    (coRun cfg events hist0 cr0).chunks

/-- All of `get_cooccurrence`: accumulate the corpus, serialize the dense
table and the overflow runs, and merge them; `new0` is the indeterminate
initial value of the stack variable `new` of `merge_files`. -/
def get_cooccurrence (cfg : CoConfig) (events : List Token) (hist0 : List ℕ)
    (cr0 : List CREC) (new0 : CRECID) : List CREC :=
  merge_files (coRuns cfg events hist0 cr0) new0

/-! ## The specification's pair-weight sum -/

/-- `Σ_{d=1}^{min(q, W)} 1/d`: the weight the specification assigns to the
in-vocabulary target at 0-based line position `q`. -/
def invDistSum (ws q : ℕ) : ℚ :=
  ((List.range (min q ws)).map (fun d => (1 : ℚ) / ((d + 1 : ℕ) : ℚ))).sum

/-- The specification's weight of one line holding `n` in-vocabulary
tokens. -/
def specLineSum (ws n : ℕ) : ℚ :=
  ((List.range n).map (invDistSum ws)).sum

/-- The specification's total: over every line, every ordered in-window
in-vocabulary pair contributes `1/distance`, doubled when symmetric. -/
def specPairSum (ws : ℕ) (sym : Bool) (ns : List ℕ) : ℚ :=
  (if sym then 2 else 1) * ((ns.map (specLineSum ws)).sum)

/-- The number of in-vocabulary tokens of each line of the event stream
(`n` is the count accumulated on the current line). -/
def lineLengths : List Token → ℕ → List ℕ
  | [], n => [n]
  | Token.newline :: ts, n => n :: lineLengths ts 0
  | Token.word none :: ts, n => lineLengths ts n
  | Token.word (some _) :: ts, n => lineLengths ts (n + 1)

/-- The same total accumulated along the event stream, with `j` the
line position of the next in-vocabulary token. -/
def eventsSum (ws : ℕ) : List Token → ℕ → ℚ
  | [], _ => 0
  | Token.newline :: ts, _ => eventsSum ws ts 0
  | Token.word none :: ts, j => eventsSum ws ts j
  | Token.word (some _) :: ts, j => invDistSum ws j + eventsSum ws ts (j + 1)

@[simp] theorem specLineSum_zero (ws : ℕ) : specLineSum ws 0 = 0 := by
  simp [specLineSum]

theorem specLineSum_succ (ws n : ℕ) :
    specLineSum ws (n + 1) = specLineSum ws n + invDistSum ws n := by
  unfold specLineSum
  rw [List.range_succ]
  simp

theorem lineLengths_sum (ws : ℕ) : ∀ (ts : List Token) (j : ℕ),
    ((lineLengths ts j).map (specLineSum ws)).sum =
      specLineSum ws j + eventsSum ws ts j := by
  intro ts
  induction ts with
  | nil => intro j; simp [lineLengths, eventsSum]
  | cons t ts ih =>
    intro j
    cases t with
    | newline =>
      rw [lineLengths, eventsSum]
      simp only [List.map_cons, List.sum_cons]
      rw [ih 0]
      simp
    | word w =>
      cases w with
      | none => rw [lineLengths, eventsSum]; exact ih j
      | some _ =>
        rw [lineLengths, eventsSum, ih (j + 1), specLineSum_succ]
        ring

theorem range'_inv_sum (f : ℕ → ℚ) : ∀ (n lo : ℕ),
    ((List.range' lo n).map (fun k => f (lo + n - k))).sum =
      ((List.range n).map (fun d => f (d + 1))).sum := by
  intro n
  induction n with
  | zero => intro lo; simp
  | succ n ih =>
    intro lo
    have hr : List.range' lo (n + 1) = lo :: List.range' (lo + 1) n := by
      rw [List.range'_succ]
    rw [hr]
    simp only [List.map_cons, List.sum_cons]
    have hhead : lo + (n + 1) - lo = n + 1 := by omega
    rw [hhead]
    have htail : ((List.range' (lo + 1) n).map (fun k => f (lo + (n + 1) - k))).sum =
        ((List.range' (lo + 1) n).map (fun k => f ((lo + 1) + n - k))).sum := by
      have : lo + (n + 1) = (lo + 1) + n := by omega
      rw [this]
    rw [htail, ih (lo + 1), List.range_succ]
    simp
    ring

/-- The sum of `f(distance)` over the positions the `k` loop visits equals
the specification's sum over distances `1..min(j, W)`. -/
theorem kList_sum (f : ℕ → ℚ) (ws j : ℕ) :
    ((kList ws j).map (fun k => f (j - k))).sum =
      ((List.range (min j ws)).map (fun d => f (d + 1))).sum := by
  unfold kList
  rw [List.map_reverse, List.sum_reverse]
  by_cases h : ws < j
  · rw [if_pos h]
    have h1 : j - (j - ws) = ws := by omega
    rw [h1]
    have h2 : min j ws = ws := by omega
    rw [h2]
    have h3 : ∀ k, j - k = (j - ws) + ws - k := by omega
    calc ((List.range' (j - ws) ws).map (fun k => f (j - k))).sum
        = ((List.range' (j - ws) ws).map (fun k => f ((j - ws) + ws - k))).sum := by
          congr 1
          exact List.map_congr_left (fun k _ => by rw [h3 k])
      _ = ((List.range ws).map (fun d => f (d + 1))).sum := range'_inv_sum f ws (j - ws)
  · rw [if_neg h]
    have h1 : j - 0 = j := by omega
    rw [h1]
    have h2 : min j ws = j := by omega
    rw [h2]
    have h3 : ∀ k, j - k = 0 + j - k := by omega
    calc ((List.range' 0 j).map (fun k => f (j - k))).sum
        = ((List.range' 0 j).map (fun k => f (0 + j - k))).sum := by
          congr 1
          exact List.map_congr_left (fun k _ => by rw [h3 k])
      _ = ((List.range j).map (fun d => f (d + 1))).sum := range'_inv_sum f j 0

/-! ## Bookkeeping for the main-loop invariant -/

theorem getD_set_gen {α : Type} (l : List α) (i k : ℕ) (v d : α)
    (hi : i < l.length) :
    (l.set i v).getD k d = if k = i then v else l.getD k d := by
  by_cases hki : k = i
  · subst hki
    rw [if_pos rfl]
    rw [List.getD_eq_getElem?_getD, List.getElem?_set_self (by omega)]
    rfl
  · rw [if_neg hki]
    rw [List.getD_eq_getElem?_getD, List.getD_eq_getElem?_getD,
      List.getElem?_set_ne (by omega)]

theorem sum_set_q : ∀ (l : List ℚ) (i : ℕ) (v : ℚ), i < l.length →
    (l.set i v).sum = l.sum - l.getD i 0 + v := by
  intro l
  induction l with
  | nil => intro i v h; simp at h
  | cons a l ih =>
    intro i v h
    cases i with
    | zero => simp [List.getD]; ring
    | succ i =>
      have hs : (a :: l).set (i + 1) v = a :: l.set i v := rfl
      rw [hs]
      simp only [List.sum_cons, List.getD_cons_succ]
      rw [ih i v (by simpa using h)]
      ring

theorem take_set_succ {α : Type} : ∀ (l : List α) (i : ℕ) (a : α),
    i < l.length → (l.set i a).take (i + 1) = l.take i ++ [a] := by
  intro l
  induction l with
  | nil => intro i a h; simp at h
  | cons b l ih =>
    intro i a h
    cases i with
    | zero => simp
    | succ i =>
      have hs : (b :: l).set (i + 1) a = b :: l.set i a := rfl
      rw [hs]
      simp only [List.take_succ_cons]
      rw [ih i a (by simpa using h)]
      rfl

/-- The spec-side multiplier: each pair is counted once per direction. -/
def multQ (sym : Bool) : ℚ := if sym then 2 else 1

/-- The number of records one pair adds to the overflow buffer when it
takes the sparse path. -/
def mult (sym : Bool) : ℕ := if sym then 2 else 1

/-- Total weight held by a state: the dense table, the filled part of the
overflow buffer, and the chunks already written. -/
def mass (s : CoState) : ℚ :=
  s.table.sum + sumVals (s.cr.take s.ind) + ((s.chunks.map sumVals)).sum

@[simp] theorem denseAdd_history (s : CoState) (i : ℕ) (inc : ℚ) :
    (denseAdd s i inc).history = s.history := rfl

@[simp] theorem denseAdd_j (s : CoState) (i : ℕ) (inc : ℚ) :
    (denseAdd s i inc).j = s.j := rfl

@[simp] theorem denseAdd_cr (s : CoState) (i : ℕ) (inc : ℚ) :
    (denseAdd s i inc).cr = s.cr := rfl

@[simp] theorem denseAdd_ind (s : CoState) (i : ℕ) (inc : ℚ) :
    (denseAdd s i inc).ind = s.ind := rfl

@[simp] theorem denseAdd_chunks (s : CoState) (i : ℕ) (inc : ℚ) :
    (denseAdd s i inc).chunks = s.chunks := rfl

@[simp] theorem denseAdd_storeLog (s : CoState) (i : ℕ) (inc : ℚ) :
    (denseAdd s i inc).storeLog = s.storeLog := rfl

@[simp] theorem denseAdd_table (s : CoState) (i : ℕ) (inc : ℚ) :
    (denseAdd s i inc).table = s.table.set i (s.table.getD i 0 + inc) := rfl

@[simp] theorem crStore_history (s : CoState) (r : CREC) :
    (crStore s r).history = s.history := rfl

@[simp] theorem crStore_j (s : CoState) (r : CREC) :
    (crStore s r).j = s.j := rfl

@[simp] theorem crStore_table (s : CoState) (r : CREC) :
    (crStore s r).table = s.table := rfl

@[simp] theorem crStore_chunks (s : CoState) (r : CREC) :
    (crStore s r).chunks = s.chunks := rfl

@[simp] theorem crStore_cr (s : CoState) (r : CREC) :
    (crStore s r).cr = s.cr.set s.ind r := rfl

@[simp] theorem crStore_ind (s : CoState) (r : CREC) :
    (crStore s r).ind = s.ind + 1 := rfl

@[simp] theorem crStore_storeLog (s : CoState) (r : CREC) :
    (crStore s r).storeLog = s.storeLog ++ [s.ind] := rfl

theorem denseAdd_table_length (s : CoState) (i : ℕ) (inc : ℚ) :
    (denseAdd s i inc).table.length = s.table.length := by simp

theorem denseAdd_mass (s : CoState) (i : ℕ) (inc : ℚ)
    (h : i < s.table.length) :
    mass (denseAdd s i inc) = mass s + inc := by
  unfold mass
  simp only [denseAdd_table, denseAdd_cr, denseAdd_ind, denseAdd_chunks]
  rw [sum_set_q _ _ _ h]
  ring

theorem denseAdd_getD_other (s : CoState) (i m : ℕ) (inc : ℚ)
    (h : i < s.table.length) (hne : m ≠ i) :
    (denseAdd s i inc).table.getD m 0 = s.table.getD m 0 := by
  rw [denseAdd_table, getD_set_gen _ _ _ _ _ h, if_neg hne]

theorem crStore_mass (s : CoState) (r : CREC) (h : s.ind < s.cr.length) :
    mass (crStore s r) = mass s + r.val := by
  unfold mass
  simp only [crStore_table, crStore_cr, crStore_ind, crStore_chunks]
  rw [take_set_succ _ _ _ h]
  rw [sumVals_append]
  simp [sumVals]
  ring

/-- A pair of ranks whose product is within `max_product` has its dense
cell inside its row: `lookup[a-1] + b <= lookup[a]`. -/
theorem dense_cell_row (V M a b : ℕ) (ha1 : 1 ≤ a) (hb1 : 1 ≤ b)
    (hbV : b ≤ V) (hab : a * b ≤ M) :
    lookup V M (a - 1) + b ≤ lookup V M a := by
  obtain ⟨c, rfl⟩ : ∃ c, a = c + 1 := ⟨a - 1, by omega⟩
  simp only [Nat.add_sub_cancel]
  have hd : b ≤ M / (c + 1) := by
    rw [Nat.le_div_iff_mul_le (by omega)]
    calc b * (c + 1) = (c + 1) * b := by ring
      _ ≤ M := hab
  rw [lookup_succ]
  exact Nat.add_le_add_left (le_min hd hbV) _

/-- The bounds needed for every dense store: the cell index is inside the
table and is not the table's last cell. -/
theorem dense_cell_bound (V M a b : ℕ) (ha1 : 1 ≤ a) (haV : a ≤ V)
    (hb1 : 1 ≤ b) (hbV : b ≤ V) (hab : a * b ≤ M) :
    lookup V M (a - 1) + b - 2 < lookup V M V - 1 := by
  have hrow := dense_cell_row V M a b ha1 hb1 hbV hab
  have hmono : lookup V M a ≤ lookup V M V := lookup_mono V M haV
  have hpos : 1 ≤ lookup V M (a - 1) := lookup_pos V M (a - 1)
  omega

/-- The guard `w1 < max_product / w2` (C integer division) gives
`(w1 + 1) * w2 <= max_product`. -/
theorem guard_mul_le (M w1 w2 : ℕ) (hw2 : 1 ≤ w2) (hg : w1 < M / w2) :
    (w1 + 1) * w2 ≤ M :=
  (Nat.le_div_iff_mul_le (by omega)).1 (by omega)

/-- Effect of one `k`-loop iteration: the loop-invariant state components
are preserved, the filled length of the overflow buffer grows by at most
one pair's worth of records, every new store is inside the allocation, and
the total weight grows by exactly `1/distance` per direction. -/
theorem pairStep_spec (cfg : CoConfig) (j w2 k : ℕ) (s t : CoState)
    (ht : t = pairStep cfg j w2 s k)
    (hw2a : 1 ≤ w2) (hw2b : w2 ≤ cfg.vocab_size)
    (hhista : 1 ≤ s.history.getD (k % cfg.window_size) 0)
    (hhistb : s.history.getD (k % cfg.window_size) 0 ≤ cfg.vocab_size)
    (htlen : s.table.length =
      lookup cfg.vocab_size cfg.max_product cfg.vocab_size)
    (htlast : s.table.getD
      (lookup cfg.vocab_size cfg.max_product cfg.vocab_size - 1) 0 = 0)
    (hcrlen : s.cr.length = cfg.overflow_length + 1)
    (hroom : s.ind + mult cfg.symmetric ≤ cfg.overflow_length + 1) :
    t.history = s.history ∧ t.j = s.j ∧ t.chunks = s.chunks ∧
    t.cr.length = s.cr.length ∧ t.table.length = s.table.length ∧
    t.table.getD
      (lookup cfg.vocab_size cfg.max_product cfg.vocab_size - 1) 0 = 0 ∧
    (t.ind = s.ind ∨ t.ind = s.ind + mult cfg.symmetric) ∧
    (∀ i ∈ t.storeLog, i ∈ s.storeLog ∨ i ≤ cfg.overflow_length) ∧
    mass t = mass s + multQ cfg.symmetric * ((1 : ℚ) / ((j - k : ℕ) : ℚ)) := by
  have hLpos : 1 ≤ lookup cfg.vocab_size cfg.max_product cfg.vocab_size :=
    lookup_pos _ _ _
  rw [pairStep] at ht
  simp only [] at ht
  by_cases hg : s.history.getD (k % cfg.window_size) 0 <
      cfg.max_product / w2
  · rw [if_pos hg] at ht
    have hw1 := hhista
    have hmul1 : s.history.getD (k % cfg.window_size) 0 * w2 ≤
        cfg.max_product := by
      have h1 := guard_mul_le cfg.max_product _ w2 hw2a hg
      have h2 : s.history.getD (k % cfg.window_size) 0 * w2 ≤
          (s.history.getD (k % cfg.window_size) 0 + 1) * w2 :=
        Nat.mul_le_mul_right _ (by omega)
      omega
    have hmul2 : w2 * s.history.getD (k % cfg.window_size) 0 ≤
        cfg.max_product := by
      rw [Nat.mul_comm]; exact hmul1
    have hb1 := dense_cell_bound cfg.vocab_size cfg.max_product
      (s.history.getD (k % cfg.window_size) 0) w2 hhista hhistb hw2a hw2b hmul1
    have hb2 := dense_cell_bound cfg.vocab_size cfg.max_product
      w2 (s.history.getD (k % cfg.window_size) 0) hw2a hw2b hhista hhistb hmul2
    have hi1lt : lookup cfg.vocab_size cfg.max_product
        (s.history.getD (k % cfg.window_size) 0 - 1) + w2 - 2 <
        s.table.length := by omega
    have hi2lt : lookup cfg.vocab_size cfg.max_product (w2 - 1) +
        s.history.getD (k % cfg.window_size) 0 - 2 < s.table.length := by
      omega
    cases hsym : cfg.symmetric with
    | false =>
      rw [hsym] at ht
      rw [if_neg (by simp)] at ht
      subst ht
      refine ⟨by simp, by simp, by simp, by simp, by simp, ?_, Or.inl (by simp),
        fun i hi => Or.inl hi, ?_⟩
      · rw [denseAdd_getD_other _ _ _ _ hi1lt (by omega)]
        exact htlast
      · rw [denseAdd_mass _ _ _ hi1lt]
        simp [multQ, hsym]
    | true =>
      rw [hsym] at ht
      rw [if_pos (by simp)] at ht
      subst ht
      have hi2lt' : lookup cfg.vocab_size cfg.max_product (w2 - 1) +
          s.history.getD (k % cfg.window_size) 0 - 2 <
          (denseAdd s (lookup cfg.vocab_size cfg.max_product
            (s.history.getD (k % cfg.window_size) 0 - 1) + w2 - 2)
            ((1 : ℚ) / ((j - k : ℕ) : ℚ))).table.length := by
        rw [denseAdd_table_length]
        exact hi2lt
      refine ⟨by simp, by simp, by simp, by simp, by simp, ?_,
        Or.inl (by simp), fun i hi => Or.inl hi, ?_⟩
      · rw [denseAdd_getD_other _ _ _ _ hi2lt' (by omega),
          denseAdd_getD_other _ _ _ _ hi1lt (by omega)]
        exact htlast
      · rw [denseAdd_mass _ _ _ hi2lt', denseAdd_mass _ _ _ hi1lt]
        simp [multQ, hsym]
        ring
  · rw [if_neg hg] at ht
    have hm1 : 1 ≤ mult cfg.symmetric := by
      rw [mult]; split <;> omega
    have hind1 : s.ind < s.cr.length := by omega
    cases hsym : cfg.symmetric with
    | false =>
      rw [hsym] at ht
      rw [if_neg (by simp)] at ht
      subst ht
      refine ⟨by simp, by simp, by simp, by simp, by simp,
        by simp only [crStore_table]; exact htlast,
        Or.inr (by simp [mult, hsym]), ?_, ?_⟩
      · intro i hi
        simp only [crStore_storeLog, List.mem_append, List.mem_singleton] at hi
        rcases hi with hi | hi
        · exact Or.inl hi
        · subst hi
          rw [mult, hsym] at hroom
          simp at hroom
          omega
      · rw [crStore_mass _ _ hind1]
        simp [multQ, hsym]
    | true =>
      rw [hsym] at ht
      rw [if_pos (by simp)] at ht
      subst ht
      have hroom2 : s.ind + 2 ≤ cfg.overflow_length + 1 := by
        rw [mult, hsym] at hroom
        simpa using hroom
      refine ⟨by simp, by simp, by simp, by simp, by simp,
        by simp only [crStore_table]; exact htlast,
        Or.inr (by simp [mult, hsym]), ?_, ?_⟩
      · intro i hi
        simp only [crStore_storeLog, List.mem_append, List.mem_singleton,
          crStore_ind] at hi
        rcases hi with (hi | hi) | hi
        · exact Or.inl hi
        · subst hi; omega
        · subst hi; omega
      · rw [crStore_mass _ _ (by simp; omega), crStore_mass _ _ hind1]
        simp [multQ, hsym]
        ring

/-- Effect of the whole `k` loop (folded over the visited positions). -/
theorem pairLoop_spec (cfg : CoConfig) (j w2 : ℕ) :
    ∀ (ks : List ℕ) (s : CoState),
    (∀ k ∈ ks, k < j ∧ j ≤ k + cfg.window_size) →
    1 ≤ w2 → w2 ≤ cfg.vocab_size →
    (∀ k', k' < j → j ≤ k' + cfg.window_size →
      1 ≤ s.history.getD (k' % cfg.window_size) 0 ∧
      s.history.getD (k' % cfg.window_size) 0 ≤ cfg.vocab_size) →
    s.table.length = lookup cfg.vocab_size cfg.max_product cfg.vocab_size →
    s.table.getD
      (lookup cfg.vocab_size cfg.max_product cfg.vocab_size - 1) 0 = 0 →
    s.cr.length = cfg.overflow_length + 1 →
    s.ind + mult cfg.symmetric * ks.length ≤ cfg.overflow_length + 1 →
    (ks.foldl (pairStep cfg j w2) s).history = s.history ∧
    (ks.foldl (pairStep cfg j w2) s).j = s.j ∧
    (ks.foldl (pairStep cfg j w2) s).chunks = s.chunks ∧
    (ks.foldl (pairStep cfg j w2) s).cr.length = s.cr.length ∧
    (ks.foldl (pairStep cfg j w2) s).table.length = s.table.length ∧
    (ks.foldl (pairStep cfg j w2) s).table.getD
      (lookup cfg.vocab_size cfg.max_product cfg.vocab_size - 1) 0 = 0 ∧
    (∃ m, m ≤ ks.length ∧
      (ks.foldl (pairStep cfg j w2) s).ind =
        s.ind + mult cfg.symmetric * m) ∧
    (∀ i ∈ (ks.foldl (pairStep cfg j w2) s).storeLog,
      i ∈ s.storeLog ∨ i ≤ cfg.overflow_length) ∧
    mass (ks.foldl (pairStep cfg j w2) s) =
      mass s + multQ cfg.symmetric *
        ((ks.map (fun k => (1 : ℚ) / ((j - k : ℕ) : ℚ))).sum) := by
  intro ks
  induction ks with
  | nil =>
    intro s hks hw2a hw2b hhist htlen htlast hcrlen hroom
    refine ⟨rfl, rfl, rfl, rfl, rfl, htlast, ⟨0, by omega, by simp⟩,
      fun i hi => Or.inl hi, by simp⟩
  | cons k ks ih =>
    intro s hks hw2a hw2b hhist htlen htlast hcrlen hroom
    have hk := hks k (by simp)
    have hstep := pairStep_spec cfg j w2 k s (pairStep cfg j w2 s k) rfl
      hw2a hw2b (hhist k hk.1 hk.2).1 (hhist k hk.1 hk.2).2 htlen htlast hcrlen
      (by
        have h1 : mult cfg.symmetric ≤
            mult cfg.symmetric * (k :: ks).length := by
          simp only [List.length_cons]
          calc mult cfg.symmetric = mult cfg.symmetric * 1 := by ring
            _ ≤ mult cfg.symmetric * (ks.length + 1) :=
              Nat.mul_le_mul_left _ (by omega)
        omega)
    obtain ⟨hh, hj, hchunks, hcrl, htl, htlast', hindc, hlog, hmass⟩ := hstep
    have hind' : (pairStep cfg j w2 s k).ind ≤ s.ind + mult cfg.symmetric := by
      rcases hindc with h | h <;> omega
    have hrec := ih (pairStep cfg j w2 s k)
      (fun x hx => hks x (by simp [hx]))
      hw2a hw2b
      (fun k' h1 h2 => by rw [hh]; exact hhist k' h1 h2)
      (by rw [htl, htlen])
      htlast'
      (by rw [hcrl, hcrlen])
      (by
        simp only [List.length_cons] at hroom
        have : mult cfg.symmetric * (ks.length + 1) =
            mult cfg.symmetric * ks.length + mult cfg.symmetric := by ring
        omega)
    obtain ⟨rh, rj, rchunks, rcrl, rtl, rtlast, ⟨m, hm, hmind⟩, rlog, rmass⟩ :=
      hrec
    rw [List.foldl_cons]
    refine ⟨by rw [rh, hh], by rw [rj, hj], by rw [rchunks, hchunks],
      by rw [rcrl, hcrl], by rw [rtl, htl], rtlast, ?_, ?_, ?_⟩
    · rcases hindc with h | h
      · exact ⟨m, by simp; omega, by rw [hmind, h]⟩
      · refine ⟨m + 1, by simp; omega, ?_⟩
        rw [hmind, h]
        ring
    · intro i hi
      rcases rlog i hi with h | h
      · exact hlog i h
      · exact Or.inr h
    · rw [rmass, hmass]
      simp only [List.map_cons, List.sum_cons]
      ring

/-- The state invariant of the main loop, taken at the top of each
iteration. -/
def CoInv (cfg : CoConfig) (s : CoState) : Prop :=
  s.history.length = cfg.window_size ∧
  s.cr.length = cfg.overflow_length + 1 ∧
  s.table.length = lookup cfg.vocab_size cfg.max_product cfg.vocab_size ∧
  s.table.getD
    (lookup cfg.vocab_size cfg.max_product cfg.vocab_size - 1) 0 = 0 ∧
  (∀ k, k < s.j → s.j ≤ k + cfg.window_size →
    1 ≤ s.history.getD (k % cfg.window_size) 0 ∧
    s.history.getD (k % cfg.window_size) 0 ≤ cfg.vocab_size) ∧
  s.ind ≤ cfg.overflow_length + 1 ∧
  (cfg.symmetric = true → s.ind % 2 = 0) ∧
  (∀ i ∈ s.storeLog, i ≤ cfg.overflow_length) ∧
  (∀ c ∈ s.chunks, c.Pairwise (fun a b => a.key ≤ b.key))

/-- The configurations under which the overflow buffer cannot overrun its
`overflow_length + 1` allocation (the amended safety condition). -/
def safeCfg (cfg : CoConfig) : Prop :=
  (cfg.symmetric = false ∧
    cfg.window_size ≤ cfg.overflow_length + 1) ∨
  (cfg.symmetric = true ∧ cfg.window_size ≤ 2 ∧
    2 * cfg.window_size ≤ cfg.overflow_length + 1)

@[simp] theorem flushCheck_history (cfg : CoConfig) (s : CoState) :
    (flushCheck cfg s).history = s.history := by
  unfold flushCheck; split <;> rfl

@[simp] theorem flushCheck_j (cfg : CoConfig) (s : CoState) :
    (flushCheck cfg s).j = s.j := by
  unfold flushCheck; split <;> rfl

@[simp] theorem flushCheck_cr (cfg : CoConfig) (s : CoState) :
    (flushCheck cfg s).cr = s.cr := by
  unfold flushCheck; split <;> rfl

@[simp] theorem flushCheck_table (cfg : CoConfig) (s : CoState) :
    (flushCheck cfg s).table = s.table := by
  unfold flushCheck; split <;> rfl

@[simp] theorem flushCheck_storeLog (cfg : CoConfig) (s : CoState) :
    (flushCheck cfg s).storeLog = s.storeLog := by
  unfold flushCheck; split <;> rfl

theorem flushCheck_ind (cfg : CoConfig) (s : CoState) :
    (flushCheck cfg s).ind = 0 ∨
    ((flushCheck cfg s).ind = s.ind ∧
      s.ind + cfg.window_size < cfg.overflow_length) := by
  unfold flushCheck
  split
  · exact Or.inl rfl
  · rename_i h
    exact Or.inr ⟨rfl, by omega⟩

theorem flushCheck_mass (cfg : CoConfig) (s : CoState) :
    mass (flushCheck cfg s) = mass s := by
  unfold flushCheck
  split
  · unfold mass
    simp only [List.take_zero, List.map_append, List.map_cons, List.map_nil,
      List.sum_append, List.sum_cons, List.sum_nil]
    rw [write_chunk_sumVals, sumVals_perm (qsortCrec_perm _)]
    simp [sumVals]
    ring
  · rfl

theorem flushCheck_chunks (cfg : CoConfig) (s : CoState) :
    ∀ c ∈ (flushCheck cfg s).chunks,
      c ∈ s.chunks ∨ c = write_chunk (qsortCrec (s.cr.take s.ind)) := by
  unfold flushCheck
  split
  · intro c hc
    simp only [List.mem_append, List.mem_singleton] at hc
    exact hc
  · intro c hc
    exact Or.inl hc

theorem kList_length (ws j : ℕ) : (kList ws j).length = min j ws := by
  unfold kList
  rw [List.length_reverse, List.length_range']
  by_cases hj : ws < j
  · rw [if_pos hj]; omega
  · rw [if_neg hj]; omega

theorem kList_mem (ws j k : ℕ) (h : k ∈ kList ws j) : k < j ∧ j ≤ k + ws := by
  unfold kList at h
  rw [List.mem_reverse, List.mem_range'_1] at h
  by_cases hj : ws < j
  · rw [if_pos hj] at h
    omega
  · rw [if_neg hj] at h
    omega

/-- Two recent positions of the same line occupy distinct history cells. -/
theorem mod_ne_of_near (ws j k : ℕ) (hk : k < j) (hsub : j - k < ws) :
    k % ws ≠ j % ws := by
  intro h
  have hd : (j - k) % ws = 0 := Nat.sub_mod_eq_zero_of_mod_eq h.symm
  rw [Nat.mod_eq_of_lt hsub] at hd
  omega

/-- How one event moves the line position `j`. -/
def stepJ (t : Token) (j : ℕ) : ℕ :=
  match t with
  | Token.newline => 0
  | Token.word none => j
  | Token.word (some _) => j + 1

/-- The specification's weight of one event at line position `j`. -/
def stepMass (ws : ℕ) (t : Token) (j : ℕ) : ℚ :=
  match t with
  | Token.newline => 0
  | Token.word none => 0
  | Token.word (some _) => invDistSum ws j

theorem mass_update_hist (s : CoState) (h : List ℕ) (j : ℕ) :
    mass { s with history := h, j := j } = mass s := rfl

theorem mass_update_j (s : CoState) (j : ℕ) :
    mass { s with j := j } = mass s := rfl

/-- Effect of one main-loop iteration: the invariant is preserved, the line
position evolves as the event dictates, and the total weight grows by the
specification's weight of the event. -/
theorem coStep_spec (cfg : CoConfig) (hws : 1 ≤ cfg.window_size)
    (hsafe : safeCfg cfg) (s : CoState) (t : Token)
    (hInv : CoInv cfg s)
    (htok : ∀ w, t = Token.word (some w) → 1 ≤ w ∧ w ≤ cfg.vocab_size) :
    CoInv cfg (coStep cfg s t) ∧
    (coStep cfg s t).j = stepJ t s.j ∧
    mass (coStep cfg s t) =
      mass s + multQ cfg.symmetric * stepMass cfg.window_size t s.j := by
  obtain ⟨hhl, hcrl, htl, htlast, hhist, hindb, hpar, hlog, hchs⟩ := hInv
  have hfm := flushCheck_mass cfg s
  have hfi := flushCheck_ind cfg s
  have hfc := flushCheck_chunks cfg s
  have hInv0 : CoInv cfg (flushCheck cfg s) := by
    refine ⟨by simpa using hhl, by simpa using hcrl, by simpa using htl,
      by simpa using htlast, ?_, ?_, ?_, by simpa using hlog, ?_⟩
    · intro k h1 h2
      rw [flushCheck_j] at h1 h2
      rw [flushCheck_history]
      exact hhist k h1 h2
    · rcases hfi with h | ⟨h, _⟩ <;> omega
    · intro hsym
      rcases hfi with h | ⟨h, _⟩
      · omega
      · rw [h]; exact hpar hsym
    · intro c hc
      rcases hfc c hc with h | h
      · exact hchs c h
      · rw [h]
        exact (write_chunk_pairwise _ (qsortCrec_pairwise _)).imp
          (fun hab => le_of_lt hab)
  obtain ⟨h1, h2, h3, h4, h5, h6, h7, h8, h9⟩ := hInv0
  cases t with
  | newline =>
    rw [coStep, stepJ, stepMass]
    simp only []
    refine ⟨⟨by simpa using h1, by simpa using h2, by simpa using h3,
      by simpa using h4, ?_, by simpa using h6, by simpa using h7,
      by simpa using h8, by simpa using h9⟩, by simp, ?_⟩
    · intro k hk1 hk2
      have hk0 : k < 0 := hk1
      omega
    · rw [mass_update_j, hfm]
      ring
  | word w =>
    cases w with
    | none =>
      rw [coStep, stepJ, stepMass]
      refine ⟨⟨h1, h2, h3, h4, h5, h6, h7, h8, h9⟩, flushCheck_j cfg s, ?_⟩
      rw [hfm]
      ring
    | some w2 =>
      have hw2 := htok w2 rfl
      rw [coStep, stepJ, stepMass]
      rw [wordStep]
      rw [flushCheck_j]
      have hmin : min s.j cfg.window_size ≤ cfg.window_size := by omega
      have hroom : (flushCheck cfg s).ind +
          mult cfg.symmetric * (kList cfg.window_size s.j).length ≤
          cfg.overflow_length + 1 := by
        rw [kList_length]
        rcases hsafe with ⟨hs1, hs2⟩ | ⟨hs1, hs2, hs3⟩
        · have hmeq : mult cfg.symmetric = 1 := by rw [mult, hs1]; simp
          rw [hmeq]
          rcases hfi with h | ⟨h, hlt⟩ <;> omega
        · have hmeq : mult cfg.symmetric = 2 := by rw [mult, hs1]; simp
          rw [hmeq]
          rcases hfi with h | ⟨h, hlt⟩ <;> omega
      have hloop := pairLoop_spec cfg s.j w2
        (kList cfg.window_size s.j) (flushCheck cfg s)
        (fun k hk => kList_mem _ _ k hk)
        hw2.1 hw2.2
        (fun k' hk1 hk2 => by
          rw [flushCheck_history]
          exact hhist k' hk1 hk2)
        h3 h4 h2 hroom
      obtain ⟨ph, pj, pchunks, pcrl, ptl, ptlast, ⟨m, hm, hmind⟩, plog, pmass⟩ :=
        hloop
      set F := (kList cfg.window_size s.j).foldl
        (pairStep cfg s.j w2) (flushCheck cfg s) with hFdef
      refine ⟨⟨?_, ?_, ?_, ?_, ?_, ?_, ?_, ?_, ?_⟩, ?_, ?_⟩
      · show (F.history.set (s.j % cfg.window_size) w2).length = cfg.window_size
        rw [List.length_set, ph, flushCheck_history]
        exact hhl
      · show F.cr.length = cfg.overflow_length + 1
        rw [pcrl]
        exact h2
      · show F.table.length =
          lookup cfg.vocab_size cfg.max_product cfg.vocab_size
        rw [ptl]
        exact h3
      · exact ptlast
      · intro k hk1 hk2
        replace hk1 : k < s.j + 1 := hk1
        replace hk2 : s.j + 1 ≤ k + cfg.window_size := hk2
        show 1 ≤ (F.history.set (s.j % cfg.window_size) w2).getD
            (k % cfg.window_size) 0 ∧
          (F.history.set (s.j % cfg.window_size) w2).getD
            (k % cfg.window_size) 0 ≤ cfg.vocab_size
        have hFl : F.history.length = cfg.window_size := by
          rw [ph, flushCheck_history]; exact hhl
        by_cases hkj : k = s.j
        · subst hkj
          rw [getD_set_gen _ _ _ _ _
            (by rw [hFl]; exact Nat.mod_lt _ (by omega)), if_pos rfl]
          exact hw2
        · have hklt : k < s.j := by omega
          have hne : k % cfg.window_size ≠ s.j % cfg.window_size :=
            mod_ne_of_near cfg.window_size s.j k hklt (by omega)
          rw [getD_set_gen _ _ _ _ _
            (by rw [hFl]; exact Nat.mod_lt _ (by omega)), if_neg hne]
          rw [ph, flushCheck_history]
          exact hhist k hklt (by omega)
      · show F.ind ≤ cfg.overflow_length + 1
        rw [hmind]
        have hmm : mult cfg.symmetric * m ≤ mult cfg.symmetric *
            (kList cfg.window_size s.j).length :=
          Nat.mul_le_mul_left _ hm
        omega
      · intro hsym
        show F.ind % 2 = 0
        rw [hmind]
        have h2m : mult cfg.symmetric = 2 := by rw [mult, hsym]; simp
        rw [h2m]
        have hp0 := h7 hsym
        omega
      · intro i hi
        replace hi : i ∈ F.storeLog := hi
        rcases plog i hi with h | h
        · exact h8 i h
        · exact h
      · intro c hc
        replace hc : c ∈ F.chunks := hc
        rw [pchunks] at hc
        exact h9 c hc
      · show s.j + 1 = s.j + 1
        rfl
      · rw [mass_update_hist, pmass, hfm]
        congr 1
        rw [kList_sum (fun n => (1 : ℚ) / (n : ℚ)) cfg.window_size s.j]
        rw [invDistSum]

/-- The events whose in-vocabulary ranks are valid for vocabulary size
`V` (ranks assigned by `hashinsert` are `1..V`). -/
def validEvents (V : ℕ) (ts : List Token) : Prop :=
  ∀ t ∈ ts, ∀ w, t = Token.word (some w) → 1 ≤ w ∧ w ≤ V

/-- The invariant and the weight accounting along the whole event stream. -/
theorem coFold_spec (cfg : CoConfig) (hws : 1 ≤ cfg.window_size)
    (hsafe : safeCfg cfg) :
    ∀ (ts : List Token) (s : CoState), CoInv cfg s →
    validEvents cfg.vocab_size ts →
    CoInv cfg (ts.foldl (coStep cfg) s) ∧
    mass (ts.foldl (coStep cfg) s) =
      mass s + multQ cfg.symmetric * eventsSum cfg.window_size ts s.j := by
  intro ts
  induction ts with
  | nil =>
    intro s hInv hval
    exact ⟨hInv, by simp [eventsSum]⟩
  | cons t ts ih =>
    intro s hInv hval
    obtain ⟨hInv', hj', hm'⟩ := coStep_spec cfg hws hsafe s t hInv
      (hval t (by simp))
    obtain ⟨rInv, rmass⟩ := ih (coStep cfg s t) hInv'
      (fun t' ht' => hval t' (by simp [ht']))
    rw [List.foldl_cons]
    refine ⟨rInv, ?_⟩
    rw [rmass, hm', hj']
    cases t with
    | newline => rw [eventsSum, stepJ, stepMass]; ring
    | word w =>
      cases w with
      | none => rw [eventsSum, stepJ, stepMass]; ring
      | some w2 => rw [eventsSum, stepJ, stepMass]; ring

theorem coInit_inv (cfg : CoConfig) (hist0 : List ℕ) (cr0 : List CREC)
    (hh : hist0.length = cfg.window_size)
    (hc : cr0.length = cfg.overflow_length + 1) :
    CoInv cfg (coInit cfg hist0 cr0) := by
  refine ⟨hh, hc, by simp [coInit], ?_, ?_, by simp [coInit],
    by simp [coInit], by simp [coInit], by simp [coInit]⟩
  · rw [coInit]
    simp only []
    rw [List.getD_eq_getElem?_getD]
    rcases h : (List.replicate (lookup cfg.vocab_size cfg.max_product
      cfg.vocab_size) (0 : ℚ))[lookup cfg.vocab_size cfg.max_product
        cfg.vocab_size - 1]? with _ | v
    · rfl
    · have := List.getElem?_mem h
      rw [List.eq_of_mem_replicate this]
      rfl
  · intro k hk1 hk2
    rw [coInit] at hk1
    simp only [] at hk1
    omega

theorem coInit_mass (cfg : CoConfig) (hist0 : List ℕ) (cr0 : List CREC) :
    mass (coInit cfg hist0 cr0) = 0 := by
  unfold mass coInit
  simp [sumVals]

theorem coFinal_chunks_sum (cfg : CoConfig) (s : CoState) :
    (((coFinal cfg s).chunks.map sumVals)).sum = mass s - s.table.sum := by
  unfold coFinal
  simp only [List.map_append, List.sum_append, List.map_cons, List.map_nil,
    List.sum_cons, List.sum_nil]
  rw [write_chunk_sumVals, sumVals_perm (qsortCrec_perm _)]
  have hfm := flushCheck_mass cfg s
  unfold mass at hfm ⊢
  rw [flushCheck_table, flushCheck_cr] at *
  have : ((flushCheck cfg s).chunks.map sumVals).sum +
      sumVals (s.cr.take (flushCheck cfg s).ind) =
      sumVals (s.cr.take s.ind) + ((s.chunks.map sumVals)).sum := by
    linarith [hfm]
  linarith [this]

theorem coFinal_table (cfg : CoConfig) (s : CoState) :
    (coFinal cfg s).table = s.table := by
  unfold coFinal
  simp

theorem coFinal_storeLog (cfg : CoConfig) (s : CoState) :
    (coFinal cfg s).storeLog = s.storeLog := by
  unfold coFinal
  simp

theorem coFinal_chunks_sorted (cfg : CoConfig) (s : CoState)
    (h : ∀ c ∈ s.chunks, c.Pairwise (fun a b => a.key ≤ b.key)) :
    ∀ c ∈ (coFinal cfg s).chunks, c.Pairwise (fun a b => a.key ≤ b.key) := by
  unfold coFinal
  intro c hc
  simp only [List.mem_append, List.mem_singleton] at hc
  rcases hc with hc | hc
  · rcases flushCheck_chunks cfg s c hc with h1 | h1
    · exact h c h1
    · rw [h1]
      exact (write_chunk_pairwise _ (qsortCrec_pairwise _)).imp
        (fun hab => le_of_lt hab)
  · rw [hc]
    exact (write_chunk_pairwise _ (qsortCrec_pairwise _)).imp
      (fun hab => le_of_lt hab)

theorem pairStep_chunks (cfg : CoConfig) (j w2 : ℕ) (s : CoState) (k : ℕ) :
    (pairStep cfg j w2 s k).chunks = s.chunks := by
  rw [pairStep]
  simp only []
  split
  · split <;> simp
  · split <;> simp

theorem pairFold_chunks (cfg : CoConfig) (j w2 : ℕ) :
    ∀ (ks : List ℕ) (s : CoState),
    (ks.foldl (pairStep cfg j w2) s).chunks = s.chunks := by
  intro ks
  induction ks with
  | nil => intro s; rfl
  | cons k ks ih =>
    intro s
    rw [List.foldl_cons, ih, pairStep_chunks]

/-- Without any hypothesis on the configuration, every chunk ever written
is a `write_chunk` of a sorted buffer, hence sorted. -/
theorem coStep_chunks_sorted (cfg : CoConfig) (s : CoState) (t : Token)
    (h : ∀ c ∈ s.chunks, c.Pairwise (fun a b => a.key ≤ b.key)) :
    ∀ c ∈ (coStep cfg s t).chunks,
      c.Pairwise (fun a b => a.key ≤ b.key) := by
  have hfl : ∀ c ∈ (flushCheck cfg s).chunks,
      c.Pairwise (fun a b => a.key ≤ b.key) := by
    intro c hc
    rcases flushCheck_chunks cfg s c hc with h1 | h1
    · exact h c h1
    · rw [h1]
      exact (write_chunk_pairwise _ (qsortCrec_pairwise _)).imp
        (fun hab => le_of_lt hab)
  cases t with
  | newline => exact hfl
  | word w =>
    cases w with
    | none => exact hfl
    | some w2 =>
      rw [coStep, wordStep]
      intro c hc
      replace hc : c ∈ ((kList cfg.window_size (flushCheck cfg s).j).foldl
        (pairStep cfg (flushCheck cfg s).j w2) (flushCheck cfg s)).chunks := hc
      rw [pairFold_chunks] at hc
      exact hfl c hc

theorem coFold_chunks_sorted (cfg : CoConfig) :
    ∀ (ts : List Token) (s : CoState),
    (∀ c ∈ s.chunks, c.Pairwise (fun a b => a.key ≤ b.key)) →
    ∀ c ∈ (ts.foldl (coStep cfg) s).chunks,
      c.Pairwise (fun a b => a.key ≤ b.key) := by
  intro ts
  induction ts with
  | nil => intro s h; exact h
  | cons t ts ih =>
    intro s h
    rw [List.foldl_cons]
    exact ih (coStep cfg s t) (coStep_chunks_sorted cfg s t h)

/-- The dense-table serialization is strictly increasing in the key, for
every table contents. -/
theorem denseChunk_pairwise (V M : ℕ) (table : List ℚ) :
    (denseChunk V M table).Pairwise (fun a b => a.key < b.key) := by
  unfold denseChunk
  rw [List.flatMap_def, List.pairwise_flatten]
  constructor
  · intro blk hblk
    rw [List.mem_map] at hblk
    obtain ⟨x, hx, rfl⟩ := hblk
    rw [List.pairwise_filterMap]
    have hpw : (List.range' 1 (lookup V M x - lookup V M (x - 1))).Pairwise
        (· < ·) := List.pairwise_lt_range' 1 _ 1 (by omega)
    refine hpw.imp_of_mem ?_
    intro y y' hy hy' hlt r hr r' hr'
    split at hr
    · rename_i hne
      rw [Option.mem_def, Option.some.injEq] at hr
      split at hr'
      · rename_i hne'
        rw [Option.mem_def, Option.some.injEq] at hr'
        subst hr
        subst hr'
        rw [CREC.key, CREC.key, Prod.Lex.lt_iff]
        right
        simp only []
        refine ⟨by trivial, by exact_mod_cast hlt⟩
      · simp at hr'
    · simp at hr
  · have hpwx : (List.range' 1 V).Pairwise (· < ·) :=
      List.pairwise_lt_range' 1 V 1 (by omega)
    refine (hpwx.map _ ?_)
    intro x x' hlt r hr r' hr'
    rw [List.mem_filterMap] at hr hr'
    obtain ⟨y, hy, hry⟩ := hr
    obtain ⟨y', hy', hry'⟩ := hr'
    split at hry
    · rw [Option.some.injEq] at hry
      subst hry
      split at hry'
      · rw [Option.some.injEq] at hry'
        subst hry'
        rw [CREC.key, CREC.key, Prod.Lex.lt_iff]
        left
        simp only []
        exact_mod_cast hlt
      · exact absurd hry' (by simp)
    · exact absurd hry (by simp)

theorem sumVals_flatten : ∀ (L : List (List CREC)),
    sumVals L.flatten = (L.map sumVals).sum := by
  intro L
  induction L with
  | nil => rfl
  | cons l L ih =>
    rw [List.flatten_cons, sumVals_append, ih, List.map_cons, List.sum_cons]

theorem filterMap_dense_sum (x : ℤ) (g : ℕ → ℚ) : ∀ (ys : List ℕ),
    sumVals (ys.filterMap (fun y =>
      if g y ≠ 0 then some ⟨x, (y : ℤ), g y⟩ else none)) = (ys.map g).sum := by
  intro ys
  induction ys with
  | nil => rfl
  | cons y ys ih =>
    rw [List.filterMap_cons, List.map_cons, List.sum_cons]
    by_cases h : g y ≠ 0
    · rw [if_pos h]
      rw [sumVals_cons, ih]
    · rw [if_neg h]
      push_neg at h
      rw [ih, h]
      ring

theorem sum_range'_shift (f : ℕ → ℚ) : ∀ (n a d : ℕ),
    ((List.range' a n).map (fun y => f (y + d))).sum =
      ((List.range' (a + d) n).map f).sum := by
  intro n
  induction n with
  | zero => intro a d; simp
  | succ n ih =>
    intro a d
    rw [List.range'_succ, List.range'_succ]
    simp only [List.map_cons, List.sum_cons]
    rw [ih (a + 1) d]
    have h : a + 1 + d = a + d + 1 := by omega
    rw [h]

theorem block_sum_eq (tbl : List ℚ) (L w : ℕ) (hL : 1 ≤ L) :
    ((List.range' 1 w).map (fun y => tbl.getD (L + y - 2) 0)).sum =
      ((List.range' (L - 1) w).map (fun i => tbl.getD i 0)).sum := by
  have h1 : ((List.range' (0 + 1) w).map
      (fun y => tbl.getD (L + y - 2) 0)).sum =
      ((List.range' 0 w).map (fun y => tbl.getD (L + (y + 1) - 2) 0)).sum := by
    rw [← sum_range'_shift (fun z => tbl.getD (L + z - 2) 0) w 0 1]
  have h0 : (0 : ℕ) + 1 = 1 := rfl
  rw [h0] at h1
  rw [h1]
  have h2 : ((List.range' 0 w).map
      (fun y => tbl.getD (L + (y + 1) - 2) 0)).sum =
      ((List.range' 0 w).map (fun y => tbl.getD (y + (L - 1)) 0)).sum := by
    congr 1
    refine List.map_congr_left ?_
    intro y hy
    have h : L + (y + 1) - 2 = y + (L - 1) := by omega
    rw [h]
  rw [h2, sum_range'_shift (fun i => tbl.getD i 0) w 0 (L - 1)]
  have h3 : (0 : ℕ) + (L - 1) = L - 1 := by omega
  rw [h3]

theorem rangeSum_append (f : ℕ → ℚ) (lo m n : ℕ) :
    ((List.range' lo m).map f).sum + ((List.range' (lo + m) n).map f).sum =
      ((List.range' lo (m + n)).map f).sum := by
  rw [Nat.add_comm m n, ← List.range'_append_1 lo m n, List.map_append,
    List.sum_append]

theorem dense_rows_sum (tbl : List ℚ) (V M : ℕ) : ∀ n : ℕ,
    ((List.range' 1 n).map (fun x =>
      ((List.range' (lookup V M (x - 1) - 1)
        (lookup V M x - lookup V M (x - 1))).map
        (fun i => tbl.getD i 0)).sum)).sum =
      ((List.range' 0 (lookup V M n - 1)).map (fun i => tbl.getD i 0)).sum := by
  intro n
  induction n with
  | zero =>
    rw [lookup_zero]
    simp
  | succ n ih =>
    have hcat : List.range' 1 (n + 1) = List.range' 1 n ++ [1 + n] := by
      have h := @List.range'_concat 1 1 n
      rw [Nat.one_mul] at h
      exact h
    rw [hcat, List.map_append, List.sum_append, ih]
    simp only [List.map_cons, List.map_nil, List.sum_cons, List.sum_nil]
    have hx1 : 1 + n - 1 = n := by omega
    rw [hx1]
    have hstep : lookup V M n ≤ lookup V M (1 + n) := by
      have h := lookup_le_succ V M n
      have heq : 1 + n = n + 1 := by omega
      rw [heq]
      exact h
    have hpos := lookup_pos V M n
    have happ := rangeSum_append (fun i => tbl.getD i 0) 0 (lookup V M n - 1)
      (lookup V M (1 + n) - lookup V M n)
    have hz : (0 : ℕ) + (lookup V M n - 1) = lookup V M n - 1 := by omega
    rw [hz] at happ
    have harith : lookup V M n - 1 + (lookup V M (1 + n) - lookup V M n) =
        lookup V M (1 + n) - 1 := by omega
    rw [harith] at happ
    have hLc : lookup V M (n + 1) = lookup V M (1 + n) := by
      rw [Nat.add_comm]
    rw [hLc, add_zero]
    exact happ

theorem getD_cons_range' (v : ℚ) (tbl : List ℚ) : ∀ (n a : ℕ),
    ((List.range' (a + 1) n).map (fun i => (v :: tbl).getD i 0)).sum =
      ((List.range' a n).map (fun i => tbl.getD i 0)).sum := by
  intro n
  induction n with
  | zero => intro a; simp
  | succ n ih =>
    intro a
    rw [List.range'_succ, List.range'_succ]
    simp only [List.map_cons, List.sum_cons]
    rw [ih (a + 1)]
    congr 1

theorem table_sum_range (tbl : List ℚ) :
    ((List.range' 0 tbl.length).map (fun i => tbl.getD i 0)).sum = tbl.sum := by
  induction tbl with
  | nil => simp
  | cons v tbl ih =>
    rw [List.length_cons, List.range'_succ]
    simp only [List.map_cons, List.sum_cons, List.getD_cons_zero]
    rw [getD_cons_range' v tbl tbl.length 0, ih]

/-- The serialization of the dense table carries exactly the table's total
weight, provided the cell past the last row (which no store ever touches)
is zero. -/
theorem denseChunk_sum (V M : ℕ) (table : List ℚ)
    (hlen : table.length = lookup V M V)
    (hlast : table.getD (lookup V M V - 1) 0 = 0) :
    sumVals (denseChunk V M table) = table.sum := by
  unfold denseChunk
  rw [List.flatMap_def, sumVals_flatten, List.map_map]
  have hmap : ((List.range' 1 V).map (sumVals ∘ fun x =>
      (List.range' 1 (lookup V M x - lookup V M (x - 1))).filterMap (fun y =>
        if table.getD (lookup V M (x - 1) + y - 2) 0 ≠ 0 then
          some ⟨(x : ℤ), (y : ℤ), table.getD (lookup V M (x - 1) + y - 2) 0⟩
        else none))).sum =
      ((List.range' 1 V).map (fun x =>
        ((List.range' (lookup V M (x - 1) - 1)
          (lookup V M x - lookup V M (x - 1))).map
          (fun i => table.getD i 0)).sum)).sum := by
    congr 1
    refine List.map_congr_left ?_
    intro x hx
    simp only [Function.comp]
    rw [filterMap_dense_sum (x : ℤ)
      (fun y => table.getD (lookup V M (x - 1) + y - 2) 0)]
    exact block_sum_eq table (lookup V M (x - 1))
      (lookup V M x - lookup V M (x - 1)) (lookup_pos V M (x - 1))
  rw [hmap, dense_rows_sum table V M V]
  have hfull := table_sum_range table
  rw [hlen] at hfull
  have hsplit := rangeSum_append (fun i => table.getD i 0) 0
    (lookup V M V - 1) 1
  have hz : (0 : ℕ) + (lookup V M V - 1) = lookup V M V - 1 := by omega
  rw [hz] at hsplit
  have hL1 := lookup_pos V M V
  have harith : lookup V M V - 1 + 1 = lookup V M V := by omega
  rw [harith] at hsplit
  have hone : ((List.range' (lookup V M V - 1) 1).map
      (fun i => table.getD i 0)).sum = table.getD (lookup V M V - 1) 0 := by
    simp
  rw [hone, hlast] at hsplit
  rw [← hfull, ← hsplit]
  ring

theorem coRuns_sorted (cfg : CoConfig) (events : List Token) (hist0 : List ℕ)
    (cr0 : List CREC) :
    ∀ f ∈ coRuns cfg events hist0 cr0,
      f.Pairwise (fun a b => a.key ≤ b.key) := by
  intro f hf
  unfold coRuns at hf
  rcases List.mem_cons.1 hf with hf | hf
  · rw [hf]
    exact (denseChunk_pairwise _ _ _).imp (fun h => le_of_lt h)
  · unfold coRun at hf
    exact coFinal_chunks_sorted cfg _
      (coFold_chunks_sorted cfg events (coInit cfg hist0 cr0)
        (by intro c hc; simp [coInit] at hc))
      f hf

/-- C2: for every corpus (event stream), vocabulary, window size,
symmetry setting, overflow capacity and indeterminate initial memory, the
final output of the co-occurrence accumulator (after the k-way merge of the
dense run and all overflow runs) is strictly increasing in the key
`(word1, word2)` under the lexicographic order; in particular no two output
records share a key. -/
theorem C2_output_strictly_sorted (cfg : CoConfig) (events : List Token)
    (hist0 : List ℕ) (cr0 : List CREC) (new0 : CRECID) :
    (get_cooccurrence cfg events hist0 cr0 new0).Pairwise
      (fun a b => a.key < b.key) := by
  unfold get_cooccurrence
  refine merge_files_sorted _ _ ?_ (coRuns_sorted cfg events hist0 cr0)
  unfold coRuns
  exact List.cons_ne_nil _ _

/-- C1 (amended): weight conservation holds provided the configuration
cannot overrun the overflow buffer (`safeCfg`) and every run file receives
at least one record; then the sum of the `val` fields over all output
records equals the specification's sum of `1/distance` over ordered
in-window in-vocabulary pairs, doubled when symmetric.  Without the two
added hypotheses the claim is refuted by `C1_conservation_cx`. -/
theorem C1_weight_conservation_amended (cfg : CoConfig) (events : List Token)
    (hist0 : List ℕ) (cr0 : List CREC) (new0 : CRECID)
    (hws : 1 ≤ cfg.window_size)
    (hsafe : safeCfg cfg)
    (hh : hist0.length = cfg.window_size)
    (hc : cr0.length = cfg.overflow_length + 1)
    (hval : validEvents cfg.vocab_size events)
    (hne : ∀ f ∈ coRuns cfg events hist0 cr0, f ≠ []) :
    sumVals (get_cooccurrence cfg events hist0 cr0 new0) =
      specPairSum cfg.window_size cfg.symmetric (lineLengths events 0) := by
  unfold get_cooccurrence
  rw [merge_files_sum _ _ (by unfold coRuns; exact List.cons_ne_nil _ _) hne]
  unfold coRuns
  rw [List.map_cons, List.sum_cons]
  obtain ⟨hInv, hmass⟩ := coFold_spec cfg hws hsafe events
    (coInit cfg hist0 cr0) (coInit_inv cfg hist0 cr0 hh hc) hval
  obtain ⟨t1, t2, t3, t4, t5, t6, t7, t8, t9⟩ := hInv
  have hj : (coInit cfg hist0 cr0).j = 0 := rfl
  rw [hj, coInit_mass] at hmass
  unfold coRun
  rw [coFinal_table, coFinal_chunks_sum]
  rw [denseChunk_sum _ _ _ t3 t4]
  rw [hmass]
  unfold specPairSum multQ
  rw [lineLengths_sum cfg.window_size events 0, specLineSum_zero]
  ring

/-- C4 (amended): under a configuration satisfying `safeCfg` — asymmetric
with `window_size <= overflow_length + 1`, or symmetric with
`window_size <= 2` and `2*window_size <= overflow_length + 1` — every store
into the overflow buffer stays within its allocation of
`overflow_length + 1` records (all logged store indices are at most
`overflow_length`).  The original claim, for every `window_size >= 1` and
symmetric setting, is refuted by `C4_overflow_cx`. -/
theorem C4_overflow_stores_amended (cfg : CoConfig) (events : List Token)
    (hist0 : List ℕ) (cr0 : List CREC)
    (hws : 1 ≤ cfg.window_size)
    (hsafe : safeCfg cfg)
    (hh : hist0.length = cfg.window_size)
    (hc : cr0.length = cfg.overflow_length + 1)
    (hval : validEvents cfg.vocab_size events) :
    ∀ i ∈ (coRun cfg events hist0 cr0).storeLog,
      i ≤ cfg.overflow_length := by
  obtain ⟨hInv, _⟩ := coFold_spec cfg hws hsafe events
    (coInit cfg hist0 cr0) (coInit_inv cfg hist0 cr0 hh hc) hval
  obtain ⟨_, _, _, _, _, _, _, t8, _⟩ := hInv
  unfold coRun
  intro i hi
  rw [coFinal_storeLog] at hi
  exact t8 i hi

/-- Counterexample to C1 as stated: on the two-token corpus `a a` with
vocabulary `{a}`, window 1, asymmetric, `max_product = 2` and
`overflow_length = 5`, the overflow run file stays empty, the priming loop
of `merge_files` inserts a stale duplicate of the dense run's first record,
and the output weight (2) exceeds the specification's total (1). -/
theorem C1_conservation_cx :
    sumVals (get_cooccurrence ⟨1, 2, 1, false, 5⟩
      [Token.word (some 1), Token.word (some 1)] [0]
      (List.replicate 6 ⟨0, 0, 0⟩) ⟨0, 0, 0, 0⟩) ≠
    specPairSum 1 false
      (lineLengths [Token.word (some 1), Token.word (some 1)] 0) := by
  unfold get_cooccurrence
  rw [← merge_filesE_eq]
  with_unfolding_all decide

/-- Counterexample to C4 as stated: with `window_size = 3`, `symmetric = 1`
and `overflow_length = 6` (allocation of 7 records, valid indices 0..6),
the corpus `a b a a b` over a two-word vocabulary with `max_product = 3`
drives a store to index 7, one past the allocation. -/
theorem C4_overflow_cx :
    ¬ (∀ i ∈ (coRun ⟨2, 3, 3, true, 6⟩
      [Token.word (some 1), Token.word (some 2), Token.word (some 1),
       Token.word (some 1), Token.word (some 2)] [0, 0, 0]
      (List.replicate 7 ⟨0, 0, 0⟩)).storeLog, i ≤ 6) := by
  with_unfolding_all decide

/-- Scenario A evaluated on the model: with the ranks of the corpus
`a b a c\nb a`, window 2, symmetric, and the default-order-of-magnitude
`max_product`/`overflow_length`, the program emits the seven sorted records
but the first carries weight 2.0 instead of the specification's 1.0: the
empty overflow run file makes the priming loop of `merge_files` insert a
stale duplicate of the first dense record. -/
theorem C3_scenario_a_cx :
    get_cooccurrence ⟨3, 100000, 2, true, 100⟩
      [Token.word (some 1), Token.word (some 2), Token.word (some 1),
       Token.word (some 3), Token.newline, Token.word (some 2),
       Token.word (some 1)] [0, 0] (List.replicate 101 ⟨0, 0, 0⟩)
      ⟨0, 0, 0, 0⟩ =
      [⟨1, 1, 2⟩, ⟨1, 2, 3⟩, ⟨1, 3, 1⟩, ⟨2, 1, 3⟩, ⟨2, 3, 1/2⟩,
       ⟨3, 1, 1⟩, ⟨3, 2, 1/2⟩] ∧
    ([⟨1, 1, 2⟩, ⟨1, 2, 3⟩, ⟨1, 3, 1⟩, ⟨2, 1, 3⟩, ⟨2, 3, 1/2⟩,
      ⟨3, 1, 1⟩, ⟨3, 2, 1/2⟩] : List CREC) ≠
      [⟨1, 1, 1⟩, ⟨1, 2, 3⟩, ⟨1, 3, 1⟩, ⟨2, 1, 3⟩, ⟨2, 3, 1/2⟩,
       ⟨3, 1, 1⟩, ⟨3, 2, 1/2⟩] := by
  constructor
  · unfold get_cooccurrence
    rw [← merge_filesE_eq]
    with_unfolding_all decide
  · with_unfolding_all decide

/-- Witness for the amended C1 on the corpus `a a b` with vocabulary
`{a, b}`, window 1, asymmetric, `max_product = 2`, `overflow_length = 3`:
both run files are nonempty and the output weight equals the
specification's total. -/
theorem C1_weight_conservation_amended_witness :
    safeCfg ⟨2, 2, 1, false, 3⟩ ∧
    (∀ f ∈ coRuns ⟨2, 2, 1, false, 3⟩
      [Token.word (some 1), Token.word (some 1), Token.word (some 2)]
      [0] (List.replicate 4 ⟨0, 0, 0⟩), f ≠ []) ∧
    sumVals (get_cooccurrence ⟨2, 2, 1, false, 3⟩
      [Token.word (some 1), Token.word (some 1), Token.word (some 2)]
      [0] (List.replicate 4 ⟨0, 0, 0⟩) ⟨5, 5, 5, 9⟩) =
      specPairSum 1 false (lineLengths
        [Token.word (some 1), Token.word (some 1), Token.word (some 2)] 0) := by
  have hval : validEvents 2
      [Token.word (some 1), Token.word (some 1), Token.word (some 2)] := by
    intro t ht w hw
    fin_cases ht <;> cases hw <;> exact ⟨by norm_num, by norm_num⟩
  have hne : ∀ f ∈ coRuns ⟨2, 2, 1, false, 3⟩
      [Token.word (some 1), Token.word (some 1), Token.word (some 2)]
      [0] (List.replicate 4 ⟨0, 0, 0⟩), f ≠ [] := by
    with_unfolding_all decide
  refine ⟨Or.inl ⟨rfl, by norm_num⟩, hne, ?_⟩
  exact C1_weight_conservation_amended ⟨2, 2, 1, false, 3⟩
    [Token.word (some 1), Token.word (some 1), Token.word (some 2)]
    [0] (List.replicate 4 ⟨0, 0, 0⟩) ⟨5, 5, 5, 9⟩
    (by norm_num) (Or.inl ⟨rfl, by norm_num⟩) rfl (by decide) hval hne

/-- Witness for the amended C4 at the same safe configuration: every
logged store index is within the allocation. -/
theorem C4_overflow_stores_amended_witness :
    safeCfg ⟨2, 2, 1, false, 3⟩ ∧
    (∀ i ∈ (coRun ⟨2, 2, 1, false, 3⟩
      [Token.word (some 1), Token.word (some 1), Token.word (some 2)]
      [0] (List.replicate 4 ⟨0, 0, 0⟩)).storeLog, i ≤ 3) := by
  have hval : validEvents 2
      [Token.word (some 1), Token.word (some 1), Token.word (some 2)] := by
    intro t ht w hw
    fin_cases ht <;> cases hw <;> exact ⟨by norm_num, by norm_num⟩
  refine ⟨Or.inl ⟨rfl, by norm_num⟩, ?_⟩
  exact C4_overflow_stores_amended ⟨2, 2, 1, false, 3⟩
    [Token.word (some 1), Token.word (some 1), Token.word (some 2)]
    [0] (List.replicate 4 ⟨0, 0, 0⟩)
    (by norm_num) (Or.inl ⟨rfl, by norm_num⟩) rfl (by decide) hval

/-- C10: if every run file given to `merge_files` holds at least one
record and is individually sorted strictly increasing in the key
`(word1, word2)`, then the output is strictly increasing in the key (one
record per key), a key appears in the output exactly when it appears in
some run, and each output value is the sum of that key's values across all
runs. -/
theorem C10_merge_files_correct (runs : List (List CREC)) (new0 : CRECID)
    (hne : runs ≠ []) (hnonempty : ∀ f ∈ runs, f ≠ [])
    (hsort : ∀ f ∈ runs, f.Pairwise (fun a b => a.key < b.key)) :
    (merge_files runs new0).Pairwise (fun a b => a.key < b.key) ∧
    ∀ w1 w2,
      (hasKey w1 w2 (merge_files runs new0) ↔ ∃ f ∈ runs, hasKey w1 w2 f) ∧
      valAt w1 w2 (merge_files runs new0) = (runs.map (valAt w1 w2)).sum := by
  refine ⟨merge_files_sorted runs new0 hne
    (fun f hf => (hsort f hf).imp (fun h => le_of_lt h)), ?_⟩
  intro w1 w2
  have h := merge_files_content runs new0 hne hnonempty w1 w2
  exact ⟨h.2, h.1⟩

/-- Witness for C10 on two concrete runs sharing the key `(1, 1)`. -/
theorem C10_merge_files_correct_witness :
    (([[⟨1, 1, 1⟩], [⟨1, 1, 2⟩, ⟨2, 1, 1⟩]] : List (List CREC)) ≠ []) ∧
    (∀ f ∈ ([[⟨1, 1, 1⟩], [⟨1, 1, 2⟩, ⟨2, 1, 1⟩]] : List (List CREC)),
      f ≠ []) ∧
    ((merge_files [[⟨1, 1, 1⟩], [⟨1, 1, 2⟩, ⟨2, 1, 1⟩]]
        ⟨0, 0, 0, 0⟩).Pairwise (fun a b => a.key < b.key) ∧
      ∀ w1 w2,
        (hasKey w1 w2 (merge_files [[⟨1, 1, 1⟩], [⟨1, 1, 2⟩, ⟨2, 1, 1⟩]]
            ⟨0, 0, 0, 0⟩) ↔
          ∃ f ∈ ([[⟨1, 1, 1⟩], [⟨1, 1, 2⟩, ⟨2, 1, 1⟩]] : List (List CREC)),
            hasKey w1 w2 f) ∧
        valAt w1 w2 (merge_files [[⟨1, 1, 1⟩], [⟨1, 1, 2⟩, ⟨2, 1, 1⟩]]
            ⟨0, 0, 0, 0⟩) =
          (([[⟨1, 1, 1⟩], [⟨1, 1, 2⟩, ⟨2, 1, 1⟩]] : List (List CREC)).map
            (valAt w1 w2)).sum) := by
  refine ⟨by simp, by intro f hf; fin_cases hf <;> simp, ?_⟩
  refine C10_merge_files_correct [[⟨1, 1, 1⟩], [⟨1, 1, 2⟩, ⟨2, 1, 1⟩]]
    ⟨0, 0, 0, 0⟩ (by simp) (by intro f hf; fin_cases hf <;> simp) ?_
  intro f hf
  fin_cases hf
  · simp
  · rw [List.pairwise_cons]
    refine ⟨?_, by simp⟩
    intro b hb
    rw [List.mem_singleton] at hb
    subst hb
    rw [CREC.key, CREC.key, Prod.Lex.lt_iff]
    left
    norm_num

/-! ## The shuffler (`shuffle.c`)

`rand_long(n)` draws are modelled by oracles mapping the loop index and
the modulus to the drawn value; `rand_long` guarantees a value below its
modulus, which the theorems take as a hypothesis on the oracle. -/

/-- The in-place record swap of `shuffle`'s loop body. -/
def swapCrec (a : List CREC) (i j : ℕ) : List CREC :=
  let tmp := a.getD j default
  (a.set j (a.getD i default)).set i tmp

/-- The Fisher–Yates loop `for (i = n - 1; i > 0; i--)`: at index `i` the
entry is swapped with index `rand_long(i + 1)`, here `rl i (i + 1)`. -/
def fyLoop (rl : ℕ → ℕ → ℕ) : ℕ → List CREC → List CREC
  | 0, a => a
  | i + 1, a => fyLoop rl i (swapCrec a (i + 1) (rl (i + 1) (i + 2)))

/-- `shuffle(array, n)` from `shuffle.c`; `n` is a C `long` and the
callers pass `i - 2` and `i - 1`, which may be negative. -/
def shuffle (rl : ℕ → ℕ → ℕ) (a : List CREC) (n : ℤ) : List CREC :=
  if n ≤ 1 then a else fyLoop rl (n.toNat - 1) a

/-- The full Fisher–Yates shuffle the specification describes (from the
spec's words): every index `i` from `n - 1` down to `1` is swapped with an
index drawn in `[0, i]`. -/
def fisherYates (rl : ℕ → ℕ → ℕ) (a : List CREC) : List CREC :=
  fyLoop rl (a.length - 1) a

/-- The buffers `shuffle_by_chunks` fills: blocks of `array_size` records;
the final partial block is always written, and is empty whenever the input
length is an exact multiple of the block size, because the flush check
precedes the read that hits end-of-file. -/
def chunksAux (A : ℕ) (cur : List CREC) : List CREC → List (List CREC)
  | [] => if A ≤ cur.length then [cur.reverse, []] else [cur.reverse]
  | r :: rest =>
      if A ≤ cur.length then cur.reverse :: chunksAux A [r] rest
      else chunksAux A (r :: cur) rest

/-- Phase 1 of the shuffler: buffer `c` with fill `i` is passed to
`shuffle(array, i - 2)` and written to temporary file `c`. -/
def shuffle_by_chunks (rls : ℕ → ℕ → ℕ → ℕ) (A : ℕ) (input : List CREC) :
    List (List CREC) :=
  (chunksAux A [] input).enum.map
    (fun p => shuffle (rls p.1) p.2 ((p.2.length : ℤ) - 2))

/-- The `for (k = 0; k < array_size / num; k++)` read loop of
`shuffle_merge` on one file: read up to `cap` records; a failing read sets
the end-of-file flag and stops without counting. -/
def readK : ℕ → List CREC → (List CREC × Bool) × List CREC
  | 0, f => ((f, false), [])
  | _ + 1, [] => (([], true), [])
  | k + 1, r :: rest =>
      let q := readK k rest
      (q.1, r :: q.2)

/-- One round of `shuffle_merge`'s outer loop: visit the files in order,
skipping those already flagged at end-of-file, reading up to `cap` records
from each into the shared buffer. -/
def roundRead (cap : ℕ) : List (List CREC × Bool) →
    List (List CREC × Bool) × List CREC
  | [] => ([], [])
  | (f, e) :: fs =>
      let q := roundRead cap fs
      if e then ((f, e) :: q.1, q.2)
      else
        let p := readK cap f
        (p.1 :: q.1, p.2 ++ q.2)

/-- The rounds of `shuffle_merge`: stop when a round reads nothing,
otherwise `shuffle(array, i - 1)` the buffer and write it out.  The fuel
argument dominates the total number of unread records, which strictly
decreases at every continuing round. -/
def mergeRounds (rl : ℕ → ℕ → ℕ → ℕ) (cap : ℕ) :
    ℕ → ℕ → List (List CREC × Bool) → List CREC
  | 0, _, _ => []
  | fuel + 1, r, files =>
      let q := roundRead cap files
      if q.2.isEmpty then []
      else
        shuffle (rl r) q.2 ((q.2.length : ℤ) - 1) ++
          mergeRounds rl cap fuel (r + 1) q.1

/-- Total number of unread records across the files. -/
def sumFst (files : List (List CREC × Bool)) : ℕ :=
  (files.map (fun p => p.1.length)).sum

/-- `shuffle_merge(num)`, reading back the `num` temporary files. -/
def shuffle_merge (rl : ℕ → ℕ → ℕ → ℕ) (cap : ℕ)
    (files : List (List CREC)) : List CREC :=
  mergeRounds rl cap (sumLen files + 1) 0 (files.map (fun f => (f, false)))

/-- The whole shuffler: phase 1 writes `num` temporary files, phase 2
merges them back reading `array_size / num` records per file per round. -/
def shuffler (rls rl2 : ℕ → ℕ → ℕ → ℕ) (A : ℕ) (input : List CREC) :
    List CREC :=
  shuffle_merge rl2 (A / (shuffle_by_chunks rls A input).length)
    (shuffle_by_chunks rls A input)

theorem set_set_swap_perm_crec (l : List CREC) (i j : ℕ)
    (hi : i < l.length) (hj : j < l.length) :
    ((l.set j (l.getD i default)).set i (l.getD j default)).Perm l := by
  rw [List.perm_iff_count]
  intro a
  have hA : l.getD i default = l[i] := List.getD_eq_getElem l default hi
  have hB : l.getD j default = l[j] := List.getD_eq_getElem l default hj
  have hi' : i < (l.set j (l.getD i default)).length := by
    rw [List.length_set]; exact hi
  rw [List.count_set (h := hi'), List.count_set (h := hj)]
  have hmid : (l.set j (l.getD i default))[i] = l[i] := by
    rw [List.getElem_set]
    split
    · rename_i hij; subst hij; rw [hA]
    · rfl
  rw [hmid, hA, hB]
  have hcl : l[j] = a → 1 ≤ l.count a := by
    intro h
    have : a ∈ l := h ▸ List.getElem_mem hj
    exact List.count_pos_iff.2 this
  by_cases h1 : l[j] = a
  · have hc := hcl h1
    by_cases h2 : l[i] = a <;> simp [h1, h2] <;> omega
  · by_cases h2 : l[i] = a <;> simp [h1, h2]

@[simp] theorem swapCrec_length (a : List CREC) (i j : ℕ) :
    (swapCrec a i j).length = a.length := by
  simp [swapCrec]

theorem swapCrec_perm (a : List CREC) (i j : ℕ)
    (hi : i < a.length) (hj : j < a.length) :
    (swapCrec a i j).Perm a := by
  unfold swapCrec
  exact set_set_swap_perm_crec a i j hi hj

theorem swapCrec_drop (a : List CREC) (i j K : ℕ)
    (hi : i < K) (hj : j < K) :
    (swapCrec a i j).drop K = a.drop K := by
  unfold swapCrec
  rw [List.drop_set_of_lt _ _ hi, List.drop_set_of_lt _ _ hj]

theorem swapCrec_take_perm (a : List CREC) (i j K : ℕ)
    (hi : i < K) (hj : j < K) (hK : K ≤ a.length) :
    ((swapCrec a i j).take K).Perm (a.take K) := by
  unfold swapCrec
  rw [List.set_take, List.set_take]
  have hgi : a.getD i default = (a.take K).getD i default := by
    rw [List.getD_eq_getElem?_getD, List.getD_eq_getElem?_getD,
      List.getElem?_take, if_pos hi]
  have hgj : a.getD j default = (a.take K).getD j default := by
    rw [List.getD_eq_getElem?_getD, List.getD_eq_getElem?_getD,
      List.getElem?_take, if_pos hj]
  rw [hgi, hgj]
  exact set_set_swap_perm_crec (a.take K) i j (by simp; omega) (by simp; omega)

@[simp] theorem fyLoop_length (rl : ℕ → ℕ → ℕ) : ∀ (k : ℕ) (a : List CREC),
    (fyLoop rl k a).length = a.length := by
  intro k
  induction k with
  | zero => intro a; rfl
  | succ k ih => intro a; rw [fyLoop, ih, swapCrec_length]

theorem fyLoop_perm (rl : ℕ → ℕ → ℕ) (hrl : ∀ i m, 0 < m → rl i m < m) :
    ∀ (k : ℕ) (a : List CREC), k < a.length → (fyLoop rl k a).Perm a := by
  intro k
  induction k with
  | zero => intro a hk; exact List.Perm.refl a
  | succ k ih =>
    intro a hk
    rw [fyLoop]
    have hj : rl (k + 1) (k + 2) < k + 2 := hrl (k + 1) (k + 2) (by omega)
    have hswap := swapCrec_perm a (k + 1) (rl (k + 1) (k + 2)) hk (by omega)
    exact (ih _ (by rw [swapCrec_length]; omega)).trans hswap

theorem fyLoop_prefix (rl : ℕ → ℕ → ℕ) (hrl : ∀ i m, 0 < m → rl i m < m)
    (K : ℕ) : ∀ (k : ℕ) (a : List CREC), k < K → K ≤ a.length →
    (fyLoop rl k a).drop K = a.drop K ∧
    ((fyLoop rl k a).take K).Perm (a.take K) := by
  intro k
  induction k with
  | zero => intro a hk hK; exact ⟨rfl, List.Perm.refl _⟩
  | succ k ih =>
    intro a hk hK
    rw [fyLoop]
    have hj : rl (k + 1) (k + 2) < k + 2 := hrl (k + 1) (k + 2) (by omega)
    have hrec := ih (swapCrec a (k + 1) (rl (k + 1) (k + 2)))
      (by omega) (by rw [swapCrec_length]; exact hK)
    refine ⟨?_, ?_⟩
    · rw [hrec.1, swapCrec_drop _ _ _ _ hk (by omega)]
    · exact hrec.2.trans (swapCrec_take_perm a _ _ K hk (by omega) hK)

theorem shuffle_perm (rl : ℕ → ℕ → ℕ) (a : List CREC) (n : ℤ)
    (hn : n ≤ (a.length : ℤ)) (hrl : ∀ i m, 0 < m → rl i m < m) :
    (shuffle rl a n).Perm a := by
  unfold shuffle
  split
  · exact List.Perm.refl a
  · rename_i h
    refine fyLoop_perm rl hrl _ a ?_
    omega

@[simp] theorem shuffle_length (rl : ℕ → ℕ → ℕ) (a : List CREC) (n : ℤ) :
    (shuffle rl a n).length = a.length := by
  unfold shuffle
  split
  · rfl
  · rw [fyLoop_length]

/-- `shuffle(array, n - 2)` leaves everything from position `n - 2`
untouched and permutes the prefix. -/
theorem shuffle_prefix (rl : ℕ → ℕ → ℕ) (b : List CREC)
    (hrl : ∀ i m, 0 < m → rl i m < m) :
    (shuffle rl b ((b.length : ℤ) - 2)).drop (b.length - 2) =
      b.drop (b.length - 2) ∧
    ((shuffle rl b ((b.length : ℤ) - 2)).take (b.length - 2)).Perm
      (b.take (b.length - 2)) := by
  unfold shuffle
  split
  · exact ⟨rfl, List.Perm.refl _⟩
  · rename_i h
    have hlen : 4 ≤ b.length := by omega
    have hk : ((b.length : ℤ) - 2).toNat - 1 < b.length - 2 := by omega
    exact fyLoop_prefix rl hrl (b.length - 2) _ b hk (by omega)

theorem chunksAux_flatten (A : ℕ) : ∀ (input cur : List CREC),
    (chunksAux A cur input).flatten.Perm (cur.reverse ++ input) := by
  intro input
  induction input with
  | nil =>
    intro cur
    rw [chunksAux]
    split
    · simp
    · simp
  | cons r rest ih =>
    intro cur
    rw [chunksAux]
    split
    · rw [List.flatten_cons]
      refine (List.Perm.append_left cur.reverse (ih [r])).trans ?_
      have h : ([r].reverse : List CREC) ++ rest = r :: rest := by simp
      rw [h]
    · refine (ih (r :: cur)).trans ?_
      have h : (r :: cur).reverse ++ rest = cur.reverse ++ (r :: rest) := by
        simp
      rw [h]

theorem chunksAux_ne_nil (A : ℕ) : ∀ (input cur : List CREC),
    chunksAux A cur input ≠ [] := by
  intro input
  induction input with
  | nil =>
    intro cur
    rw [chunksAux]
    split <;> simp
  | cons r rest ih =>
    intro cur
    rw [chunksAux]
    split
    · simp
    · exact ih (r :: cur)

theorem flatten_map_perm (f : ℕ × List CREC → List CREC) :
    ∀ (ps : List (ℕ × List CREC)), (∀ p ∈ ps, (f p).Perm p.2) →
    ((ps.map f).flatten).Perm ((ps.map Prod.snd).flatten) := by
  intro ps
  induction ps with
  | nil => intro h; exact List.Perm.refl _
  | cons p ps ih =>
    intro h
    rw [List.map_cons, List.map_cons, List.flatten_cons, List.flatten_cons]
    exact (h p (by simp)).append (ih (fun q hq => h q (by simp [hq])))

/-- Phase 1 writes a permutation of its input across the temporary
files. -/
theorem shuffle_by_chunks_flatten_perm (rls : ℕ → ℕ → ℕ → ℕ) (A : ℕ)
    (input : List CREC) (hrl : ∀ c i m, 0 < m → rls c i m < m) :
    (shuffle_by_chunks rls A input).flatten.Perm input := by
  unfold shuffle_by_chunks
  have h1 := flatten_map_perm
    (fun p => shuffle (rls p.1) p.2 ((p.2.length : ℤ) - 2))
    (chunksAux A [] input).enum
    (fun p hp => shuffle_perm (rls p.1) p.2 _ (by omega) (hrl p.1))
  rw [List.enum_map_snd] at h1
  refine h1.trans ?_
  have h2 := chunksAux_flatten A input []
  simpa using h2

theorem readK_append : ∀ (k : ℕ) (f : List CREC),
    (readK k f).2 ++ (readK k f).1.1 = f := by
  intro k
  induction k with
  | zero => intro f; rfl
  | succ k ih =>
    intro f
    cases f with
    | nil => rfl
    | cons r rest =>
      rw [readK]
      simp only [List.cons_append, List.cons.injEq]
      exact ⟨trivial, ih rest⟩

theorem readK_flag : ∀ (k : ℕ) (f : List CREC),
    (readK k f).1.2 = true → (readK k f).1.1 = [] := by
  intro k
  induction k with
  | zero => intro f h; exact absurd h (by rw [readK]; simp)
  | succ k ih =>
    intro f
    cases f with
    | nil => intro h; rfl
    | cons r rest =>
      rw [readK]
      exact ih rest

theorem readK_empty : ∀ (k : ℕ) (f : List CREC),
    (readK k f).2 = [] → k = 0 ∨ f = [] := by
  intro k
  induction k with
  | zero => intro f h; exact Or.inl rfl
  | succ k ih =>
    intro f
    cases f with
    | nil => intro h; exact Or.inr rfl
    | cons r rest =>
      rw [readK]
      intro h
      simp at h

theorem roundRead_perm (cap : ℕ) : ∀ (files : List (List CREC × Bool)),
    ((roundRead cap files).2 ++
      ((roundRead cap files).1.map Prod.fst).flatten).Perm
      ((files.map Prod.fst).flatten) := by
  intro files
  induction files with
  | nil => exact List.Perm.refl _
  | cons p fs ih =>
    obtain ⟨f, e⟩ := p
    rw [roundRead]
    cases e with
    | true =>
      rw [if_pos rfl]
      simp only [List.map_cons, List.flatten_cons]
      have h1 : ((roundRead cap fs).2 ++ (f ++
          ((roundRead cap fs).1.map Prod.fst).flatten)).Perm
          (f ++ ((roundRead cap fs).2 ++
            ((roundRead cap fs).1.map Prod.fst).flatten)) := by
        rw [← List.append_assoc, ← List.append_assoc]
        exact List.Perm.append_right _ List.perm_append_comm
      exact h1.trans (List.Perm.append_left f ih)
    | false =>
      rw [if_neg (by simp)]
      simp only [List.map_cons, List.flatten_cons]
      have h1 : (((readK cap f).2 ++ (roundRead cap fs).2) ++
          ((readK cap f).1.1 ++
            ((roundRead cap fs).1.map Prod.fst).flatten)).Perm
          (((readK cap f).2 ++ (readK cap f).1.1) ++
            ((roundRead cap fs).2 ++
              ((roundRead cap fs).1.map Prod.fst).flatten)) := by
        rw [List.append_assoc, List.append_assoc]
        refine List.Perm.append_left (readK cap f).2 ?_
        rw [← List.append_assoc, ← List.append_assoc]
        exact List.Perm.append_right _ List.perm_append_comm
      rw [readK_append cap f] at h1
      exact h1.trans (List.Perm.append_left f ih)

theorem roundRead_flags (cap : ℕ) : ∀ (files : List (List CREC × Bool)),
    (∀ p ∈ files, p.2 = true → p.1 = []) →
    ∀ p ∈ (roundRead cap files).1, p.2 = true → p.1 = [] := by
  intro files
  induction files with
  | nil => intro h p hp; exact absurd hp (by rw [roundRead]; simp)
  | cons q fs ih =>
    obtain ⟨f, e⟩ := q
    intro h p hp
    rw [roundRead] at hp
    cases e with
    | true =>
      rw [if_pos rfl] at hp
      rcases List.mem_cons.1 hp with hp | hp
      · subst hp
        exact h (f, true) (by simp)
      · exact ih (fun q hq => h q (by simp [hq])) p hp
    | false =>
      rw [if_neg (by simp)] at hp
      rcases List.mem_cons.1 hp with hp | hp
      · subst hp
        exact readK_flag cap f
      · exact ih (fun q hq => h q (by simp [hq])) p hp

theorem roundRead_empty (cap : ℕ) (hcap : 1 ≤ cap) :
    ∀ (files : List (List CREC × Bool)),
    (∀ p ∈ files, p.2 = true → p.1 = []) →
    (roundRead cap files).2 = [] → (files.map Prod.fst).flatten = [] := by
  intro files
  induction files with
  | nil => intro h hb; rfl
  | cons q fs ih =>
    obtain ⟨f, e⟩ := q
    intro h hb
    rw [roundRead] at hb
    simp only [List.map_cons, List.flatten_cons]
    cases e with
    | true =>
      rw [if_pos rfl] at hb
      have hf : f = [] := h (f, true) (by simp) rfl
      rw [hf, ih (fun q hq => h q (by simp [hq])) hb]
      rfl
    | false =>
      rw [if_neg (by simp)] at hb
      simp only [List.append_eq_nil] at hb
      have hf : f = [] := by
        rcases readK_empty cap f hb.1 with h0 | h0
        · omega
        · exact h0
      rw [hf, ih (fun q hq => h q (by simp [hq])) hb.2]
      rfl

theorem roundRead_sum (cap : ℕ) : ∀ (files : List (List CREC × Bool)),
    sumFst (roundRead cap files).1 + (roundRead cap files).2.length =
      sumFst files := by
  intro files
  induction files with
  | nil => rfl
  | cons q fs ih =>
    obtain ⟨f, e⟩ := q
    rw [roundRead]
    cases e with
    | true =>
      rw [if_pos rfl]
      unfold sumFst at *
      simp only [List.map_cons, List.sum_cons]
      omega
    | false =>
      rw [if_neg (by simp)]
      unfold sumFst at *
      simp only [List.map_cons, List.sum_cons, List.length_append]
      have hread := readK_append cap f
      have hlen : (readK cap f).2.length + (readK cap f).1.1.length =
          f.length := by
        rw [← List.length_append, hread]
      omega

theorem mergeRounds_perm (rl : ℕ → ℕ → ℕ → ℕ) (cap : ℕ) (hcap : 1 ≤ cap)
    (hrl : ∀ r i m, 0 < m → rl r i m < m) :
    ∀ (fuel r : ℕ) (files : List (List CREC × Bool)),
    sumFst files < fuel →
    (∀ p ∈ files, p.2 = true → p.1 = []) →
    (mergeRounds rl cap fuel r files).Perm ((files.map Prod.fst).flatten) := by
  intro fuel
  induction fuel with
  | zero => intro r files hfuel hinv; omega
  | succ fuel ih =>
    intro r files hfuel hinv
    rw [mergeRounds]
    by_cases hb : (roundRead cap files).2.isEmpty
    · rw [if_pos hb]
      rw [roundRead_empty cap hcap files hinv (by simpa [List.isEmpty_iff]
        using hb)]
    · rw [if_neg hb]
      have hbne : (roundRead cap files).2 ≠ [] := by
        simpa [List.isEmpty_iff] using hb
      have hsum := roundRead_sum cap files
      have hlen : 1 ≤ (roundRead cap files).2.length :=
        List.length_pos.2 hbne
      have hrec := ih (r + 1) (roundRead cap files).1 (by omega)
        (roundRead_flags cap files hinv)
      have hsh := shuffle_perm (rl r) (roundRead cap files).2
        (((roundRead cap files).2.length : ℤ) - 1) (by omega) (hrl r)
      exact (hsh.append hrec).trans (roundRead_perm cap files)

/-- Phase 2 writes back a permutation of the temporary files' contents,
provided `array_size / num >= 1`. -/
theorem shuffle_merge_perm (rl : ℕ → ℕ → ℕ → ℕ) (cap : ℕ)
    (files : List (List CREC)) (hcap : 1 ≤ cap)
    (hrl : ∀ r i m, 0 < m → rl r i m < m) :
    (shuffle_merge rl cap files).Perm files.flatten := by
  unfold shuffle_merge
  have hsum : sumFst (files.map (fun f => (f, false))) = sumLen files := by
    unfold sumFst sumLen
    rw [List.map_map]
    rfl
  have h := mergeRounds_perm rl cap hcap hrl (sumLen files + 1) 0
    (files.map (fun f => (f, false))) (by omega)
    (by intro p hp ht
        rw [List.mem_map] at hp
        obtain ⟨f, hf, rfl⟩ := hp
        simp at ht)
  refine h.trans ?_
  rw [List.map_map]
  have hid : (Prod.fst ∘ fun f => (f, false)) = (fun f : List CREC => f) := rfl
  rw [hid, List.map_id']

/-- C6 (amended): provided the number of temporary files does not exceed
`array_size` (so the per-file read quota `array_size / num` of phase 2 is
at least one record), the shuffler's standard output is a permutation of
its input, with exactly as many records.  The original unconditional claim
is refuted by `C6_shuffler_cx`: with more temporary files than
`array_size`, the quota is zero and every record is lost. -/
theorem C6_shuffler_permutation_amended (rls rl2 : ℕ → ℕ → ℕ → ℕ) (A : ℕ)
    (input : List CREC)
    (hrl1 : ∀ c i m, 0 < m → rls c i m < m)
    (hrl2 : ∀ r i m, 0 < m → rl2 r i m < m)
    (hnum : (shuffle_by_chunks rls A input).length ≤ A) :
    (shuffler rls rl2 A input).Perm input ∧
    (shuffler rls rl2 A input).length = input.length := by
  have hpos : 0 < (shuffle_by_chunks rls A input).length := by
    unfold shuffle_by_chunks
    rw [List.length_map, List.enum_length]
    exact List.length_pos.2 (chunksAux_ne_nil A input [])
  have hcap : 1 ≤ A / (shuffle_by_chunks rls A input).length :=
    (Nat.one_le_div_iff hpos).2 hnum
  have h1 := shuffle_merge_perm rl2 _ (shuffle_by_chunks rls A input)
    hcap hrl2
  have h2 := shuffle_by_chunks_flatten_perm rls A input hrl1
  have hperm := h1.trans h2
  exact ⟨hperm, hperm.length_eq⟩

/-- Counterexample to C6 as stated: with `array_size = 1` a three-record
input produces four temporary files, phase 2's per-file quota
`array_size / num` is `1 / 4 = 0`, its first round reads nothing, and the
shuffler's output is empty. -/
theorem C6_shuffler_cx :
    shuffler (fun _ _ _ => 0) (fun _ _ _ => 0) 1
      [⟨1, 1, 1⟩, ⟨2, 2, 2⟩, ⟨3, 3, 3⟩] = [] ∧
    ¬ (shuffler (fun _ _ _ => 0) (fun _ _ _ => 0) 1
      [⟨1, 1, 1⟩, ⟨2, 2, 2⟩, ⟨3, 3, 3⟩]).Perm
        [⟨1, 1, 1⟩, ⟨2, 2, 2⟩, ⟨3, 3, 3⟩] := by
  have heval : shuffler (fun _ _ _ => 0) (fun _ _ _ => 0) 1
      [⟨1, 1, 1⟩, ⟨2, 2, 2⟩, ⟨3, 3, 3⟩] = [] := by
    with_unfolding_all decide
  refine ⟨heval, ?_⟩
  intro hperm
  rw [heval] at hperm
  have hl := hperm.length_eq
  simp at hl

/-- Witness for the amended C6 with `array_size = 2` on three records. -/
theorem C6_shuffler_permutation_amended_witness :
    ((shuffle_by_chunks (fun _ _ _ => 0) 2
      [⟨1, 1, 1⟩, ⟨2, 2, 2⟩, ⟨3, 3, 3⟩]).length ≤ 2) ∧
    (shuffler (fun _ _ _ => 0) (fun _ _ _ => 0) 2
      [⟨1, 1, 1⟩, ⟨2, 2, 2⟩, ⟨3, 3, 3⟩]).Perm
        [⟨1, 1, 1⟩, ⟨2, 2, 2⟩, ⟨3, 3, 3⟩] ∧
    (shuffler (fun _ _ _ => 0) (fun _ _ _ => 0) 2
      [⟨1, 1, 1⟩, ⟨2, 2, 2⟩, ⟨3, 3, 3⟩]).length = 3 := by
  have h := C6_shuffler_permutation_amended (fun _ _ _ => 0)
    (fun _ _ _ => 0) 2 [⟨1, 1, 1⟩, ⟨2, 2, 2⟩, ⟨3, 3, 3⟩]
    (fun c i m hm => hm) (fun r i m hm => hm)
    (by with_unfolding_all decide)
  exact ⟨by with_unfolding_all decide, h.1, h.2⟩

theorem shuffle_by_chunks_getD (rls : ℕ → ℕ → ℕ → ℕ) (A : ℕ)
    (input : List CREC) (c : ℕ) (hc : c < (chunksAux A [] input).length) :
    (shuffle_by_chunks rls A input).getD c [] =
      shuffle (rls c) ((chunksAux A [] input).getD c [])
        ((((chunksAux A [] input).getD c []).length : ℤ) - 2) := by
  unfold shuffle_by_chunks
  rw [List.getD_eq_getElem _ _ (by
    rw [List.length_map, List.enum_length]; exact hc)]
  rw [List.getElem_map, List.getElem_enum]
  rw [List.getD_eq_getElem _ _ hc]

/-- C7 (amended): every buffer phase 1 fills — of `n` records — is passed
to `shuffle(array, n - 2)`, a Fisher–Yates walk over only its first
`n - 2` records: the chunk written to the run file agrees with the buffer
on the last two positions and is a permutation of the buffer's prefix.
The spec's claim of a Fisher–Yates pass over the full populated length is
refuted by `C7_phase1_cx`. -/
theorem C7_phase1_prefix_shuffle_amended (rls : ℕ → ℕ → ℕ → ℕ) (A : ℕ)
    (input : List CREC) (hrl : ∀ c i m, 0 < m → rls c i m < m) :
    ∀ c, c < (chunksAux A [] input).length →
      ((shuffle_by_chunks rls A input).getD c []).drop
          (((chunksAux A [] input).getD c []).length - 2) =
        ((chunksAux A [] input).getD c []).drop
          (((chunksAux A [] input).getD c []).length - 2) ∧
      (((shuffle_by_chunks rls A input).getD c []).take
          (((chunksAux A [] input).getD c []).length - 2)).Perm
        (((chunksAux A [] input).getD c []).take
          (((chunksAux A [] input).getD c []).length - 2)) := by
  intro c hc
  rw [shuffle_by_chunks_getD rls A input c hc]
  exact shuffle_prefix (rls c) _ (hrl c)

/-- Counterexample to C7 as stated: a full buffer of three distinct
records is written unchanged (`shuffle(array, 3 - 2)` performs no swap),
whereas the full Fisher–Yates pass of the specification, with the same
draws (all zero), would rotate it. -/
theorem C7_phase1_cx :
    shuffle_by_chunks (fun _ _ _ => 0) 3
      [⟨1, 1, 1⟩, ⟨2, 2, 2⟩, ⟨3, 3, 3⟩] ≠
      (chunksAux 3 [] [⟨1, 1, 1⟩, ⟨2, 2, 2⟩, ⟨3, 3, 3⟩]).enum.map
        (fun p => fisherYates ((fun _ _ _ => 0) p.1) p.2) := by
  with_unfolding_all decide

/-- Witness for the amended C7 on the first buffer of a three-record
input at `array_size = 3`. -/
theorem C7_phase1_prefix_shuffle_amended_witness :
    0 < (chunksAux 3 [] [⟨1, 1, 1⟩, ⟨2, 2, 2⟩, ⟨3, 3, 3⟩]).length ∧
    (((shuffle_by_chunks (fun _ _ _ => 0) 3
        [⟨1, 1, 1⟩, ⟨2, 2, 2⟩, ⟨3, 3, 3⟩]).getD 0 []).drop
        (((chunksAux 3 [] [⟨1, 1, 1⟩, ⟨2, 2, 2⟩, ⟨3, 3, 3⟩]).getD 0
          []).length - 2) =
      ((chunksAux 3 [] [⟨1, 1, 1⟩, ⟨2, 2, 2⟩, ⟨3, 3, 3⟩]).getD 0 []).drop
        (((chunksAux 3 [] [⟨1, 1, 1⟩, ⟨2, 2, 2⟩, ⟨3, 3, 3⟩]).getD 0
          []).length - 2)) ∧
    ((((shuffle_by_chunks (fun _ _ _ => 0) 3
        [⟨1, 1, 1⟩, ⟨2, 2, 2⟩, ⟨3, 3, 3⟩]).getD 0 []).take
        (((chunksAux 3 [] [⟨1, 1, 1⟩, ⟨2, 2, 2⟩, ⟨3, 3, 3⟩]).getD 0
          []).length - 2)).Perm
      (((chunksAux 3 [] [⟨1, 1, 1⟩, ⟨2, 2, 2⟩, ⟨3, 3, 3⟩]).getD 0 []).take
        (((chunksAux 3 [] [⟨1, 1, 1⟩, ⟨2, 2, 2⟩, ⟨3, 3, 3⟩]).getD 0
          []).length - 2))) := by
  have h := C7_phase1_prefix_shuffle_amended (fun _ _ _ => 0) 3
    [⟨1, 1, 1⟩, ⟨2, 2, 2⟩, ⟨3, 3, 3⟩] (fun c i m hm => hm) 0
    (by with_unfolding_all decide)
  exact ⟨by with_unfolding_all decide, h.1, h.2⟩

/-! ## Vocabulary builder (`vocab_count.c`)

A vocabulary entry as migrated from the hash table into the `vocab` array:
`typedef struct vocabulary { char *word; long long count; } VOCAB;`.
A C string is modelled as its list of bytes (without the terminating
`'\0'`); `count` is the `long long` occurrence count. -/
structure VOCAB where
  word : List ℕ
  count : ℤ
deriving DecidableEq

instance : Inhabited VOCAB := ⟨⟨[], 0⟩⟩

/-- `int scmp( char *s1, char *s2 ) { while (*s1 != '\0' && *s1 == *s2)
{s1++; s2++;} return(*s1 - *s2); }`.  The end of a list plays the role of
the `'\0'` terminator; a `0` byte inside a list also stops the walk, just
as the terminator does in C. -/
def scmp : List ℕ → List ℕ → ℤ
  | [], [] => 0
  | [], b :: _ => 0 - (b : ℤ)
  | a :: _, [] => (a : ℤ)
  | a :: s1, b :: s2 => if a ≠ 0 ∧ a = b then scmp s1 s2 else (a : ℤ) - (b : ℤ)

theorem scmp_neg : ∀ s t : List ℕ, scmp s t = -scmp t s
  | [], [] => by simp [scmp]
  | [], b :: t => by simp [scmp]
  | a :: s, [] => by simp [scmp]
  | a :: s, b :: t => by
    by_cases hab : a = b
    · subst hab
      by_cases h0 : a = 0
      · subst h0; simp [scmp]
      · rw [scmp, scmp, if_pos ⟨h0, rfl⟩, if_pos ⟨h0, rfl⟩, scmp_neg s t]
    · have hba : b ≠ a := fun h => hab h.symm
      rw [scmp, scmp, if_neg (fun h => hab h.2), if_neg (fun h => hba h.2)]
      ring

/-- The NUL-free prefix of a modelled C string: everything before the
first `0` byte. -/
def trunc : List ℕ → List ℕ
  | [] => []
  | a :: s => if a = 0 then [] else a :: trunc s

theorem trunc_ne_zero : ∀ s : List ℕ, ∀ x ∈ trunc s, x ≠ 0
  | [] => by simp [trunc]
  | a :: s => by
    rw [trunc]
    by_cases ha : a = 0
    · rw [if_pos ha]; simp
    · rw [if_neg ha]
      intro x hx
      rcases List.mem_cons.1 hx with h | h
      · subst h; exact ha
      · exact trunc_ne_zero s x h

/-- `scmp` only ever inspects the prefixes before the first `0` byte:
a `0` inside the list behaves exactly like the terminator. -/
theorem scmp_truncate : ∀ s t : List ℕ, scmp s t = scmp (trunc s) (trunc t)
  | [], [] => rfl
  | [], b :: t => by
    by_cases hb : b = 0
    · subst hb; simp [scmp, trunc]
    · simp [scmp, trunc, hb]
  | a :: s, [] => by
    by_cases ha : a = 0
    · subst ha; simp [scmp, trunc]
    · simp [scmp, trunc, ha]
  | a :: s, b :: t => by
    by_cases ha : a = 0
    · subst ha
      by_cases hb : b = 0
      · subst hb; simp [scmp, trunc]
      · simp [scmp, trunc, hb]
    · by_cases hb : b = 0
      · subst hb; simp [scmp, trunc, ha]
      · by_cases hab : a = b
        · subst hab
          rw [scmp, if_pos ⟨ha, rfl⟩, trunc, trunc, if_neg ha, if_neg ha,
            scmp, if_pos ⟨ha, rfl⟩, scmp_truncate s t]
        · rw [scmp, if_neg (fun h => hab h.2), trunc, trunc, if_neg ha,
            if_neg hb, scmp, if_neg (fun h => hab h.2)]

/-- On NUL-free strings `scmp` vanishes only on equal strings. -/
theorem scmp_eq_zero : ∀ s t : List ℕ, (∀ x ∈ s, x ≠ 0) → (∀ x ∈ t, x ≠ 0) →
    scmp s t = 0 → s = t
  | [], [], _, _, _ => rfl
  | [], b :: t, _, hb, h => by
    exfalso
    rw [scmp] at h
    exact hb b (by simp) (by omega)
  | a :: s, [], ha, _, h => by
    exfalso
    rw [scmp] at h
    exact ha a (by simp) (by omega)
  | a :: s, b :: t, ha, hb, h => by
    by_cases hab : a = b
    · subst hab
      rw [scmp, if_pos ⟨ha a (by simp), rfl⟩] at h
      rw [scmp_eq_zero s t (fun x hx => ha x (by simp [hx]))
        (fun x hx => hb x (by simp [hx])) h]
    · rw [scmp, if_neg (fun hh => hab hh.2)] at h
      exact absurd (by omega : a = b) hab

/-- `scmp(a, b) <= 0` is transitive on NUL-free strings. -/
theorem scmp_trans_aux : ∀ a b c : List ℕ, (∀ x ∈ a, x ≠ 0) → (∀ x ∈ b, x ≠ 0) →
    (∀ x ∈ c, x ≠ 0) → scmp a b ≤ 0 → scmp b c ≤ 0 → scmp a c ≤ 0
  | [], b, c, _, _, _, _, _ => by
    cases c with
    | nil => simp [scmp]
    | cons z c' => rw [scmp]; omega
  | x :: a', b, c, ha, hb, hc, h1, h2 => by
    have hx : x ≠ 0 := ha x (by simp)
    cases c with
    | nil =>
      exfalso
      cases b with
      | nil => rw [scmp] at h1; omega
      | cons y b' =>
        have hy : y ≠ 0 := hb y (by simp)
        rw [scmp] at h2
        omega
    | cons z c' =>
      cases b with
      | nil => exfalso; rw [scmp] at h1; omega
      | cons y b' =>
        have hy : y ≠ 0 := hb y (by simp)
        have hz : z ≠ 0 := hc z (by simp)
        by_cases hxy : x = y
        · by_cases hyz : y = z
          · subst hxy; subst hyz
            rw [scmp, if_pos ⟨hx, rfl⟩] at h1 h2 ⊢
            exact scmp_trans_aux a' b' c'
              (fun u hu => ha u (by simp [hu])) (fun u hu => hb u (by simp [hu]))
              (fun u hu => hc u (by simp [hu])) h1 h2
          · rw [scmp, if_neg (fun hh => hyz hh.2)] at h2
            have hyz' : y < z := by omega
            rw [scmp, if_neg (by intro hh; omega)]
            omega
        · rw [scmp, if_neg (fun hh => hxy hh.2)] at h1
          have hxy' : x < y := by omega
          by_cases hyz : y = z
          · subst hyz
            rw [scmp, if_neg (by intro hh; omega)]
            omega
          · rw [scmp] at h2
            rw [if_neg (fun hh => hyz hh.2)] at h2
            rw [scmp, if_neg (by intro hh; omega)]
            omega

/-- `scmp(a, b) <= 0` is transitive outright: by `scmp_truncate` every
comparison factors through the NUL-free prefixes. -/
theorem scmp_trans (a b c : List ℕ) (h1 : scmp a b ≤ 0) (h2 : scmp b c ≤ 0) :
    scmp a c ≤ 0 := by
  rw [scmp_truncate] at h1 h2 ⊢
  exact scmp_trans_aux _ _ _ (trunc_ne_zero a) (trunc_ne_zero b)
    (trunc_ne_zero c) h1 h2

/-- `CompareVocabTie`: count descending, ties broken by `scmp`. -/
def CompareVocabTie (a b : VOCAB) : ℤ :=
  if b.count - a.count ≠ 0 then (if 0 < b.count - a.count then 1 else -1)
  else scmp a.word b.word

/-- `CompareVocab`: count descending, no tie-breaker. -/
def CompareVocab (a b : VOCAB) : ℤ :=
  if b.count - a.count ≠ 0 then (if 0 < b.count - a.count then 1 else -1)
  else 0

/-- The relation `CompareVocabTie(a, b) <= 0` handed to `qsort`. -/
def vtLe (a b : VOCAB) : Prop := CompareVocabTie a b ≤ 0

/-- The relation `CompareVocab(a, b) <= 0` handed to `qsort`. -/
def vcLe (a b : VOCAB) : Prop := CompareVocab a b ≤ 0

instance : DecidableRel vtLe := fun a b =>
  inferInstanceAs (Decidable (CompareVocabTie a b ≤ 0))

instance : DecidableRel vcLe := fun a b =>
  inferInstanceAs (Decidable (CompareVocab a b ≤ 0))

theorem CompareVocabTie_nonpos_iff (a b : VOCAB) :
    CompareVocabTie a b ≤ 0 ↔
      b.count < a.count ∨ (a.count = b.count ∧ scmp a.word b.word ≤ 0) := by
  unfold CompareVocabTie
  by_cases h : b.count - a.count ≠ 0
  · rw [if_pos h]
    by_cases h2 : 0 < b.count - a.count
    · rw [if_pos h2]
      constructor
      · intro hle; exact absurd hle (by norm_num)
      · intro hd
        rcases hd with hd | hd
        · omega
        · exact absurd hd.1 (by omega)
    · rw [if_neg h2]
      constructor
      · intro _; left; omega
      · intro _; norm_num
  · rw [if_neg h]
    have hcc : a.count = b.count := by omega
    constructor
    · intro hle; exact Or.inr ⟨hcc, hle⟩
    · intro hd
      rcases hd with hd | hd
      · omega
      · exact hd.2

instance : IsTotal VOCAB vtLe :=
  ⟨fun a b => by
    unfold vtLe
    rw [CompareVocabTie_nonpos_iff, CompareVocabTie_nonpos_iff]
    rcases lt_trichotomy a.count b.count with h | h | h
    · exact Or.inr (Or.inl h)
    · have hs := scmp_neg a.word b.word
      rcases le_total (scmp a.word b.word) 0 with hle | hge
      · exact Or.inl (Or.inr ⟨h, hle⟩)
      · exact Or.inr (Or.inr ⟨h.symm, by omega⟩)
    · exact Or.inl (Or.inl h)⟩

instance : IsTrans VOCAB vtLe :=
  ⟨fun a b c hab hbc => by
    unfold vtLe at *
    rw [CompareVocabTie_nonpos_iff] at *
    rcases hab with h1 | ⟨h1, hs1⟩
    · rcases hbc with h2 | ⟨h2, hs2⟩
      · exact Or.inl (by omega)
      · exact Or.inl (by omega)
    · rcases hbc with h2 | ⟨h2, hs2⟩
      · exact Or.inl (by omega)
      · exact Or.inr ⟨h1.trans h2, scmp_trans _ _ _ hs1 hs2⟩⟩

/-- The tail of `get_counts` (`vocab_count.c`), from the point where the
hash table has been migrated into the array `vocab` (here `arr`, in
whatever order the table traversal produced):

```
if (max_vocab > 0 && max_vocab < j) qsort(vocab, j, sizeof(VOCAB), CompareVocab);
else max_vocab = j;
qsort(vocab, max_vocab, sizeof(VOCAB), CompareVocabTie);
for (i = 0; i < max_vocab; i++) {
    if (vocab[i].count < min_count) break;
    printf("%s %lld\n",vocab[i].word,vocab[i].count); }
```

Sorting the first `max_vocab` cells in place and printing that prefix is
modelled as `take max_vocab` followed by a sort; C's `qsort` leaves the
order of tied entries unspecified, and the ordering property proved below
holds for every order consistent with the comparator, so a deterministic
comparator sort is a faithful model. -/
def get_counts (max_vocab : ℕ) (min_count : ℤ) (arr : List VOCAB) : List VOCAB :=
  (List.insertionSort vtLe
      (if 0 < max_vocab ∧ max_vocab < arr.length then
        (List.insertionSort vcLe arr).take max_vocab
      else arr)).takeWhile (fun v => decide (min_count ≤ v.count))

theorem sortTakeWhile_pairwise (p : VOCAB → Bool) (l : List VOCAB)
    (hN : ∀ v ∈ l, ∀ x ∈ v.word, x ≠ 0)
    (hD : (l.map VOCAB.word).Nodup) :
    ((List.insertionSort vtLe l).takeWhile p).Pairwise
      (fun a b => b.count < a.count ∨
        (a.count = b.count ∧ scmp a.word b.word < 0)) := by
  have hsorted : (List.insertionSort vtLe l).Pairwise vtLe :=
    List.sorted_insertionSort vtLe l
  have hPW : ((List.insertionSort vtLe l).takeWhile p).Pairwise vtLe :=
    hsorted.sublist (List.takeWhile_sublist p)
  have hndsort : ((List.insertionSort vtLe l).map VOCAB.word).Nodup :=
    (((List.perm_insertionSort vtLe l).map VOCAB.word).nodup_iff).2 hD
  have hndout : (((List.insertionSort vtLe l).takeWhile p).map VOCAB.word).Nodup :=
    List.Nodup.sublist ((List.takeWhile_sublist p).map VOCAB.word) hndsort
  have hneq : ((List.insertionSort vtLe l).takeWhile p).Pairwise
      (fun a b => a.word ≠ b.word) := List.pairwise_map.1 hndout
  have hmem : ∀ v ∈ (List.insertionSort vtLe l).takeWhile p, v ∈ l := by
    intro v hv
    exact (List.perm_insertionSort vtLe l).mem_iff.1
      ((List.takeWhile_sublist p).subset hv)
  refine (hPW.and hneq).imp_of_mem ?_
  intro a b ha hb hab
  rcases hab with ⟨hle, hw⟩
  rw [vtLe, CompareVocabTie_nonpos_iff] at hle
  rcases hle with h | ⟨hc, hs⟩
  · exact Or.inl h
  · refine Or.inr ⟨hc, lt_of_le_of_ne hs ?_⟩
    intro h0
    exact hw (scmp_eq_zero _ _ (hN a (hmem a ha)) (hN b (hmem b hb)) h0)

/-- C8: any two lines `i < j` of the vocabulary builder's output satisfy
`count(i) > count(j)`, or `count(i) = count(j)` and `word(i)` strictly
precedes `word(j)` in ascending byte order (`scmp < 0`), for every
migrated hash-table array whose words are NUL-free and pairwise distinct
(as hash-table keys are). -/
theorem C8_vocab_output_sorted (max_vocab : ℕ) (min_count : ℤ)
    (arr : List VOCAB)
    (hN : ∀ v ∈ arr, ∀ x ∈ v.word, x ≠ 0)
    (hD : (arr.map VOCAB.word).Nodup) :
    (get_counts max_vocab min_count arr).Pairwise
      (fun a b => b.count < a.count ∨
        (a.count = b.count ∧ scmp a.word b.word < 0)) := by
  unfold get_counts
  split
  · refine sortTakeWhile_pairwise _ _ ?_ ?_
    · intro v hv
      exact hN v ((List.perm_insertionSort vcLe arr).mem_iff.1
        (List.mem_of_mem_take hv))
    · rw [List.map_take]
      exact List.Nodup.sublist (List.take_sublist _ _)
        ((((List.perm_insertionSort vcLe arr).map VOCAB.word).nodup_iff).2 hD)
  · exact sortTakeWhile_pairwise _ _ hN hD

/-- Witness for C8 at a concrete three-word array. -/
theorem C8_vocab_output_sorted_witness :
    (∀ v ∈ ([⟨[98], 2⟩, ⟨[97], 2⟩, ⟨[99], 1⟩] : List VOCAB),
      ∀ x ∈ v.word, x ≠ 0) ∧
    (([⟨[98], 2⟩, ⟨[97], 2⟩, ⟨[99], 1⟩] : List VOCAB).map VOCAB.word).Nodup ∧
    (get_counts 0 1 [⟨[98], 2⟩, ⟨[97], 2⟩, ⟨[99], 1⟩]).Pairwise
      (fun a b => b.count < a.count ∨
        (a.count = b.count ∧ scmp a.word b.word < 0)) :=
  ⟨by decide, by decide,
    C8_vocab_output_sorted 0 1 _ (by decide) (by decide)⟩

/-! ## Byte-level tokenisation (`get_word` and `fscanf("%1000s")`) -/

/-- `static const int MAX_STRING_LENGTH = 1000;` (`cooccur.c`), and
`#define MAX_STRING_LENGTH 1000` (`vocab_count.c`). -/
def MAX_STRING_LENGTH : ℕ := 1000

/-- Result of one `get_word` call: `newline` is the `return 1` taken on a
bare `'\n'`, `token w` is the `return 0` with `word` holding `w`. -/
inductive GWRes where
  | newline : GWRes
  | token : List ℤ → GWRes
deriving DecidableEq

/-- The `while (!feof(fin))` loop of `get_word` (`cooccur.c`).  The input
stream is the list of remaining byte values; `buf` is the `word` buffer
and `i` its write index.  When the stream is exhausted, `fgetc` still
returns once more — with `EOF` (-1) — before `feof` becomes true, and that
value is stored like any ordinary character; the final `word[i] = 0`
terminator restricts the result to indices below `i`. -/
def getWordLoop (M : ℕ) : List ℤ → (ℕ → ℤ) → ℕ → GWRes × List ℤ
  | [], buf, i =>
    (GWRes.token ((List.range
        (if M - 1 ≤ i + 1 then i + 1 - 1 else i + 1)).map
        (fun k => if k = i then (-1 : ℤ) else buf k)), [])
  | ch :: rest, buf, i =>
    if ch = 13 then getWordLoop M rest buf i
    else if ch = 32 ∨ ch = 9 ∨ ch = 10 then
      (if 0 < i then
        (GWRes.token ((List.range i).map buf),
          if ch = 10 then ch :: rest else rest)
      else if ch = 10 then (GWRes.newline, rest)
      else getWordLoop M rest buf i)
    else
      getWordLoop M rest (fun k => if k = i then ch else buf k)
        (if M - 1 ≤ i + 1 then i + 1 - 1 else i + 1)

/-- `get_word(word, fin)` on a fresh buffer. -/
def get_word (fin : List ℤ) : GWRes × List ℤ :=
  getWordLoop MAX_STRING_LENGTH fin (fun _ => 0) 0

/-- A word of `n` non-delimiter bytes followed by a space comes back from
`get_word` as its first `min(n, 998)` bytes: `word[i++] = ch` with the cap
`if (i >= MAX_STRING_LENGTH - 1) i--` never lets `i` pass `998`, and the
terminating `word[i] = 0` erases the byte parked at index `998`. -/
theorem getWordLoop_run : ∀ (run : List ℤ) (rest : List ℤ) (buf : ℕ → ℤ)
    (i : ℕ), i ≤ 998 → 0 < i + run.length →
    (∀ c ∈ run, ¬(c = 13) ∧ ¬(c = 32 ∨ c = 9 ∨ c = 10)) →
    getWordLoop 1000 (run ++ 32 :: rest) buf i =
      (GWRes.token ((List.range i).map buf ++ run.take (998 - i)), rest)
  | [], rest, buf, i, hi, hpos, _ => by
    rw [List.nil_append, getWordLoop, if_neg (by norm_num),
      if_pos (Or.inl rfl), if_pos (by simpa using hpos),
      if_neg (by norm_num)]
    simp
  | c :: run', rest, buf, i, hi, hpos, hr => by
    have hc := hr c (by simp)
    rw [List.cons_append, getWordLoop, if_neg hc.1, if_neg hc.2]
    by_cases h998 : i = 998
    · subst h998
      rw [if_pos (by norm_num)]
      simp only [Nat.add_sub_cancel]
      rw [getWordLoop_run run' rest _ 998 (by norm_num) (by norm_num)
        (fun u hu => hr u (by simp [hu]))]
      have hmap : (List.range 998).map (fun k => if k = 998 then c else buf k)
          = (List.range 998).map buf := by
        refine List.map_congr_left ?_
        intro k hk
        rw [List.mem_range] at hk
        rw [if_neg (by omega)]
      rw [hmap]
      simp
    · have hilt : i < 998 := by omega
      rw [if_neg (by omega)]
      rw [getWordLoop_run run' rest _ (i + 1) (by omega) (by omega)
        (fun u hu => hr u (by simp [hu]))]
      have hmap : (List.range i).map (fun k => if k = i then c else buf k)
          = (List.range i).map buf := by
        refine List.map_congr_left ?_
        intro k hk
        rw [List.mem_range] at hk
        rw [if_neg (by omega)]
      rw [List.range_succ, List.map_append, List.map_singleton, if_pos rfl,
        hmap]
      have htk : 998 - i = (998 - (i + 1)) + 1 := by omega
      rw [htk, List.take_succ_cons, List.append_assoc]
      rfl

/-- `get_word` on a space-terminated run keeps the first 998 bytes. -/
theorem get_word_run (run rest : List ℤ) (hne : run ≠ [])
    (hr : ∀ c ∈ run, ¬(c = 13) ∧ ¬(c = 32 ∨ c = 9 ∨ c = 10)) :
    get_word (run ++ 32 :: rest) = (GWRes.token (run.take 998), rest) := by
  rw [get_word, MAX_STRING_LENGTH,
    getWordLoop_run run rest _ 0 (by norm_num)
      (by simpa using List.length_pos.2 hne) hr]
  simp

/-- The whitespace class of `fscanf` (`isspace`): space, `\t`, `\n`,
`\v`, `\f`, `\r`. -/
def isspace (c : ℤ) : Bool :=
  c = 32 || c = 9 || c = 10 || c = 13 || c = 11 || c = 12

theorem isspace_false_parts (c : ℤ) (h : isspace c = false) :
    ¬(c = 13) ∧ ¬(c = 32 ∨ c = 9 ∨ c = 10) := by
  constructor
  · intro hh; subst hh; exact absurd h (by decide)
  · intro hh
    rcases hh with h1 | h1 | h1 <;> (subst h1; exact absurd h (by decide))

/-- The body of one `%Ns` conversion after the first byte has matched:
read at most `m` further bytes, stopping at whitespace or end of input,
and return the bytes read together with the unread remainder. -/
def takeNonSpace : ℕ → List ℤ → List ℤ × List ℤ
  | 0, s => ([], s)
  | _ + 1, [] => ([], [])
  | m + 1, c :: rest =>
    if isspace c then ([], c :: rest)
    else ((c :: (takeNonSpace m rest).1), (takeNonSpace m rest).2)

/-- One `fscanf(fid, "%1000s", str)` call (with width `M`): skip
whitespace, then read up to `M` non-whitespace bytes; `none` models the
`EOF` return when the input ends before any byte matches.  Bytes beyond
the width are left in the stream. -/
def fscanfToken (M : ℕ) : List ℤ → Option (List ℤ) × List ℤ
  | [] => (none, [])
  | c :: rest =>
    if isspace c then fscanfToken M rest
    else (some (c :: (takeNonSpace (M - 1) rest).1),
      (takeNonSpace (M - 1) rest).2)

/-- The token stream the `while (fscanf(fid, format, str) != EOF)` loop
of `get_counts` (`vocab_count.c`) sees, with enough fuel to exhaust the
input. -/
def vocabTokensAux : ℕ → List ℤ → List (List ℤ)
  | 0, _ => []
  | f + 1, s =>
    match fscanfToken MAX_STRING_LENGTH s with
    | (none, _) => []
    | (some t, r) => t :: vocabTokensAux f r

def vocabTokens (s : List ℤ) : List (List ℤ) :=
  vocabTokensAux (s.length + 1) s

theorem vocabTokensAux_step (f : ℕ) (s t r : List ℤ)
    (h : fscanfToken MAX_STRING_LENGTH s = (some t, r)) :
    vocabTokensAux (f + 1) s = t :: vocabTokensAux f r := by
  rw [vocabTokensAux, h]

theorem vocabTokensAux_stop (f : ℕ) (s r : List ℤ)
    (h : fscanfToken MAX_STRING_LENGTH s = (none, r)) :
    vocabTokensAux (f + 1) s = [] := by
  rw [vocabTokensAux, h]

theorem takeNonSpace_run : ∀ (m : ℕ) (run rest : List ℤ),
    (∀ c ∈ run, isspace c = false) →
    takeNonSpace m (run ++ 32 :: rest) = (run.take m, run.drop m ++ 32 :: rest)
  | 0, run, rest, _ => by rw [takeNonSpace]; simp
  | m + 1, [], rest, _ => by
    rw [List.nil_append, takeNonSpace, if_pos (by rw [isspace]; norm_num)]
    simp
  | m + 1, c :: run', rest, hr => by
    rw [List.cons_append, takeNonSpace, if_neg (by rw [hr c (by simp)]; simp),
      takeNonSpace_run m run' rest (fun u hu => hr u (by simp [hu]))]
    simp

/-- `fscanf("%1000s")` on a space-terminated run keeps the first 1000
bytes and leaves the rest of the run in the stream. -/
theorem fscanfToken_run (run rest : List ℤ) (hne : run ≠ [])
    (hr : ∀ c ∈ run, isspace c = false) :
    fscanfToken MAX_STRING_LENGTH (run ++ 32 :: rest) =
      (some (run.take 1000), run.drop 1000 ++ 32 :: rest) := by
  cases run with
  | nil => exact absurd rfl hne
  | cons c run' =>
    rw [List.cons_append, fscanfToken, if_neg (by rw [hr c (by simp)]; simp),
      MAX_STRING_LENGTH]
    rw [show (1000 : ℕ) - 1 = 999 from rfl,
      takeNonSpace_run 999 run' rest (fun u hu => hr u (by simp [hu]))]
    rfl

/-- C9 (amended): a whitespace-delimited token is truncated differently
by the two programs.  The co-occurrence accumulator's `get_word` keeps
only the first 998 bytes (`i` is capped at `MAX_STRING_LENGTH - 1` and
the terminator then overwrites index 998) and discards the excess, while
the vocabulary builder's `fscanf("%1000s")` keeps the first 1000 bytes
and leaves the excess in the stream, where the next call reads it as a
further token. -/
theorem C9_token_truncation_amended (run rest : List ℤ) (hne : run ≠ [])
    (hc : ∀ c ∈ run, isspace c = false) :
    get_word (run ++ 32 :: rest) = (GWRes.token (run.take 998), rest) ∧
    fscanfToken MAX_STRING_LENGTH (run ++ 32 :: rest) =
      (some (run.take 1000), run.drop 1000 ++ 32 :: rest) := by
  constructor
  · exact get_word_run run rest hne
      (fun c hcm => isspace_false_parts c (hc c hcm))
  · exact fscanfToken_run run rest hne hc

/-- Witness for the amended C9 on the two-byte stream `"a "`. -/
theorem C9_token_truncation_amended_witness :
    (([97] : List ℤ) ≠ [] ∧ ∀ c ∈ ([97] : List ℤ), isspace c = false) ∧
    get_word (([97] : List ℤ) ++ 32 :: []) =
      (GWRes.token (([97] : List ℤ).take 998), []) ∧
    fscanfToken MAX_STRING_LENGTH (([97] : List ℤ) ++ 32 :: []) =
      (some (([97] : List ℤ).take 1000),
        ([97] : List ℤ).drop 1000 ++ 32 :: []) :=
  ⟨⟨by decide, by decide⟩,
    C9_token_truncation_amended [97] [] (by decide) (by decide)⟩

/-- Counterexample to C9 as stated: a 1001-byte token followed by a space.
`get_word` returns its first 998 bytes, not 1000; and the vocabulary
builder's scanner returns the first 1000 bytes but then reads the excess
byte as a second token instead of discarding it. -/
theorem C9_token_truncation_cx :
    (get_word (List.replicate 1001 (97 : ℤ) ++ 32 :: [])).1 =
      GWRes.token (List.replicate 998 (97 : ℤ)) ∧
    (List.replicate 998 (97 : ℤ)).length ≠ 1000 ∧
    vocabTokens (List.replicate 1001 (97 : ℤ) ++ 32 :: []) =
      [List.replicate 1000 (97 : ℤ), [97]] := by
  have hr : ∀ c ∈ List.replicate 1001 (97 : ℤ), isspace c = false := by
    intro c hcm
    rw [List.eq_of_mem_replicate hcm]
    decide
  have hne : List.replicate 1001 (97 : ℤ) ≠ [] := by
    intro h
    have := congrArg List.length h
    rw [List.length_replicate, List.length_nil] at this
    exact absurd this (by norm_num)
  refine ⟨?_, by rw [List.length_replicate]; norm_num, ?_⟩
  · rw [get_word_run _ [] hne (fun c hcm => isspace_false_parts c (hr c hcm)),
      List.take_replicate, show min 998 1001 = 998 by norm_num]
  · rw [vocabTokens]
    have hlen : (List.replicate 1001 (97 : ℤ) ++ 32 :: []).length + 1
        = 1002 + 1 := by
      simp only [List.length_append, List.length_replicate, List.length_cons,
        List.length_nil]
    rw [hlen, vocabTokensAux_step 1002 _ _ _ (fscanfToken_run _ [] hne hr)]
    rw [List.take_replicate, List.drop_replicate]
    norm_num
    rw [show [(97 : ℤ), 32] = [(97 : ℤ)] ++ 32 :: [] from rfl]
    rw [show (1002 : ℕ) = 1001 + 1 by norm_num,
      vocabTokensAux_step 1001 _ _ _
        (fscanfToken_run [(97 : ℤ)] [] (by simp) (by decide))]
    rw [List.take_of_length_le (by norm_num),
      List.drop_eq_nil_of_le (by norm_num), List.nil_append]
    rw [show (1001 : ℕ) = 1000 + 1 by norm_num,
      vocabTokensAux_stop 1000 (32 :: []) [] (by decide)]

end GloVe
